import Mathlib

/-!
Verification of the gardiz plane-geometry library: a shallow embedding of its
spatial map (dual BTreeMap index), cardinal graph, turn-penalised A-star path
maker, spatial set draft and rectangle border iterator, together with theorems
settling the specification claims.  Coordinates are embedded as `Int` (the
library is generic over an ordered numeric coordinate; `Int` has exact
arithmetic, so checked operations never overflow).  Ordered dictionaries
(`BTreeMap`) are embedded as association lists sorted strictly by key.
-/

set_option maxHeartbeats 1000000

namespace Gardiz

/-- Cardinal direction in the plane (direc.rs).  Up decreases Y, Down
increases Y, Left decreases X, Right increases X. -/
inductive Direction : Type where
  | up
  | down
  | left
  | right
deriving DecidableEq, Repr, Inhabited

/-- Axis of the plane (axis.rs). -/
inductive Axis : Type where
  | y
  | x
deriving DecidableEq, Repr, Inhabited

/-- Direction::ALL, in source order Up, Down, Left, Right. -/
def Direction.list : List Direction :=
  [Direction.up, Direction.down, Direction.left, Direction.right]

/-- Opposite direction (Not for Direction in direc.rs). -/
def Direction.opp : Direction → Direction
  | Direction.up => Direction.down
  | Direction.down => Direction.up
  | Direction.left => Direction.right
  | Direction.right => Direction.left

/-- Axis on which a direction varies (Direction::axis). -/
def Direction.axis : Direction → Axis
  | Direction.up => Axis.y
  | Direction.down => Axis.y
  | Direction.left => Axis.x
  | Direction.right => Axis.x

/-- A 2-D point or vector with integer coordinates (coord.rs Vec2; the source
struct stores y first, then x). -/
structure Vec2 : Type where
  y : Int
  x : Int
deriving DecidableEq, Repr, Inhabited

/-- Total mapping from directions to values (direc.rs DirecMap). -/
structure DirecMap (α : Type) : Type where
  up : α
  left : α
  down : α
  right : α
deriving DecidableEq, Repr, Inhabited

/-- Indexing a DirecMap by direction. -/
def DirecMap.dget {α : Type} (m : DirecMap α) : Direction → α
  | Direction.up => m.up
  | Direction.down => m.down
  | Direction.left => m.left
  | Direction.right => m.right

/-- Functional update of a DirecMap at a direction. -/
def DirecMap.dset {α : Type} (m : DirecMap α) : Direction → α → DirecMap α
  | Direction.up, v => { m with up := v }
  | Direction.down, v => { m with down := v }
  | Direction.left, v => { m with left := v }
  | Direction.right, v => { m with right := v }

/-- A run-length encoded step: direction together with magnitude
(direc.rs DirecVector, magnitude embedded at Int). -/
structure DirecVector : Type where
  direction : Direction
  magnitude : Int
deriving DecidableEq, Repr, Inhabited

/-- Vec2::direction_to: the straight direction from one point to another, if
any.  Compares coordinates exactly as the source match on orderings does. -/
def Vec2.directionTo (a b : Vec2) : Option Direction :=
  if a.x = b.x then
    if a.y > b.y then some Direction.up
    else if a.y < b.y then some Direction.down
    else none
  else if a.y = b.y then
    if a.x > b.x then some Direction.left
    else if a.x < b.x then some Direction.right
    else none
  else none

/-- Vec2::move_one specialised to Int (move_by with magnitude one); the
checked variant never overflows on Int, so checked_move p d = some (moveOne p d). -/
def Vec2.moveOne (p : Vec2) : Direction → Vec2
  | Direction.up => { p with y := p.y - 1 }
  | Direction.down => { p with y := p.y + 1 }
  | Direction.left => { p with x := p.x - 1 }
  | Direction.right => { p with x := p.x + 1 }

/-- Absolute distance between two Int coordinates (bits.rs Distance impl:
if self greater than other then self minus other else other minus self). -/
def idist (a b : Int) : Int :=
  if a > b then a - b else b - a

/-! ## Ordered dictionary model

A BTreeMap with Int keys is embedded as an association list sorted strictly
by key.  Range scans become filters, which agree with BTreeMap ranges on
sorted lists. -/

/-- Association list with Int keys standing for a BTreeMap. -/
abbrev Tbl (V : Type) : Type := List (Int × V)

/-- BTreeMap::get. -/
def Tbl.get {V : Type} : Tbl V → Int → Option V
  | [], _ => none
  | (k, v) :: rest, key => if key = k then some v else Tbl.get rest key

/-- BTreeMap::contains_key. -/
def Tbl.containsKey {V : Type} (t : Tbl V) (key : Int) : Bool :=
  (Tbl.get t key).isSome

/-- BTreeMap::insert: sorted insertion, replacing an existing entry. -/
def Tbl.insert {V : Type} : Tbl V → Int → V → Tbl V
  | [], key, v => [(key, v)]
  | (k, w) :: rest, key, v =>
    if key < k then (key, v) :: (k, w) :: rest
    else if key = k then (key, v) :: rest
    else (k, w) :: Tbl.insert rest key v

/-- BTreeMap::remove (dropping the entry; the removed value is read with
Tbl.get beforehand). -/
def Tbl.remove {V : Type} : Tbl V → Int → Tbl V
  | [], _ => []
  | (k, w) :: rest, key =>
    if key = k then rest else (k, w) :: Tbl.remove rest key

/-- BTreeMap::is_empty. -/
def Tbl.isEmpty {V : Type} (t : Tbl V) : Bool :=
  List.isEmpty t

/-- Strict sortedness of a table by key, the BTreeMap representation
invariant. -/
def Tbl.Sorted {V : Type} (t : Tbl V) : Prop :=
  List.Pairwise (fun a b => a.1 < b.1) t

/-! ## Spatial map (map.rs)

The map stores two nested tables: the X-primary table (outer key x, inner
key y) and the Y-primary table (outer key y, inner key x), mirroring
neighbours : Vec2 of BTreeMap of BTreeMap in the source. -/

/-- Spatial map from points to values (map.rs Map). -/
structure SMap (V : Type) : Type where
  neighboursX : Tbl (Tbl V)
  neighboursY : Tbl (Tbl V)
deriving DecidableEq, Repr

/-- Map::new. -/
def SMap.empty {V : Type} : SMap V :=
  { neighboursX := [], neighboursY := [] }

/-- Map::is_empty (tests the X-primary table only, as the source does). -/
def SMap.isEmpty {V : Type} (m : SMap V) : Bool :=
  Tbl.isEmpty m.neighboursX

/-- Map::get: looks the point up through the X-primary table. -/
def SMap.get {V : Type} (m : SMap V) (p : Vec2) : Option V :=
  (Tbl.get m.neighboursX p.x).bind (fun ys => Tbl.get ys p.y)

/-- Map::contains. -/
def SMap.contains {V : Type} (m : SMap V) (p : Vec2) : Bool :=
  match Tbl.get m.neighboursX p.x with
  | some ys => Tbl.containsKey ys p.y
  | none => false

/-- Map::insert on one nested table: fetch the outer bucket (or a fresh one,
as entry().or_default() does), insert into it, and store it back.  Returns
the previous value. -/
def Tbl.insert2 {V : Type} (t : Tbl (Tbl V)) (key innerKey : Int) (v : V) :
    Option V × Tbl (Tbl V) :=
  let bucket := (Tbl.get t key).getD []
  (Tbl.get bucket innerKey, Tbl.insert t key (Tbl.insert bucket innerKey v))

/-- Map::insert: inserts into both tables; the returned previous value is the
one from the X-primary table (old.x in the source). -/
def SMap.insert {V : Type} (m : SMap V) (p : Vec2) (v : V) :
    Option V × SMap V :=
  let rx := Tbl.insert2 m.neighboursX p.x p.y v
  let ry := Tbl.insert2 m.neighboursY p.y p.x v
  (rx.1, { neighboursX := rx.2, neighboursY := ry.2 })

/-- Map::create on one nested table: vacant outer bucket gives a fresh
one-entry bucket; occupied outer bucket succeeds only when the inner key is
vacant. -/
def Tbl.create2 {V : Type} (t : Tbl (Tbl V)) (key innerKey : Int) (v : V) :
    Bool × Tbl (Tbl V) :=
  match Tbl.get t key with
  | none => (true, Tbl.insert t key [(innerKey, v)])
  | some bucket =>
    match Tbl.get bucket innerKey with
    | none => (true, Tbl.insert t key (Tbl.insert bucket innerKey v))
    | some _ => (false, t)

/-- Map::create: creates in both tables independently; the reported result is
the X-side one (result.x in the source). -/
def SMap.create {V : Type} (m : SMap V) (p : Vec2) (v : V) : Bool × SMap V :=
  let rx := Tbl.create2 m.neighboursX p.x p.y v
  let ry := Tbl.create2 m.neighboursY p.y p.x v
  (rx.1, { neighboursX := rx.2, neighboursY := ry.2 })

/-- Map::update on one nested table, assuming the outer bucket is present:
replaces the inner entry when present (Ok with the old value), otherwise Err
with the rejected value and no change. -/
def Tbl.update2 {V : Type} (t : Tbl (Tbl V)) (bucket : Tbl V)
    (key innerKey : Int) (v : V) : Except V V × Tbl (Tbl V) :=
  match Tbl.get bucket innerKey with
  | some old => (Except.ok old, Tbl.insert t key (Tbl.insert bucket innerKey v))
  | none => (Except.error v, t)

/-- Map::update: if either outer bucket is missing the value is rejected and
nothing changes; otherwise each table is updated where its inner entry is
present, and the X-side outcome is returned (old.x in the source). -/
def SMap.update {V : Type} (m : SMap V) (p : Vec2) (v : V) :
    Except V V × SMap V :=
  match Tbl.get m.neighboursX p.x, Tbl.get m.neighboursY p.y with
  | some xb, some yb =>
    let rx := Tbl.update2 m.neighboursX xb p.x p.y v
    let ry := Tbl.update2 m.neighboursY yb p.y p.x v
    (rx.1, { neighboursX := rx.2, neighboursY := ry.2 })
  | _, _ => (Except.error v, m)

/-- Map::remove on one nested table, mirroring the source closure faithfully:
the inner entry is removed from the bucket, and then the source tests
table.is_empty() on the OUTER table (not the bucket) before pruning — a test
that can never hold right after a successful outer lookup, so the prune is
dead code.  The embedding reproduces this literally. -/
def Tbl.remove2 {V : Type} (t : Tbl (Tbl V)) (key innerKey : Int) :
    Option V × Tbl (Tbl V) :=
  match Tbl.get t key with
  | none => (none, t)
  | some bucket =>
    let removed := Tbl.get bucket innerKey
    let t1 := Tbl.insert t key (Tbl.remove bucket innerKey)
    if Tbl.isEmpty t1 then (removed, Tbl.remove t1 key) else (removed, t1)

/-- Map::remove: removes from both tables; the returned value is the X-side
one (removed.x in the source). -/
def SMap.remove {V : Type} (m : SMap V) (p : Vec2) : Option V × SMap V :=
  let rx := Tbl.remove2 m.neighboursX p.x p.y
  let ry := Tbl.remove2 m.neighboursY p.y p.x
  (rx.1, { neighboursX := rx.2, neighboursY := ry.2 })

/-! ## Neighbour iteration (map.rs NeighboursInner and Neighbours)

NeighboursInner::new requires the outer bucket for the fixed coordinate to
exist AND the bucket to contain the moving coordinate of the query point;
otherwise the iterator is empty.  The range is a filter of the sorted bucket;
Up and Left iterate it in reverse. -/

/-- Map::neighbours_incl, materialised as the full list the iterator yields. -/
def SMap.neighboursIncl {V : Type} (m : SMap V) (p : Vec2) (d : Direction) :
    List (Vec2 × V) :=
  match d with
  | Direction.up =>
    match Tbl.get m.neighboursX p.x with
    | none => []
    | some tbl =>
      if Tbl.containsKey tbl p.y then
        ((tbl.filter (fun e => e.1 ≤ p.y)).reverse).map
          (fun e => ({ x := p.x, y := e.1 }, e.2))
      else []
  | Direction.down =>
    match Tbl.get m.neighboursX p.x with
    | none => []
    | some tbl =>
      if Tbl.containsKey tbl p.y then
        (tbl.filter (fun e => p.y ≤ e.1)).map
          (fun e => ({ x := p.x, y := e.1 }, e.2))
      else []
  | Direction.left =>
    match Tbl.get m.neighboursY p.y with
    | none => []
    | some tbl =>
      if Tbl.containsKey tbl p.x then
        ((tbl.filter (fun e => e.1 ≤ p.x)).reverse).map
          (fun e => ({ x := e.1, y := p.y }, e.2))
      else []
  | Direction.right =>
    match Tbl.get m.neighboursY p.y with
    | none => []
    | some tbl =>
      if Tbl.containsKey tbl p.x then
        (tbl.filter (fun e => p.x ≤ e.1)).map
          (fun e => ({ x := e.1, y := p.y }, e.2))
      else []

/-- Map::neighbours: the inclusive iterator advanced once, dropping the
query point itself. -/
def SMap.neighbours {V : Type} (m : SMap V) (p : Vec2) (d : Direction) :
    List (Vec2 × V) :=
  (SMap.neighboursIncl m p d).drop 1

/-- Map::first_neighbour_data. -/
def SMap.firstNeighbourData {V : Type} (m : SMap V) (p : Vec2)
    (d : Direction) : Option (Vec2 × V) :=
  (SMap.neighbours m p d).head?

/-- Map::first_neighbour. -/
def SMap.firstNeighbour {V : Type} (m : SMap V) (p : Vec2) (d : Direction) :
    Option Vec2 :=
  (SMap.firstNeighbourData m p d).map Prod.fst

/-! ## Cardinal graph (graph.rs) -/

/-- Per-vertex record of edge presence in each direction (graph.rs
VertexEdges = DirecMap of bool). -/
abbrev VertexEdges : Type := DirecMap Bool

/-- A planar graph of points with cardinal edges, wrapping a spatial map
from vertices to their edge flags (graph.rs Graph). -/
structure Graph : Type where
  verticesEdges : SMap VertexEdges
deriving DecidableEq, Repr

/-- Graph::new. -/
def Graph.empty : Graph :=
  { verticesEdges := SMap.empty }

/-- Graph::vertex_edges. -/
def Graph.vertexEdges (g : Graph) (v : Vec2) : Option VertexEdges :=
  SMap.get g.verticesEdges v

/-- Graph::are_connected: the two points lie in a straight direction, the
first vertex records an edge that way, and the second is the first map
neighbour in that direction. -/
def Graph.areConnected (g : Graph) (a b : Vec2) : Bool :=
  match Vec2.directionTo a b with
  | none => false
  | some d =>
    match Graph.vertexEdges g a with
    | none => false
    | some es =>
      es.dget d && decide (SMap.firstNeighbour g.verticesEdges a d = some b)

/-- Graph::connected_at. -/
def Graph.connectedAt (g : Graph) (v : Vec2) (d : Direction) : Option Vec2 :=
  match Graph.vertexEdges g v with
  | none => none
  | some es =>
    if es.dget d then SMap.firstNeighbour g.verticesEdges v d else none

/-- Graph::create_vertex: the new vertex's flags are seeded from its first
map neighbours — a direction is marked when the neighbour there already
points back — and the vertex is then created in the map.  The flag loop
reads the map before the insertion, as the source does. -/
def Graph.createVertex (g : Graph) (p : Vec2) : Bool × Graph :=
  let edges := Direction.list.foldl
    (fun (acc : VertexEdges) d =>
      match SMap.firstNeighbourData g.verticesEdges p d with
      | some (_, qes) => if qes.dget (Direction.opp d) then acc.dset d true else acc
      | none => acc)
    { up := false, left := false, down := false, right := false }
  let r := SMap.create g.verticesEdges p edges
  (r.1, { verticesEdges := r.2 })

/-- Graph::connect, with Rust panics embedded as none: panics when the two
points are not in a straight direction, when the second is not the first
map neighbour of the first, or when either vertex record is missing.
Otherwise returns whether a new edge was recorded, with the updated graph. -/
def Graph.connectE (g : Graph) (a b : Vec2) : Option (Bool × Graph) :=
  match Vec2.directionTo a b with
  | none => none
  | some d =>
    if SMap.firstNeighbour g.verticesEdges a d ≠ some b then none
    else
      match Graph.vertexEdges g a with
      | none => none
      | some esA =>
        if esA.dget d then some (false, g)
        else
          let m1 := (SMap.update g.verticesEdges a (esA.dset d true)).2
          match SMap.get m1 b with
          | none => none
          | some esB =>
            let m2 := (SMap.update m1 b (esB.dset (Direction.opp d) true)).2
            some (true, { verticesEdges := m2 })

/-- Graph::disconnect, with Rust panics embedded as none. -/
def Graph.disconnectE (g : Graph) (a b : Vec2) : Option (Bool × Graph) :=
  match Vec2.directionTo a b with
  | none => none
  | some d =>
    if SMap.firstNeighbour g.verticesEdges a d ≠ some b then none
    else
      match Graph.vertexEdges g a with
      | none => none
      | some esA =>
        if esA.dget d then
          let m1 := (SMap.update g.verticesEdges a (esA.dset d false)).2
          match SMap.get m1 b with
          | none => none
          | some esB =>
            let m2 := (SMap.update m1 b (esB.dset (Direction.opp d) false)).2
            some (true, { verticesEdges := m2 })
        else some (false, g)

/-- Graph::remove_vertex: for each direction the first neighbour loses its
flag toward the removed vertex unless the vertex had an edge out the
opposite way (a pass-through edge, which is preserved); the vertex is then
removed from the map. -/
def Graph.removeVertex (g : Graph) (p : Vec2) : Bool × Graph :=
  match SMap.get g.verticesEdges p with
  | none => (false, g)
  | some pes =>
    let m1 := Direction.list.foldl
      (fun (m : SMap VertexEdges) d =>
        match SMap.firstNeighbourData m p d with
        | some (q, qes) =>
          if ¬ pes.dget (Direction.opp d) then
            (SMap.update m q (qes.dset (Direction.opp d) false)).2
          else m
        | none => m)
      g.verticesEdges
    ((true, { verticesEdges := (SMap.remove m1 p).2 }) : Bool × Graph)

/-- Graph::remove_with_edges: every neighbour that the removed vertex points
at loses its flag back toward it; the vertex is then removed from the map. -/
def Graph.removeWithEdges (g : Graph) (p : Vec2) : Bool × Graph :=
  match SMap.get g.verticesEdges p with
  | none => (false, g)
  | some pes =>
    let m1 := Direction.list.foldl
      (fun (m : SMap VertexEdges) d =>
        match SMap.firstNeighbourData m p d with
        | some (q, qes) =>
          if pes.dget d then
            (SMap.update m q (qes.dset (Direction.opp d) false)).2
          else m
        | none => m)
      g.verticesEdges
    ((true, { verticesEdges := (SMap.remove m1 p).2 }) : Bool × Graph)

/-! ## Path maker (graph.rs PathMakerBuf, PathMakerCall)

The A-star cost is a pair (distance, turns) compared lexicographically (the
derived ordering of the Cost struct).  The frontier is Rust's std BinaryHeap
of entries compared by reversed cost, embedded below with the std push and
pop sift algorithms so that pop order — including among stale duplicates —
matches the source.  The travelled and predecessors HashMaps are embedded as
association lists observed only through keyed lookup. -/

/-- Search cost: travelled distance and number of turns (graph.rs Cost). -/
structure Cost : Type where
  distance : Int
  turns : Int
deriving DecidableEq, Repr, Inhabited

/-- Lexicographic strict order on costs, the derived Ord of the source
struct (distance first, then turns). -/
def Cost.clt (a b : Cost) : Bool :=
  a.distance < b.distance || (a.distance = b.distance && a.turns < b.turns)

/-- A frontier entry: cost with its point (graph.rs BinaryHeapEntry).  The
source orders entries by cost alone, reversed, so the std max-heap acts as a
min-heap on cost. -/
abbrev HeapEntry : Type := Cost × Vec2

/-- Heap entry strict order: a is greater than b in heap order when its cost
is smaller (Ord::cmp reversed on cost alone). -/
def heapGT (a b : HeapEntry) : Bool :=
  Cost.clt a.1 b.1

/-- BinaryHeap::sift_up of std: the lifted element walks up while it is
strictly greater (in heap order) than its parent, displacing parents
downward, and settles in the final hole.  The fuel argument only bounds the
loop structurally; the position strictly decreases, so the fuel supplied by
heapSiftUp always suffices. -/
def heapSiftUpGo : Nat → List HeapEntry → Nat → Nat → HeapEntry → List HeapEntry
  | 0, data, _, pos, elem => data.set pos elem
  | fuel + 1, data, start, pos, elem =>
    if start < pos then
      let parent := (pos - 1) / 2
      let pe := data.getD parent default
      if heapGT elem pe then heapSiftUpGo fuel (data.set pos pe) start parent elem
      else data.set pos elem
    else data.set pos elem

/-- Run of sift_up with ample fuel. -/
def heapSiftUp (data : List HeapEntry) (start pos : Nat) (elem : HeapEntry) :
    List HeapEntry :=
  heapSiftUpGo (pos + 1) data start pos elem

/-- BinaryHeap::push of std: append, then sift the new element up. -/
def heapPush (data : List HeapEntry) (e : HeapEntry) : List HeapEntry :=
  heapSiftUp (data ++ [e]) 0 data.length e

/-- Descent phase of std BinaryHeap::sift_down_to_bottom: the hole walks to
the bottom along the greater child (the right child on ties), moving
children up; returns the array and the final hole position.  The fuel
argument only bounds the loop structurally; the position strictly
increases toward endIdx, so the fuel supplied by heapSiftDownToBottom
always suffices. -/
def heapSiftDownGo : Nat → List HeapEntry → Nat → Nat → List HeapEntry × Nat
  | 0, data, _, pos => (data, pos)
  | fuel + 1, data, endIdx, pos =>
    if 2 * pos + 1 < endIdx - 1 then
      let c :=
        if heapGT (data.getD (2 * pos + 1 + 1) default) (data.getD (2 * pos + 1) default)
            || decide ((data.getD (2 * pos + 1) default).1 = (data.getD (2 * pos + 1 + 1) default).1)
        then 2 * pos + 1 + 1 else 2 * pos + 1
      heapSiftDownGo fuel (data.set pos (data.getD c default)) endIdx c
    else (data, pos)

/-- BinaryHeap::sift_down_to_bottom of std: descend the hole to the bottom
(taking the last single child if one remains), then sift the displaced
element back up from there. -/
def heapSiftDownToBottom (data : List HeapEntry) (endIdx pos : Nat)
    (elem : HeapEntry) : List HeapEntry :=
  let r := heapSiftDownGo endIdx data endIdx pos
  let child := 2 * r.2 + 1
  if child = endIdx - 1 then
    heapSiftUp (r.1.set r.2 (r.1.getD child default)) pos child elem
  else
    heapSiftUp r.1 pos r.2 elem

/-- BinaryHeap::pop of std: remove the last element, swap it with the root,
and sift it down to the bottom; returns the removed maximum with the
remaining heap. -/
def heapPop (data : List HeapEntry) : Option (HeapEntry × List HeapEntry) :=
  match data.getLast? with
  | none => none
  | some item =>
    let rest := data.dropLast
    if List.isEmpty rest then some (item, [])
    else
      let top := rest.getD 0 default
      some (top, heapSiftDownToBottom (rest.set 0 item) rest.length 0 item)

/-- Keyed lookup in a HashMap embedded as an association list. -/
def aget {V : Type} : List (Vec2 × V) → Vec2 → Option V
  | [], _ => none
  | (k, v) :: rest, key => if key = k then some v else aget rest key

/-- Keyed insertion in a HashMap embedded as an association list, replacing
an existing entry. -/
def ainsert {V : Type} : List (Vec2 × V) → Vec2 → V → List (Vec2 × V)
  | [], key, v => [(key, v)]
  | (k, w) :: rest, key, v =>
    if key = k then (key, v) :: rest else (k, w) :: ainsert rest key v

/-- The search bookkeeping owned by PathMakerBuf: best known costs, best
predecessors, and the frontier. -/
structure AState : Type where
  travelled : List (Vec2 × Cost)
  predecessors : List (Vec2 × Vec2)
  costPoints : List HeapEntry
deriving Repr

/-- PathMakerCall::eval_neighbours: relax the four neighbours of the popped
point in source direction order.  The checked step never overflows on Int;
a neighbour is considered only when the validity predicate admits it.  The
turn test compares the direction from the current predecessor.  On strict
improvement the predecessor and travelled tables are updated and the entry
is pushed with the Manhattan heuristic added to its stored distance. -/
def evalNeighbours (penalty : Int) (goal : Vec2) (valid : Vec2 → Bool)
    (st : AState) (current : Vec2) : AState :=
  Direction.list.foldl
    (fun (st : AState) d =>
      let nb := Vec2.moveOne current d
      if valid nb then
        match aget st.travelled current with
        | none => st
        | some c =>
          let isTurning :=
            match aget st.predecessors current with
            | some prev => decide (Vec2.directionTo prev current ≠ some d)
            | none => false
          let att : Cost :=
            if isTurning then
              { distance := c.distance + 1 + penalty, turns := c.turns + 1 }
            else
              { distance := c.distance + 1, turns := c.turns }
          let better :=
            match aget st.travelled nb with
            | none => true
            | some old => Cost.clt att old
          if better then
            let heuristics := idist nb.x goal.x + idist nb.y goal.y
            { travelled := ainsert st.travelled nb att
              predecessors := ainsert st.predecessors nb current
              costPoints := heapPush st.costPoints
                ({ distance := att.distance + heuristics, turns := att.turns }, nb) }
          else st
      else st)
    st

/-- Outcome of a make_path call: fuelOut marks exhausted embedding fuel,
panicked marks a Rust panic inside path assembly, noPath is the None
result, and path carries the returned steps with the mutated graph. -/
inductive MPOut : Type where
  | fuelOut : MPOut
  | panicked : MPOut
  | noPath : Graph → MPOut
  | path : List DirecVector → Graph → MPOut
deriving DecidableEq, Repr

/-- PathMakerCall::assemble_path: walk the predecessor chain back from the
goal, coalescing same-direction unit steps (the steps list is kept in
reverse of the source Vec, so the source's final reversal is the identity
here).  At each direction change the corner is created as a vertex and
connected to the previous anchor; a predecessor that is already a vertex is
connected and becomes the anchor as well. -/
def assembleGo (fuel : Nat) (preds : List (Vec2 × Vec2)) (startP : Vec2)
    (g : Graph) (lastV current : Vec2) (steps : List DirecVector) : MPOut :=
  match fuel with
  | 0 => MPOut.fuelOut
  | fuel + 1 =>
    if current = startP then MPOut.path steps g
    else
      match aget preds current with
      | none => MPOut.panicked
      | some prev =>
        match Vec2.directionTo prev current with
        | none => MPOut.panicked
        | some dir =>
          let cont := fun (g1 : Graph) (lastV1 : Vec2)
              (steps1 : List DirecVector) =>
            if SMap.contains g1.verticesEdges prev then
              match Graph.connectE g1 lastV1 prev with
              | none => MPOut.panicked
              | some r =>
                assembleGo fuel preds startP r.2 prev prev steps1
            else
              assembleGo fuel preds startP g1 lastV1 prev steps1
          match steps with
          | s :: rest =>
            if s.direction = dir then
              cont g lastV ({ direction := dir, magnitude := s.magnitude + 1 } :: rest)
            else
              if lastV ≠ current then
                let g1 := (Graph.createVertex g current).2
                match Graph.connectE g1 lastV current with
                | none => MPOut.panicked
                | some r =>
                  cont r.2 current ({ direction := dir, magnitude := 1 } :: s :: rest)
              else
                cont g lastV ({ direction := dir, magnitude := 1 } :: s :: rest)
          | [] =>
            if lastV ≠ current then
              let g1 := (Graph.createVertex g current).2
              match Graph.connectE g1 lastV current with
              | none => MPOut.panicked
              | some r =>
                cont r.2 current [{ direction := dir, magnitude := 1 }]
            else
              cont g lastV [{ direction := dir, magnitude := 1 }]

/-- PathMakerCall::run: pop the frontier; an empty frontier means no path,
popping the goal assembles the result, and anything else expands its
neighbours. -/
def runGo (fuel : Nat) (penalty : Int) (startP goal : Vec2)
    (valid : Vec2 → Bool) (st : AState) (g : Graph) : MPOut :=
  match fuel with
  | 0 => MPOut.fuelOut
  | fuel + 1 =>
    match heapPop st.costPoints with
    | none => MPOut.noPath g
    | some (entry, heap1) =>
      let st1 : AState := { st with costPoints := heap1 }
      if entry.2 = goal then
        assembleGo fuel st1.predecessors startP g goal goal []
      else
        runGo fuel penalty startP goal valid (evalNeighbours penalty goal valid st1 entry.2) g

/-- Graph::make_path through PathMakerBuf::make_path and PathMakerCall::new:
the start point enters the travelled table at zero cost and the frontier
with zero cost, then the search loop runs.  The fuel parameter is an
embedding artifact bounding the number of loop iterations. -/
def makePath (fuel : Nat) (g : Graph) (startP goal : Vec2) (penalty : Int)
    (valid : Vec2 → Bool) : MPOut :=
  let st : AState :=
    { travelled := [(startP, { distance := 0, turns := 0 })]
      predecessors := []
      costPoints := heapPush [] ({ distance := 0, turns := 0 }, startP) }
  runGo fuel penalty startP goal valid st g

/-! ## The specification cost model

The following definitions transcribe the specification's cost model for a
walked path: each unit step adds one to distance; a direction change with
respect to the step that entered the current point adds one to turns and
the penalty to distance; costs compare lexicographically. -/

/-- Unit directions of a run-length encoded step sequence. -/
def flattenSteps : List DirecVector → List Direction
  | [] => []
  | s :: rest => List.replicate s.magnitude.toNat s.direction ++ flattenSteps rest

/-- Cost of a unit-direction walk under the specification cost model,
starting with the given direction of the entering step, if any. -/
def walkCostGo (penalty : Int) : Option Direction → List Direction → Cost
  | _, [] => { distance := 0, turns := 0 }
  | lastD, d :: rest =>
    let tailCost := walkCostGo penalty (some d) rest
    if lastD = some d ∨ lastD = none then
      { distance := tailCost.distance + 1, turns := tailCost.turns }
    else
      { distance := tailCost.distance + 1 + penalty, turns := tailCost.turns + 1 }

/-- Cost of a walked step sequence under the specification cost model. -/
def walkCost (penalty : Int) (steps : List DirecVector) : Cost :=
  walkCostGo penalty none (flattenSteps steps)

/-- Points visited by a unit-direction walk, after the starting point. -/
def walkPoints (p : Vec2) : List Direction → List Vec2
  | [] => []
  | d :: rest => Vec2.moveOne p d :: walkPoints (Vec2.moveOne p d) rest

/-- Endpoint of a unit-direction walk. -/
def walkEnd (p : Vec2) : List Direction → Vec2
  | [] => p
  | d :: rest => walkEnd (Vec2.moveOne p d) rest

/-! ## Spatial set (set.rs draft)

The set stores two nested structures keyed by axis value: BTreeMap from x
to BTreeSet of y, and BTreeMap from y to BTreeSet of x.  A BTreeSet of Int
is embedded as a sorted list. -/

/-- Sorted-list embedding of a BTreeSet of Int. -/
abbrev BSet : Type := List Int

/-- BTreeSet::contains. -/
def BSet.bcontains (s : BSet) (v : Int) : Bool :=
  s.contains v

/-- BTreeSet::insert: sorted insertion without duplicates. -/
def BSet.binsert : BSet → Int → BSet
  | [], v => [v]
  | w :: rest, v =>
    if v < w then v :: w :: rest
    else if v = w then w :: rest
    else w :: BSet.binsert rest v

/-- BTreeSet::remove (dropping the element; the returned flag is read with
BSet.bcontains beforehand). -/
def BSet.bremove : BSet → Int → BSet
  | [], _ => []
  | w :: rest, v => if v = w then rest else w :: BSet.bremove rest v

/-- Spatial set of points (set.rs Set). -/
structure PSet : Type where
  neighboursX : Tbl BSet
  neighboursY : Tbl BSet
deriving DecidableEq, Repr

/-- Set::new. -/
def PSet.empty : PSet :=
  { neighboursX := [], neighboursY := [] }

/-- Set::contains (looks through the X table). -/
def PSet.contains (s : PSet) (p : Vec2) : Bool :=
  match Tbl.get s.neighboursX p.x with
  | some ys => BSet.bcontains ys p.y
  | none => false

/-- Set::insert on one nested table: fetch the bucket (or a fresh one, as
entry().or_default() does) and insert the value; the BTreeSet insertion
result is discarded, as the source discards it. -/
def PSet.insert2 (t : Tbl BSet) (key value : Int) : Tbl BSet :=
  let bucket := (Tbl.get t key).getD []
  Tbl.insert t key (BSet.binsert bucket value)

/-- Set::insert: inserts the point into both tables and returns unit. -/
def PSet.insert (s : PSet) (p : Vec2) : PSet :=
  { neighboursX := PSet.insert2 s.neighboursX p.x p.y
    neighboursY := PSet.insert2 s.neighboursY p.y p.x }

/-- Set::remove on one nested table, mirroring the source closure: the value
is removed from the bucket, and whenever that removal succeeded the source
removes the WHOLE outer bucket — regardless of whether the bucket still
holds other values. -/
def PSet.remove2 (t : Tbl BSet) (key value : Int) : Bool × Tbl BSet :=
  match Tbl.get t key with
  | none => (false, t)
  | some bucket =>
    let removed := BSet.bcontains bucket value
    let t1 := Tbl.insert t key (BSet.bremove bucket value)
    if removed then (true, Tbl.remove t1 key) else (false, t1)

/-- Set::remove: removes from both tables; reports whether both removals
succeeded. -/
def PSet.remove (s : PSet) (p : Vec2) : Bool × PSet :=
  let rx := PSet.remove2 s.neighboursX p.x p.y
  let ry := PSet.remove2 s.neighboursY p.y p.x
  (rx.1 && ry.1, { neighboursX := rx.2, neighboursY := ry.2 })

/-! ## Rectangle borders (rect.rs)

The border iterator is a state machine over the inclusive end of the
rectangle: a column phase (fixed axis X) walking the left then the right
column, and a row phase (fixed axis Y) walking the top then the bottom row
from the second column onward. -/

/-- A rectangle: top-left start and size per dimension (rect.rs Rect). -/
structure Rect : Type where
  start : Vec2
  size : Vec2
deriving DecidableEq, Repr

/-- Rect::is_empty: the rectangle has no points when either extent is zero. -/
def Rect.isEmpty (r : Rect) : Bool :=
  r.size.x = 0 || r.size.y = 0

/-- Rect::end_non_empty_ref: the inclusive bottom-right corner, or none when
the size VECTOR is zero (both components; Vec2::is_zero requires both). -/
def Rect.endNonEmpty (r : Rect) : Option Vec2 :=
  if r.size.x = 0 ∧ r.size.y = 0 then none
  else some { x := r.start.x + r.size.x - 1, y := r.start.y + r.size.y - 1 }

/-- Iteration state of the border iterator (rect.rs RectBordersInner). -/
structure BState : Type where
  bstart : Vec2
  bend : Vec2
  fixedAxis : Axis
  curr : Vec2
deriving DecidableEq, Repr

/-- RectBordersInner::to_second_col. -/
def BState.toSecondCol (st : BState) : BState :=
  { st with curr := { x := st.bend.x, y := st.bstart.y } }

/-- RectBordersInner::to_first_row. -/
def BState.toFirstRow (st : BState) : BState :=
  { st with curr := { x := st.bstart.x + 1, y := st.bstart.y },
            fixedAxis := Axis.y }

/-- RectBordersInner::to_second_row. -/
def BState.toSecondRow (st : BState) : BState :=
  { st with curr := { x := st.bstart.x + 1, y := st.bend.y } }

/-- RectBorders::next: emits the current point and steps the state machine;
none marks iterator exhaustion. -/
def bordersNext (st : BState) : Vec2 × Option BState :=
  match st.fixedAxis with
  | Axis.x =>
    if st.curr.y ≥ st.bend.y then
      if st.curr.x ≥ st.bend.x then
        if st.bstart.x < st.bend.x then (st.curr, some st.toFirstRow)
        else (st.curr, none)
      else (st.curr, some st.toSecondCol)
    else (st.curr, some { st with curr := { st.curr with y := st.curr.y + 1 } })
  | Axis.y =>
    if st.curr.x ≥ st.bend.x then
      if st.curr.y < st.bend.y then (st.curr, some st.toSecondRow)
      else (st.curr, none)
    else (st.curr, some { st with curr := { st.curr with x := st.curr.x + 1 } })

/-- Rect::borders: the initial iterator state, none when the size vector is
zero. -/
def bordersInit (r : Rect) : Option BState :=
  (Rect.endNonEmpty r).map
    (fun e => { bstart := r.start, bend := e, fixedAxis := Axis.x, curr := r.start })

/-- Collect the border iterator's output; the fuel bounds the number of
next() calls in the embedding. -/
def bordersRun : Nat → Option BState → List Vec2
  | 0, _ => []
  | _, none => []
  | fuel + 1, some st =>
    let r := bordersNext st
    r.1 :: bordersRun fuel r.2

/-- Fuel amply covering a full border walk of the rectangle. -/
def bordersFuel (r : Rect) : Nat :=
  (2 * (r.size.x + r.size.y)).toNat + 4

/-- The full list of points yielded by Rect::borders. -/
def bordersList (r : Rect) : List Vec2 :=
  bordersRun (bordersFuel r) (bordersInit r)

/-! ## Well-formedness of the embedded BTreeMaps

A table is well formed when its keys are strictly increasing, which is the
invariant every BTreeMap maintains; the spatial map moreover keeps its two
nested tables in duality (same points, same values). -/

/-- Keys of a table. -/
def Tbl.keys {V : Type} (t : Tbl V) : List Int :=
  t.map Prod.fst

/-- Sortedness of a table: strictly increasing keys. -/
def Tbl.SortedK {V : Type} (t : Tbl V) : Prop :=
  List.Pairwise (fun a b => a.1 < b.1) t

theorem Tbl.sortedK_nil {V : Type} : Tbl.SortedK ([] : Tbl V) :=
  List.Pairwise.nil

theorem Tbl.sortedK_cons {V : Type} {e : Int × V} {t : Tbl V} :
    Tbl.SortedK (e :: t) ↔ (∀ f ∈ t, e.1 < f.1) ∧ Tbl.SortedK t := by
  simp [Tbl.SortedK, List.pairwise_cons]

theorem Tbl.get_eq_some_of_mem {V : Type} {t : Tbl V} {k : Int} {v : V}
    (hs : Tbl.SortedK t) (hm : (k, v) ∈ t) : Tbl.get t k = some v := by
  induction t with
  | nil => cases hm
  | cons e rest ih =>
    rcases Tbl.sortedK_cons.mp hs with ⟨hlt, hrest⟩
    rcases List.mem_cons.mp hm with h | h
    · cases h
      simp [Tbl.get]
    · have hk : k ≠ e.1 := by
        have := hlt _ h
        omega
      simp [Tbl.get, hk, ih hrest h]

theorem Tbl.mem_of_get_eq_some {V : Type} {t : Tbl V} {k : Int} {v : V}
    (h : Tbl.get t k = some v) : (k, v) ∈ t := by
  induction t with
  | nil => simp [Tbl.get] at h
  | cons e rest ih =>
    by_cases hk : k = e.1
    · subst hk
      simp [Tbl.get] at h
      subst h
      exact List.mem_cons_self _ _
    · simp [Tbl.get, hk] at h
      exact List.mem_cons_of_mem _ (ih h)

theorem Tbl.get_eq_some_iff {V : Type} {t : Tbl V} (hs : Tbl.SortedK t)
    {k : Int} {v : V} : Tbl.get t k = some v ↔ (k, v) ∈ t :=
  ⟨Tbl.mem_of_get_eq_some, Tbl.get_eq_some_of_mem hs⟩

theorem Tbl.tget_insert {V : Type} (t : Tbl V) (k : Int) (v : V) (k' : Int) :
    Tbl.get (Tbl.insert t k v) k' = if k' = k then some v else Tbl.get t k' := by
  induction t with
  | nil =>
    by_cases h : k' = k <;> simp [Tbl.insert, Tbl.get, h]
  | cons e rest ih =>
    simp only [Tbl.insert]
    by_cases h1 : k < e.1
    · simp only [if_pos h1]
      by_cases h : k' = k
      · simp [Tbl.get, h]
      · simp [Tbl.get, h]
    · by_cases h2 : k = e.1
      · simp only [if_neg h1, if_pos h2]
        by_cases h : k' = k
        · simp [Tbl.get, h]
        · have h3 : k' ≠ e.1 := by rw [← h2]; exact h
          simp [Tbl.get, h, h3]
      · simp only [if_neg h1, if_neg h2]
        by_cases h3 : k' = e.1
        · have h4 : k' ≠ k := by rw [h3]; intro hc; exact h2 hc.symm
          have h5 : e.1 ≠ k := fun hc => h2 hc.symm
          simp [Tbl.get, h3, h4, h5]
        · simp [Tbl.get, h3, ih]

theorem Tbl.mem_insert {V : Type} {t : Tbl V} {k : Int} {v : V} {f : Int × V} :
    f ∈ Tbl.insert t k v → f = (k, v) ∨ f ∈ t := by
  induction t with
  | nil => intro h; simp [Tbl.insert] at h; left; exact h
  | cons e rest ih =>
    intro hf
    by_cases h1 : k < e.1
    · simp only [Tbl.insert, if_pos h1, List.mem_cons] at hf
      rcases hf with h | h | h
      · left; exact h
      · right; simp [h]
      · right; exact List.mem_cons_of_mem _ h
    · by_cases h2 : k = e.1
      · simp only [Tbl.insert, if_neg h1, if_pos h2, List.mem_cons] at hf
        rcases hf with h | h
        · left; exact h
        · right; exact List.mem_cons_of_mem _ h
      · simp only [Tbl.insert, if_neg h1, if_neg h2, List.mem_cons] at hf
        rcases hf with h | h
        · right; simp [h]
        · rcases ih h with h3 | h3
          · left; exact h3
          · right; exact List.mem_cons_of_mem _ h3

theorem Tbl.sortedK_insert {V : Type} {t : Tbl V} (hs : Tbl.SortedK t)
    (k : Int) (v : V) : Tbl.SortedK (Tbl.insert t k v) := by
  induction t with
  | nil => simp [Tbl.insert, Tbl.SortedK]
  | cons e rest ih =>
    rcases Tbl.sortedK_cons.mp hs with ⟨hlt, hrest⟩
    by_cases h1 : k < e.1
    · simp only [Tbl.insert, if_pos h1]
      refine Tbl.sortedK_cons.mpr ⟨?_, hs⟩
      intro f hf
      rcases List.mem_cons.mp hf with h | h
      · rw [h]; exact h1
      · exact lt_trans h1 (hlt _ h)
    · by_cases h2 : k = e.1
      · subst h2
        simp only [Tbl.insert, if_neg h1, if_pos rfl]
        exact Tbl.sortedK_cons.mpr ⟨hlt, hrest⟩
      · simp only [Tbl.insert, if_neg h1, if_neg h2]
        refine Tbl.sortedK_cons.mpr ⟨?_, ih hrest⟩
        intro f hf
        rcases Tbl.mem_insert hf with h | h
        · rw [h]; simp; omega
        · exact hlt _ h

theorem Tbl.tget_remove {V : Type} {t : Tbl V} (hs : Tbl.SortedK t)
    (k k' : Int) :
    Tbl.get (Tbl.remove t k) k' = if k' = k then none else Tbl.get t k' := by
  induction t with
  | nil => by_cases h : k' = k <;> simp [Tbl.remove, Tbl.get, h]
  | cons e rest ih =>
    rcases Tbl.sortedK_cons.mp hs with ⟨hlt, hrest⟩
    simp only [Tbl.remove]
    by_cases h1 : k = e.1
    · simp only [if_pos h1]
      by_cases h : k' = k
      · simp only [if_pos h]
        cases hg : Tbl.get rest k' with
        | none => rfl
        | some v =>
          have h2 := hlt _ (Tbl.mem_of_get_eq_some hg)
          rw [h, h1] at h2
          omega
      · have h3 : k' ≠ e.1 := by rw [← h1]; exact h
        simp [Tbl.get, h, h3]
    · by_cases h : k' = k
      · have hne : k' ≠ e.1 := by rw [h]; exact h1
        simp only [if_neg h1]
        have h4 : Tbl.get (e :: Tbl.remove rest k) k' = Tbl.get (Tbl.remove rest k) k' := by
          simp [Tbl.get, hne]
        rw [h4, ih hrest, if_pos h, if_pos h]
      · by_cases h3 : k' = e.1
        · have h5 : ¬ e.1 = k := fun hc => h (by rw [h3, hc])
          simp [Tbl.get, h1, h3, h, h5, ih hrest]
        · simp [Tbl.get, h1, h3, h, ih hrest]

theorem Tbl.mem_remove {V : Type} {t : Tbl V} {k : Int} {f : Int × V} :
    f ∈ Tbl.remove t k → f ∈ t := by
  induction t with
  | nil => simp [Tbl.remove]
  | cons e rest ih =>
    intro hf
    by_cases h1 : k = e.1
    · simp only [Tbl.remove, if_pos h1] at hf
      exact List.mem_cons_of_mem _ hf
    · simp only [Tbl.remove, if_neg h1, List.mem_cons] at hf
      rcases hf with h | h
      · simp [h]
      · exact List.mem_cons_of_mem _ (ih h)

theorem Tbl.sortedK_remove {V : Type} {t : Tbl V} (hs : Tbl.SortedK t)
    (k : Int) : Tbl.SortedK (Tbl.remove t k) := by
  induction t with
  | nil => simpa [Tbl.remove] using hs
  | cons e rest ih =>
    rcases Tbl.sortedK_cons.mp hs with ⟨hlt, hrest⟩
    by_cases h1 : k = e.1
    · simpa [Tbl.remove, h1] using hrest
    · simp only [Tbl.remove, if_neg h1]
      exact Tbl.sortedK_cons.mpr
        ⟨fun f hf => hlt _ (Tbl.mem_remove hf), ih hrest⟩

theorem Tbl.containsKey_iff {V : Type} {t : Tbl V} {k : Int} :
    Tbl.containsKey t k = true ↔ ∃ v, Tbl.get t k = some v := by
  simp [Tbl.containsKey, Option.isSome_iff_exists]

theorem Tbl.insert_ne_nil {V : Type} (t : Tbl V) (k : Int) (v : V) :
    Tbl.insert t k v ≠ [] := by
  cases t with
  | nil => simp [Tbl.insert]
  | cons e rest =>
    simp only [Tbl.insert]
    by_cases h1 : k < e.1
    · simp [h1]
    · by_cases h2 : k = e.1 <;> simp [h1, h2]

/-- Transposed point: coordinates swapped (Vec2 Not in coord.rs). -/
def Vec2.transp (p : Vec2) : Vec2 :=
  { x := p.y, y := p.x }

theorem Vec2.transp_transp (p : Vec2) : p.transp.transp = p := rfl

/-- Lookup through the Y-primary table. -/
def SMap.lookY {V : Type} (m : SMap V) (p : Vec2) : Option V :=
  (Tbl.get m.neighboursY p.y).bind (fun xs => Tbl.get xs p.x)

/-- The map with its two tables exchanged. -/
def SMap.transpose {V : Type} (m : SMap V) : SMap V :=
  { neighboursX := m.neighboursY, neighboursY := m.neighboursX }

theorem SMap.lookY_eq_get_transpose {V : Type} (m : SMap V) (p : Vec2) :
    SMap.lookY m p = SMap.get m.transpose p.transp := rfl

theorem SMap.get_eq_lookY_transpose {V : Type} (m : SMap V) (p : Vec2) :
    SMap.get m p = SMap.lookY m.transpose p.transp := rfl

/-- Representation invariant of the spatial map: both nested tables sorted,
and the two tables hold the same points with the same values. -/
def SMap.WF {V : Type} (m : SMap V) : Prop :=
  Tbl.SortedK m.neighboursX ∧ (∀ e ∈ m.neighboursX, Tbl.SortedK e.2) ∧
  Tbl.SortedK m.neighboursY ∧ (∀ e ∈ m.neighboursY, Tbl.SortedK e.2) ∧
  ∀ p : Vec2, SMap.get m p = SMap.lookY m p

theorem SMap.wf_empty {V : Type} : SMap.WF (SMap.empty : SMap V) := by
  refine ⟨List.Pairwise.nil, by simp [SMap.empty], List.Pairwise.nil,
    by simp [SMap.empty], ?_⟩
  intro p
  rfl

theorem SMap.wf_transpose {V : Type} {m : SMap V} (h : SMap.WF m) :
    SMap.WF m.transpose := by
  obtain ⟨h1, h2, h3, h4, h5⟩ := h
  refine ⟨h3, h4, h1, h2, ?_⟩
  intro p
  exact (h5 p.transp).symm

theorem SMap.insert_transpose {V : Type} (m : SMap V) (p : Vec2) (v : V) :
    (SMap.insert m p v).2.transpose = (SMap.insert m.transpose p.transp v).2 := rfl

theorem SMap.create_transpose {V : Type} (m : SMap V) (p : Vec2) (v : V) :
    (SMap.create m p v).2.transpose = (SMap.create m.transpose p.transp v).2 := rfl

theorem SMap.remove_transpose {V : Type} (m : SMap V) (p : Vec2) :
    (SMap.remove m p).2.transpose = (SMap.remove m.transpose p.transp).2 := rfl

theorem SMap.update_transpose {V : Type} (m : SMap V) (p : Vec2) (v : V) :
    (SMap.update m p v).2.transpose = (SMap.update m.transpose p.transp v).2 := by
  show SMap.transpose (SMap.update m p v).2 = _
  rw [SMap.update, SMap.update]
  cases hx : Tbl.get m.neighboursX p.x <;> cases hy : Tbl.get m.neighboursY p.y <;>
    simp [SMap.transpose, Vec2.transp, hx, hy]

/-- Point equality through its two coordinates. -/
theorem Vec2.eq_iff {p q : Vec2} : p = q ↔ p.x = q.x ∧ p.y = q.y := by
  constructor
  · intro h; rw [h]; exact ⟨rfl, rfl⟩
  · intro ⟨h1, h2⟩; cases p; cases q; simp only at h1 h2; rw [h1, h2]

theorem SMap.get_insert {V : Type} (m : SMap V) (p : Vec2) (v : V) (q : Vec2) :
    SMap.get (SMap.insert m p v).2 q = if q = p then some v else SMap.get m q := by
  show (Tbl.get (Tbl.insert m.neighboursX p.x
      (Tbl.insert ((Tbl.get m.neighboursX p.x).getD []) p.y v)) q.x).bind
      (fun ys => Tbl.get ys q.y) = _
  rw [Tbl.tget_insert]
  by_cases hx : q.x = p.x
  · rw [if_pos hx, Option.some_bind, Tbl.tget_insert]
    by_cases hy : q.y = p.y
    · rw [if_pos hy, if_pos (Vec2.eq_iff.mpr ⟨hx, hy⟩)]
    · rw [if_neg hy, if_neg (fun hc => hy (by rw [hc]))]
      cases hb : Tbl.get m.neighboursX p.x with
      | none => simp [SMap.get, Tbl.get, hx ▸ hb]
      | some bucket => simp [SMap.get, Tbl.get, hx ▸ hb]
  · rw [if_neg hx, if_neg (fun hc => hx (by rw [hc]))]
    rfl

theorem SMap.lookY_insert {V : Type} (m : SMap V) (p : Vec2) (v : V) (q : Vec2) :
    SMap.lookY (SMap.insert m p v).2 q = if q = p then some v else SMap.lookY m q := by
  rw [SMap.lookY_eq_get_transpose, SMap.insert_transpose, SMap.get_insert]
  have hiff : q.transp = p.transp ↔ q = p := by
    constructor
    · intro h; have := congrArg Vec2.transp h; simpa [Vec2.transp_transp] using this
    · intro h; rw [h]
  by_cases h : q = p
  · rw [if_pos (hiff.mpr h), if_pos h]
  · rw [if_neg (fun hc => h (hiff.mp hc)), if_neg h]
    rfl

theorem SMap.wf_insert {V : Type} {m : SMap V} (h : SMap.WF m) (p : Vec2) (v : V) :
    SMap.WF (SMap.insert m p v).2 := by
  obtain ⟨h1, h2, h3, h4, h5⟩ := h
  have sortedSide : ∀ (t : Tbl (Tbl V)), Tbl.SortedK t → (∀ e ∈ t, Tbl.SortedK e.2) →
      ∀ (a b : Int),
      Tbl.SortedK (Tbl.insert t a (Tbl.insert ((Tbl.get t a).getD []) b v)) ∧
      ∀ e ∈ Tbl.insert t a (Tbl.insert ((Tbl.get t a).getD []) b v), Tbl.SortedK e.2 := by
    intro t ht hbuckets a b
    have hbsorted : Tbl.SortedK ((Tbl.get t a).getD []) := by
      cases hg : Tbl.get t a with
      | none => exact List.Pairwise.nil
      | some bucket => exact hbuckets _ (Tbl.mem_of_get_eq_some hg)
    refine ⟨Tbl.sortedK_insert ht _ _, ?_⟩
    intro e he
    rcases Tbl.mem_insert he with hh | hh
    · rw [hh]; exact Tbl.sortedK_insert hbsorted _ _
    · exact hbuckets _ hh
  obtain ⟨hx1, hx2⟩ := sortedSide m.neighboursX h1 h2 p.x p.y
  obtain ⟨hy1, hy2⟩ := sortedSide m.neighboursY h3 h4 p.y p.x
  refine ⟨hx1, hx2, hy1, hy2, ?_⟩
  intro q
  rw [SMap.get_insert, SMap.lookY_insert]
  by_cases h : q = p
  · rw [if_pos h, if_pos h]
  · rw [if_neg h, if_neg h, h5 q]

theorem SMap.contains_iff {V : Type} {m : SMap V} {q : Vec2} :
    SMap.contains m q = true ↔ ∃ v, SMap.get m q = some v := by
  unfold SMap.contains SMap.get
  cases hb : Tbl.get m.neighboursX q.x with
  | none => simp
  | some bucket => simp [Tbl.containsKey_iff]

theorem SMap.contains_eq_isSome {V : Type} (m : SMap V) (q : Vec2) :
    SMap.contains m q = (SMap.get m q).isSome := by
  cases hg : SMap.get m q with
  | none =>
    cases hc : SMap.contains m q with
    | false => rfl
    | true =>
      obtain ⟨v, hv⟩ := SMap.contains_iff.mp hc
      rw [hg] at hv
      cases hv
  | some v =>
    rw [SMap.contains_iff.mpr ⟨v, hg⟩]
    rfl

theorem Tbl.create2_eq_insert2 {V : Type} (t : Tbl (Tbl V)) (a b : Int) (v : V)
    (h : (Tbl.get t a).bind (fun bk => Tbl.get bk b) = none) :
    Tbl.create2 t a b v = (true, (Tbl.insert2 t a b v).2) := by
  cases hg : Tbl.get t a with
  | none => simp [Tbl.create2, Tbl.insert2, hg, Tbl.insert]
  | some bucket =>
    rw [hg] at h
    simp only [Option.some_bind] at h
    simp [Tbl.create2, Tbl.insert2, hg, h]

theorem SMap.create_of_absent {V : Type} {m : SMap V} {p : Vec2} {v : V}
    (hwf : SMap.WF m) (h : SMap.get m p = none) :
    SMap.create m p v = (true, (SMap.insert m p v).2) := by
  have hy : SMap.lookY m p = none := by rw [← hwf.2.2.2.2 p]; exact h
  have hx2 := Tbl.create2_eq_insert2 m.neighboursX p.x p.y v h
  have hy2 := Tbl.create2_eq_insert2 m.neighboursY p.y p.x v hy
  show (let rx := Tbl.create2 m.neighboursX p.x p.y v
        let ry := Tbl.create2 m.neighboursY p.y p.x v
        ((rx.1, { neighboursX := rx.2, neighboursY := ry.2 }) : Bool × SMap V)) = _
  rw [hx2, hy2]
  rfl

theorem SMap.create_of_present {V : Type} {m : SMap V} {p : Vec2} {v w : V}
    (hwf : SMap.WF m) (h : SMap.get m p = some w) :
    SMap.create m p v = (false, m) := by
  have hy : SMap.lookY m p = some w := by rw [← hwf.2.2.2.2 p]; exact h
  have hxside : Tbl.create2 m.neighboursX p.x p.y v = (false, m.neighboursX) := by
    unfold SMap.get at h
    cases hg : Tbl.get m.neighboursX p.x with
    | none => rw [hg] at h; cases h
    | some bucket =>
      rw [hg] at h
      simp only [Option.some_bind] at h
      simp [Tbl.create2, hg, h]
  have hyside : Tbl.create2 m.neighboursY p.y p.x v = (false, m.neighboursY) := by
    unfold SMap.lookY at hy
    cases hg : Tbl.get m.neighboursY p.y with
    | none => rw [hg] at hy; cases hy
    | some bucket =>
      rw [hg] at hy
      simp only [Option.some_bind] at hy
      simp [Tbl.create2, hg, hy]
  show (let rx := Tbl.create2 m.neighboursX p.x p.y v
        let ry := Tbl.create2 m.neighboursY p.y p.x v
        ((rx.1, { neighboursX := rx.2, neighboursY := ry.2 }) : Bool × SMap V)) = _
  rw [hxside, hyside]

theorem SMap.update_of_present {V : Type} {m : SMap V} {p : Vec2} {v w : V}
    (hwf : SMap.WF m) (h : SMap.get m p = some w) :
    SMap.update m p v = (Except.ok w, (SMap.insert m p v).2) := by
  have hy : SMap.lookY m p = some w := by rw [← hwf.2.2.2.2 p]; exact h
  unfold SMap.get at h
  unfold SMap.lookY at hy
  cases hgx : Tbl.get m.neighboursX p.x with
  | none => rw [hgx] at h; cases h
  | some xb =>
    cases hgy : Tbl.get m.neighboursY p.y with
    | none => rw [hgy] at hy; cases hy
    | some yb =>
      rw [hgx] at h
      rw [hgy] at hy
      simp only [Option.some_bind] at h hy
      simp only [SMap.update, hgx, hgy, Tbl.update2, h, hy]
      simp [SMap.insert, Tbl.insert2, hgx, hgy]

theorem SMap.update_of_absent {V : Type} {m : SMap V} {p : Vec2} {v : V}
    (hwf : SMap.WF m) (h : SMap.get m p = none) :
    SMap.update m p v = (Except.error v, m) := by
  have hy : SMap.lookY m p = none := by rw [← hwf.2.2.2.2 p]; exact h
  unfold SMap.get at h
  unfold SMap.lookY at hy
  unfold SMap.update
  cases hgx : Tbl.get m.neighboursX p.x with
  | none => rfl
  | some xb =>
    cases hgy : Tbl.get m.neighboursY p.y with
    | none => rfl
    | some yb =>
      rw [hgx] at h
      rw [hgy] at hy
      simp only [Option.some_bind] at h hy
      simp only [SMap.update, hgx, hgy, Tbl.update2, h, hy]

theorem Tbl.remove2_fst {V : Type} (t : Tbl (Tbl V)) (a b : Int) :
    (Tbl.remove2 t a b).1 = (Tbl.get t a).bind (fun bk => Tbl.get bk b) := by
  unfold Tbl.remove2
  cases hg : Tbl.get t a with
  | none => rfl
  | some bucket =>
    simp only [Option.some_bind]
    split <;> rfl

theorem Tbl.remove2_get {V : Type} {t : Tbl (Tbl V)}
    (hsort : ∀ e ∈ t, Tbl.SortedK e.2) (a b x y : Int) :
    (Tbl.get (Tbl.remove2 t a b).2 x).bind (fun bk => Tbl.get bk y) =
    if x = a ∧ y = b then none
    else (Tbl.get t x).bind (fun bk => Tbl.get bk y) := by
  unfold Tbl.remove2
  cases hg : Tbl.get t a with
  | none =>
    simp only
    by_cases hx : x = a
    · by_cases hy : y = b
      · simp [hx, hy, hg]
      · simp [hx, hy, hg]
    · have : ¬ (x = a ∧ y = b) := fun hc => hx hc.1
      simp [this]
  | some bucket =>
    have hbs : Tbl.SortedK bucket := hsort _ (Tbl.mem_of_get_eq_some hg)
    have hne : Tbl.isEmpty (Tbl.insert t a (Tbl.remove bucket b)) = false := by
      have := Tbl.insert_ne_nil t a (Tbl.remove bucket b)
      cases hi : Tbl.insert t a (Tbl.remove bucket b) with
      | nil => exact absurd hi this
      | cons e rest => rfl
    simp only [hne, Bool.false_eq_true, if_false]
    rw [Tbl.tget_insert]
    by_cases hx : x = a
    · rw [if_pos hx, Option.some_bind, Tbl.tget_remove hbs]
      by_cases hy : y = b
      · simp [hx, hy]
      · simp [hx, hy, hg]
    · have : ¬ (x = a ∧ y = b) := fun hc => hx hc.1
      rw [if_neg hx, if_neg this]

theorem SMap.remove_fst {V : Type} (m : SMap V) (p : Vec2) :
    (SMap.remove m p).1 = SMap.get m p :=
  Tbl.remove2_fst m.neighboursX p.x p.y

theorem SMap.get_remove {V : Type} {m : SMap V} (hwf : SMap.WF m)
    (p q : Vec2) :
    SMap.get (SMap.remove m p).2 q = if q = p then none else SMap.get m q := by
  show (Tbl.get (Tbl.remove2 m.neighboursX p.x p.y).2 q.x).bind
      (fun bk => Tbl.get bk q.y) = _
  rw [Tbl.remove2_get hwf.2.1 p.x p.y q.x q.y]
  by_cases h : q = p
  · rw [if_pos (by rw [h]; exact ⟨rfl, rfl⟩), if_pos h]
  · rw [if_neg (fun hc => h (Vec2.eq_iff.mpr hc)), if_neg h]
    rfl

theorem SMap.lookY_remove {V : Type} {m : SMap V} (hwf : SMap.WF m)
    (p q : Vec2) :
    SMap.lookY (SMap.remove m p).2 q = if q = p then none else SMap.lookY m q := by
  show (Tbl.get (Tbl.remove2 m.neighboursY p.y p.x).2 q.y).bind
      (fun bk => Tbl.get bk q.x) = _
  rw [Tbl.remove2_get hwf.2.2.2.1 p.y p.x q.y q.x]
  by_cases h : q = p
  · rw [if_pos (by rw [h]; exact ⟨rfl, rfl⟩), if_pos h]
  · rw [if_neg (fun hc => h (Vec2.eq_iff.mpr ⟨hc.2, hc.1⟩)), if_neg h]
    rfl

theorem Tbl.remove2_sorted {V : Type} {t : Tbl (Tbl V)}
    (ht : Tbl.SortedK t) (hsort : ∀ e ∈ t, Tbl.SortedK e.2) (a b : Int) :
    Tbl.SortedK (Tbl.remove2 t a b).2 ∧
    ∀ e ∈ (Tbl.remove2 t a b).2, Tbl.SortedK e.2 := by
  unfold Tbl.remove2
  cases hg : Tbl.get t a with
  | none => exact ⟨ht, hsort⟩
  | some bucket =>
    have hbs : Tbl.SortedK bucket := hsort _ (Tbl.mem_of_get_eq_some hg)
    simp only
    split
    · refine ⟨Tbl.sortedK_remove (Tbl.sortedK_insert ht _ _) _, ?_⟩
      intro e he
      have he2 := Tbl.mem_remove he
      rcases Tbl.mem_insert he2 with h | h
      · rw [h]; exact Tbl.sortedK_remove hbs _
      · exact hsort _ h
    · refine ⟨Tbl.sortedK_insert ht _ _, ?_⟩
      intro e he
      rcases Tbl.mem_insert he with h | h
      · rw [h]; exact Tbl.sortedK_remove hbs _
      · exact hsort _ h

theorem SMap.wf_remove {V : Type} {m : SMap V} (hwf : SMap.WF m) (p : Vec2) :
    SMap.WF (SMap.remove m p).2 := by
  obtain ⟨h1, h2, h3, h4, h5⟩ := hwf
  obtain ⟨hx1, hx2⟩ := Tbl.remove2_sorted h1 h2 p.x p.y
  obtain ⟨hy1, hy2⟩ := Tbl.remove2_sorted h3 h4 p.y p.x
  refine ⟨hx1, hx2, hy1, hy2, ?_⟩
  intro q
  rw [SMap.get_remove ⟨h1, h2, h3, h4, h5⟩ p q,
      SMap.lookY_remove ⟨h1, h2, h3, h4, h5⟩ p q]
  by_cases h : q = p
  · rw [if_pos h, if_pos h]
  · rw [if_neg h, if_neg h, h5 q]

theorem SMap.wf_create {V : Type} {m : SMap V} (hwf : SMap.WF m) (p : Vec2)
    (v : V) : SMap.WF (SMap.create m p v).2 := by
  cases hg : SMap.get m p with
  | none =>
    rw [SMap.create_of_absent hwf hg]
    exact SMap.wf_insert hwf p v
  | some w =>
    rw [SMap.create_of_present hwf hg]
    exact hwf

theorem SMap.wf_update {V : Type} {m : SMap V} (hwf : SMap.WF m) (p : Vec2)
    (v : V) : SMap.WF (SMap.update m p v).2 := by
  cases hg : SMap.get m p with
  | none =>
    rw [SMap.update_of_absent hwf hg]
    exact hwf
  | some w =>
    rw [SMap.update_of_present hwf hg]
    exact SMap.wf_insert hwf p v

theorem SMap.get_create {V : Type} {m : SMap V} (hwf : SMap.WF m)
    (p : Vec2) (v : V) (q : Vec2) :
    SMap.get (SMap.create m p v).2 q =
    if q = p ∧ (SMap.get m p).isSome = false then some v else SMap.get m q := by
  cases hg : SMap.get m p with
  | none =>
    rw [SMap.create_of_absent hwf hg]
    show SMap.get (SMap.insert m p v).2 q = _
    rw [SMap.get_insert]
    by_cases h : q = p
    · simp [h]
    · simp [h]
  | some w =>
    rw [SMap.create_of_present hwf hg]
    simp [hg]

theorem SMap.get_update {V : Type} {m : SMap V} (hwf : SMap.WF m)
    (p : Vec2) (v : V) (q : Vec2) :
    SMap.get (SMap.update m p v).2 q =
    if q = p ∧ (SMap.get m p).isSome = true then some v else SMap.get m q := by
  cases hg : SMap.get m p with
  | none =>
    rw [SMap.update_of_absent hwf hg]
    simp
  | some w =>
    rw [SMap.update_of_present hwf hg]
    show SMap.get (SMap.insert m p v).2 q = _
    rw [SMap.get_insert]
    by_cases h : q = p
    · simp [h]
    · simp [h]



/-! ## Neighbour characterization

The neighbour iterator of a well-formed map yields exactly the entries
strictly past the query point along the direction, ordered nearest first,
provided the query point itself is a key. -/

/-- The point q lies strictly past p along d, on p's row or column. -/
def past (p q : Vec2) : Direction → Prop
  | Direction.up => q.x = p.x ∧ q.y < p.y
  | Direction.down => q.x = p.x ∧ p.y < q.y
  | Direction.left => q.y = p.y ∧ q.x < p.x
  | Direction.right => q.y = p.y ∧ p.x < q.x

/-- Along direction d, point a is strictly nearer (to the query point) than
b when both lie past the query point. -/
def closer (d : Direction) (a b : Vec2) : Prop :=
  match d with
  | Direction.up => b.y < a.y
  | Direction.down => a.y < b.y
  | Direction.left => b.x < a.x
  | Direction.right => a.x < b.x

theorem closer_asymm (d : Direction) (a b : Vec2) :
    closer d a b → closer d b a → False := by
  cases d <;> (simp [closer]; omega)

theorem headPairwiseIff {α : Type} {R : α → α → Prop}
    (hA : ∀ a b, R a b → R b a → False) {l : List α}
    (hl : List.Pairwise R l) (e : α) :
    l.head? = some e ↔ e ∈ l ∧ ∀ f ∈ l, f = e ∨ R e f := by
  cases l with
  | nil => simp
  | cons a t =>
    rw [List.pairwise_cons] at hl
    constructor
    · intro h
      rw [List.head?_cons, Option.some_inj] at h
      subst h
      refine ⟨List.mem_cons_self _ _, ?_⟩
      intro f hf
      rcases List.mem_cons.mp hf with h | h
      · left; exact h
      · right; exact hl.1 _ h
    · intro ⟨hmem, hmin⟩
      rcases List.mem_cons.mp hmem with h | h
      · rw [List.head?_cons, h]
      · have hae := hl.1 _ h
        rcases hmin a (List.mem_cons_self _ _) with h2 | h2
        · rw [List.head?_cons, h2]
        · exact absurd hae (fun hc => hA _ _ h2 hc)

theorem filter_ge_of_mem {V : Type} {bucket : Tbl V} (hs : Tbl.SortedK bucket)
    {k : Int} {v : V} (hm : (k, v) ∈ bucket) :
    bucket.filter (fun e => decide (k ≤ e.1)) =
    (k, v) :: bucket.filter (fun e => decide (k < e.1)) := by
  induction bucket with
  | nil => cases hm
  | cons e rest ih =>
    rcases Tbl.sortedK_cons.mp hs with ⟨hlt, hrest⟩
    rcases List.mem_cons.mp hm with h | h
    · rw [← h]
      simp only [List.filter_cons]
      rw [if_pos (by simp), if_neg (by simp)]
      congr 1
      refine List.filter_congr ?_
      intro f hf
      have := hlt _ hf
      rw [← h] at this
      simp only at this
      simp only [decide_eq_decide]
      omega
    · have hgt : e.1 < k := hlt _ h
      simp only [List.filter_cons]
      rw [if_neg (by simp; omega), if_neg (by simp; omega)]
      exact ih hrest h

theorem filter_le_of_mem {V : Type} {bucket : Tbl V} (hs : Tbl.SortedK bucket)
    {k : Int} {v : V} (hm : (k, v) ∈ bucket) :
    bucket.filter (fun e => decide (e.1 ≤ k)) =
    bucket.filter (fun e => decide (e.1 < k)) ++ [(k, v)] := by
  induction bucket with
  | nil => cases hm
  | cons e rest ih =>
    rcases Tbl.sortedK_cons.mp hs with ⟨hlt, hrest⟩
    rcases List.mem_cons.mp hm with h | h
    · rw [← h]
      simp only [List.filter_cons]
      rw [if_pos (by simp), if_neg (by simp)]
      have h1 : rest.filter (fun e => decide (e.1 ≤ k)) = [] := by
        refine List.filter_eq_nil_iff.mpr ?_
        intro f hf
        have := hlt _ hf
        rw [← h] at this
        simp only at this
        simp only [decide_eq_true_eq]
        omega
      have h2 : rest.filter (fun e => decide (e.1 < k)) = [] := by
        refine List.filter_eq_nil_iff.mpr ?_
        intro f hf
        have := hlt _ hf
        rw [← h] at this
        simp only at this
        simp only [decide_eq_true_eq]
        omega
      rw [h1, h2]
      rfl
    · have hgt : e.1 < k := hlt _ h
      simp only [List.filter_cons]
      rw [if_pos (by simp; omega), if_pos (by simp; omega)]
      rw [ih hrest h]
      rfl

theorem SMap.neighbours_down_eq {V : Type} {m : SMap V} {p : Vec2}
    {bucket : Tbl V} {w : V} (hbs : Tbl.SortedK bucket)
    (hx : Tbl.get m.neighboursX p.x = some bucket)
    (hc : Tbl.get bucket p.y = some w) :
    SMap.neighbours m p Direction.down =
    (bucket.filter (fun e => decide (p.y < e.1))).map
      (fun e => ({ x := p.x, y := e.1 }, e.2)) := by
  have hck : Tbl.containsKey bucket p.y = true := Tbl.containsKey_iff.mpr ⟨w, hc⟩
  unfold SMap.neighbours SMap.neighboursIncl
  rw [hx]
  simp only [hck, if_true]
  rw [filter_ge_of_mem hbs (Tbl.mem_of_get_eq_some hc)]
  simp

theorem SMap.neighbours_up_eq {V : Type} {m : SMap V} {p : Vec2}
    {bucket : Tbl V} {w : V} (hbs : Tbl.SortedK bucket)
    (hx : Tbl.get m.neighboursX p.x = some bucket)
    (hc : Tbl.get bucket p.y = some w) :
    SMap.neighbours m p Direction.up =
    ((bucket.filter (fun e => decide (e.1 < p.y))).reverse).map
      (fun e => ({ x := p.x, y := e.1 }, e.2)) := by
  have hck : Tbl.containsKey bucket p.y = true := Tbl.containsKey_iff.mpr ⟨w, hc⟩
  unfold SMap.neighbours SMap.neighboursIncl
  rw [hx]
  simp only [hck, if_true]
  rw [filter_le_of_mem hbs (Tbl.mem_of_get_eq_some hc)]
  simp

theorem SMap.neighboursIncl_right_transpose {V : Type} (m : SMap V) (p : Vec2) :
    SMap.neighboursIncl m p Direction.right =
    (SMap.neighboursIncl m.transpose p.transp Direction.down).map
      (fun e => (e.1.transp, e.2)) := by
  unfold SMap.neighboursIncl
  cases hg : Tbl.get m.neighboursY p.y with
  | none => simp [SMap.transpose, Vec2.transp, hg]
  | some bucket =>
    simp only [SMap.transpose, Vec2.transp, hg]
    split <;> simp [Vec2.transp, List.map_map, Function.comp]

theorem SMap.neighboursIncl_left_transpose {V : Type} (m : SMap V) (p : Vec2) :
    SMap.neighboursIncl m p Direction.left =
    (SMap.neighboursIncl m.transpose p.transp Direction.up).map
      (fun e => (e.1.transp, e.2)) := by
  unfold SMap.neighboursIncl
  cases hg : Tbl.get m.neighboursY p.y with
  | none => simp [SMap.transpose, Vec2.transp, hg]
  | some bucket =>
    simp only [SMap.transpose, Vec2.transp, hg]
    split <;> simp [Vec2.transp, List.map_map, Function.comp]

theorem SMap.neighbours_right_transpose {V : Type} (m : SMap V) (p : Vec2) :
    SMap.neighbours m p Direction.right =
    (SMap.neighbours m.transpose p.transp Direction.down).map
      (fun e => (e.1.transp, e.2)) := by
  unfold SMap.neighbours
  rw [SMap.neighboursIncl_right_transpose]
  cases SMap.neighboursIncl m.transpose p.transp Direction.down <;> simp

theorem SMap.neighbours_left_transpose {V : Type} (m : SMap V) (p : Vec2) :
    SMap.neighbours m p Direction.left =
    (SMap.neighbours m.transpose p.transp Direction.up).map
      (fun e => (e.1.transp, e.2)) := by
  unfold SMap.neighbours
  rw [SMap.neighboursIncl_left_transpose]
  cases SMap.neighboursIncl m.transpose p.transp Direction.up <;> simp


theorem SMap.neighbours_empty_of_absent {V : Type} {m : SMap V}
    (hwf : SMap.WF m) {p : Vec2} (hp : SMap.contains m p = false)
    (d : Direction) : SMap.neighbours m p d = [] := by
  have hget : SMap.get m p = none := by
    cases hg : SMap.get m p with
    | none => rfl
    | some v => rw [SMap.contains_iff.mpr ⟨v, hg⟩] at hp; cases hp
  have hx : ∀ bucket, Tbl.get m.neighboursX p.x = some bucket →
      Tbl.containsKey bucket p.y = false := by
    intro bucket hb
    unfold SMap.get at hget
    rw [hb] at hget
    simp only [Option.some_bind] at hget
    simp [Tbl.containsKey, hget]
  have hcT : SMap.contains m.transpose p.transp = false := by
    rw [SMap.contains_eq_isSome]
    have : SMap.get m.transpose p.transp = SMap.lookY m p := rfl
    rw [this, ← hwf.2.2.2.2 p, hget]
    rfl
  have hgetT : SMap.get m.transpose p.transp = none := by
    cases hg : SMap.get m.transpose p.transp with
    | none => rfl
    | some v => rw [SMap.contains_iff.mpr ⟨v, hg⟩] at hcT; cases hcT
  have hxT : ∀ bucket, Tbl.get m.neighboursY p.y = some bucket →
      Tbl.containsKey bucket p.x = false := by
    intro bucket hb
    unfold SMap.get SMap.transpose at hgetT
    simp only at hgetT
    rw [show (p.transp).x = p.y from rfl] at hgetT
    rw [hb] at hgetT
    simp only [Option.some_bind] at hgetT
    rw [show (p.transp).y = p.x from rfl] at hgetT
    simp [Tbl.containsKey, hgetT]
  cases d with
  | up =>
    unfold SMap.neighbours SMap.neighboursIncl
    cases hb : Tbl.get m.neighboursX p.x with
    | none => rfl
    | some bucket => simp [hx bucket hb]
  | down =>
    unfold SMap.neighbours SMap.neighboursIncl
    cases hb : Tbl.get m.neighboursX p.x with
    | none => rfl
    | some bucket => simp [hx bucket hb]
  | left =>
    unfold SMap.neighbours SMap.neighboursIncl
    cases hb : Tbl.get m.neighboursY p.y with
    | none => rfl
    | some bucket => simp [hxT bucket hb]
  | right =>
    unfold SMap.neighbours SMap.neighboursIncl
    cases hb : Tbl.get m.neighboursY p.y with
    | none => rfl
    | some bucket => simp [hxT bucket hb]

theorem SMap.neighbours_mem_down {V : Type} {m : SMap V} (hwf : SMap.WF m)
    {p : Vec2} (hp : SMap.contains m p = true) (q : Vec2) (v : V) :
    ((q, v) ∈ SMap.neighbours m p Direction.down) ↔
      (SMap.get m q = some v ∧ past p q Direction.down) := by
  obtain ⟨w, hw⟩ := SMap.contains_iff.mp hp
  unfold SMap.get at hw
  cases hb : Tbl.get m.neighboursX p.x with
  | none => rw [hb] at hw; cases hw
  | some bucket =>
    rw [hb] at hw
    simp only [Option.some_bind] at hw
    have hbs : Tbl.SortedK bucket := hwf.2.1 _ (Tbl.mem_of_get_eq_some hb)
    rw [SMap.neighbours_down_eq hbs hb hw]
    simp only [List.mem_map, List.mem_filter]
    constructor
    · intro ⟨e, ⟨hmem, hlt⟩, heq⟩
      have hq : q = { x := p.x, y := e.1 } := by
        have := congrArg Prod.fst heq
        simpa using this.symm
      have hv : e.2 = v := by
        have := congrArg Prod.snd heq
        simpa using this
      constructor
      · show SMap.get m q = some v
        unfold SMap.get
        rw [hq]
        simp only
        rw [hb, Option.some_bind]
        rw [← hv]
        exact Tbl.get_eq_some_of_mem hbs (by rw [show e = (e.1, e.2) from rfl] at hmem; exact hmem)
      · rw [hq]
        refine ⟨rfl, ?_⟩
        simpa using hlt
    · intro ⟨hget, hpast⟩
      obtain ⟨hqx, hqy⟩ := hpast
      refine ⟨(q.y, v), ⟨?_, by simpa using hqy⟩, ?_⟩
      · unfold SMap.get at hget
        rw [hqx, hb] at hget
        simp only [Option.some_bind] at hget
        exact Tbl.mem_of_get_eq_some hget
      · have hq2 : ({ x := p.x, y := q.y } : Vec2) = q :=
          Vec2.eq_iff.mpr ⟨hqx.symm, rfl⟩
        exact congrArg (fun r => (r, v)) hq2

theorem SMap.neighbours_mem_up {V : Type} {m : SMap V} (hwf : SMap.WF m)
    {p : Vec2} (hp : SMap.contains m p = true) (q : Vec2) (v : V) :
    ((q, v) ∈ SMap.neighbours m p Direction.up) ↔
      (SMap.get m q = some v ∧ past p q Direction.up) := by
  obtain ⟨w, hw⟩ := SMap.contains_iff.mp hp
  unfold SMap.get at hw
  cases hb : Tbl.get m.neighboursX p.x with
  | none => rw [hb] at hw; cases hw
  | some bucket =>
    rw [hb] at hw
    simp only [Option.some_bind] at hw
    have hbs : Tbl.SortedK bucket := hwf.2.1 _ (Tbl.mem_of_get_eq_some hb)
    rw [SMap.neighbours_up_eq hbs hb hw]
    simp only [List.mem_map, List.mem_reverse, List.mem_filter]
    constructor
    · intro ⟨e, ⟨hmem, hlt⟩, heq⟩
      have hq : q = { x := p.x, y := e.1 } := by
        have := congrArg Prod.fst heq
        simpa using this.symm
      have hv : e.2 = v := by
        have := congrArg Prod.snd heq
        simpa using this
      constructor
      · show SMap.get m q = some v
        unfold SMap.get
        rw [hq]
        simp only
        rw [hb, Option.some_bind]
        rw [← hv]
        exact Tbl.get_eq_some_of_mem hbs (by rw [show e = (e.1, e.2) from rfl] at hmem; exact hmem)
      · rw [hq]
        refine ⟨rfl, ?_⟩
        simpa using hlt
    · intro ⟨hget, hpast⟩
      obtain ⟨hqx, hqy⟩ := hpast
      refine ⟨(q.y, v), ⟨?_, by simpa using hqy⟩, ?_⟩
      · unfold SMap.get at hget
        rw [hqx, hb] at hget
        simp only [Option.some_bind] at hget
        exact Tbl.mem_of_get_eq_some hget
      · have hq2 : ({ x := p.x, y := q.y } : Vec2) = q :=
          Vec2.eq_iff.mpr ⟨hqx.symm, rfl⟩
        exact congrArg (fun r => (r, v)) hq2

theorem SMap.contains_transp {V : Type} {m : SMap V} (hwf : SMap.WF m)
    (p : Vec2) : SMap.contains m.transpose p.transp = SMap.contains m p := by
  rw [SMap.contains_eq_isSome, SMap.contains_eq_isSome]
  have : SMap.get m.transpose p.transp = SMap.lookY m p := rfl
  rw [this, ← hwf.2.2.2.2 p]

theorem SMap.neighbours_mem_iff {V : Type} {m : SMap V} (hwf : SMap.WF m)
    {p : Vec2} (hp : SMap.contains m p = true) (d : Direction) (q : Vec2)
    (v : V) :
    ((q, v) ∈ SMap.neighbours m p d) ↔
      (SMap.get m q = some v ∧ past p q d) := by
  have hpT : SMap.contains m.transpose p.transp = true := by
    rw [SMap.contains_transp hwf]; exact hp
  have hwfT := SMap.wf_transpose hwf
  have hgT : ∀ r : Vec2, SMap.get m.transpose r.transp = SMap.get m r := by
    intro r
    have : SMap.get m.transpose r.transp = SMap.lookY m r := rfl
    rw [this, ← hwf.2.2.2.2 r]
  cases d with
  | down => exact SMap.neighbours_mem_down hwf hp q v
  | up => exact SMap.neighbours_mem_up hwf hp q v
  | right =>
    rw [SMap.neighbours_right_transpose]
    simp only [List.mem_map]
    constructor
    · intro ⟨e, hmem, heq⟩
      have he : e = (q.transp, v) := by
        have h1 := congrArg Prod.fst heq
        have h2 := congrArg Prod.snd heq
        simp only at h1 h2
        have : e.1 = q.transp := by
          rw [← h1]
          rfl
        rw [show e = (e.1, e.2) from rfl, this, h2]
      rw [he] at hmem
      obtain ⟨hg, hpast⟩ := (SMap.neighbours_mem_down hwfT hpT q.transp v).mp hmem
      refine ⟨by rw [← hgT q]; exact hg, ?_⟩
      obtain ⟨h1, h2⟩ := hpast
      exact ⟨h1, h2⟩
    · intro ⟨hget, hpast⟩
      refine ⟨(q.transp, v), ?_, rfl⟩
      refine (SMap.neighbours_mem_down hwfT hpT q.transp v).mpr ⟨?_, ?_⟩
      · rw [hgT q]; exact hget
      · obtain ⟨h1, h2⟩ := hpast
        exact ⟨h1, h2⟩
  | left =>
    rw [SMap.neighbours_left_transpose]
    simp only [List.mem_map]
    constructor
    · intro ⟨e, hmem, heq⟩
      have he : e = (q.transp, v) := by
        have h1 := congrArg Prod.fst heq
        have h2 := congrArg Prod.snd heq
        simp only at h1 h2
        have : e.1 = q.transp := by
          rw [← h1]
          rfl
        rw [show e = (e.1, e.2) from rfl, this, h2]
      rw [he] at hmem
      obtain ⟨hg, hpast⟩ := (SMap.neighbours_mem_up hwfT hpT q.transp v).mp hmem
      refine ⟨by rw [← hgT q]; exact hg, ?_⟩
      obtain ⟨h1, h2⟩ := hpast
      exact ⟨h1, h2⟩
    · intro ⟨hget, hpast⟩
      refine ⟨(q.transp, v), ?_, rfl⟩
      refine (SMap.neighbours_mem_up hwfT hpT q.transp v).mpr ⟨?_, ?_⟩
      · rw [hgT q]; exact hget
      · obtain ⟨h1, h2⟩ := hpast
        exact ⟨h1, h2⟩

theorem SMap.neighbours_pairwise {V : Type} {m : SMap V} (hwf : SMap.WF m)
    (p : Vec2) (d : Direction) :
    List.Pairwise (fun a b => closer d a.1 b.1) (SMap.neighbours m p d) := by
  cases hp : SMap.contains m p with
  | false => rw [SMap.neighbours_empty_of_absent hwf hp]; exact List.Pairwise.nil
  | true =>
    obtain ⟨w, hw⟩ := SMap.contains_iff.mp hp
    unfold SMap.get at hw
    have hwfT := SMap.wf_transpose hwf
    have hpT : SMap.contains m.transpose p.transp = true := by
      rw [SMap.contains_transp hwf]; exact hp
    have hdown : ∀ (mm : SMap V) (pp : Vec2) (bucket : Tbl V) (ww : V),
        Tbl.SortedK bucket → Tbl.get mm.neighboursX pp.x = some bucket →
        Tbl.get bucket pp.y = some ww →
        List.Pairwise (fun a b => closer Direction.down a.1 b.1)
          (SMap.neighbours mm pp Direction.down) := by
      intro mm pp bucket ww hbs hb hcw
      rw [SMap.neighbours_down_eq hbs hb hcw]
      exact List.Pairwise.map _ (fun a b hab => hab)
        (List.Pairwise.filter _ hbs)
    have hup : ∀ (mm : SMap V) (pp : Vec2) (bucket : Tbl V) (ww : V),
        Tbl.SortedK bucket → Tbl.get mm.neighboursX pp.x = some bucket →
        Tbl.get bucket pp.y = some ww →
        List.Pairwise (fun a b => closer Direction.up a.1 b.1)
          (SMap.neighbours mm pp Direction.up) := by
      intro mm pp bucket ww hbs hb hcw
      rw [SMap.neighbours_up_eq hbs hb hcw]
      have hrev : List.Pairwise (fun (a b : Int × V) => b.1 < a.1)
          ((bucket.filter (fun e => decide (e.1 < pp.y))).reverse) := by
        rw [List.pairwise_reverse]
        exact List.Pairwise.filter _ hbs
      exact List.Pairwise.map _ (fun a b hab => hab) hrev
    cases d with
    | down =>
      cases hb : Tbl.get m.neighboursX p.x with
      | none => rw [hb] at hw; cases hw
      | some bucket =>
        rw [hb] at hw
        simp only [Option.some_bind] at hw
        exact hdown m p bucket w (hwf.2.1 _ (Tbl.mem_of_get_eq_some hb)) hb hw
    | up =>
      cases hb : Tbl.get m.neighboursX p.x with
      | none => rw [hb] at hw; cases hw
      | some bucket =>
        rw [hb] at hw
        simp only [Option.some_bind] at hw
        exact hup m p bucket w (hwf.2.1 _ (Tbl.mem_of_get_eq_some hb)) hb hw
    | right =>
      rw [SMap.neighbours_right_transpose]
      obtain ⟨wT, hwT⟩ := SMap.contains_iff.mp hpT
      unfold SMap.get at hwT
      cases hb : Tbl.get m.transpose.neighboursX p.transp.x with
      | none => rw [hb] at hwT; cases hwT
      | some bucket =>
        rw [hb] at hwT
        simp only [Option.some_bind] at hwT
        exact List.Pairwise.map _ (fun a b hab => hab)
          (hdown m.transpose p.transp bucket wT
            (hwfT.2.1 _ (Tbl.mem_of_get_eq_some hb)) hb hwT)
    | left =>
      rw [SMap.neighbours_left_transpose]
      obtain ⟨wT, hwT⟩ := SMap.contains_iff.mp hpT
      unfold SMap.get at hwT
      cases hb : Tbl.get m.transpose.neighboursX p.transp.x with
      | none => rw [hb] at hwT; cases hwT
      | some bucket =>
        rw [hb] at hwT
        simp only [Option.some_bind] at hwT
        exact List.Pairwise.map _ (fun a b hab => hab)
          (hup m.transpose p.transp bucket wT
            (hwfT.2.1 _ (Tbl.mem_of_get_eq_some hb)) hb hwT)


theorem past_trichotomy {p c b : Vec2} {d : Direction} (hc : past p c d)
    (hb : past p b d) : c = b ∨ closer d b c ∨ closer d c b := by
  cases d with
  | up =>
    obtain ⟨h1, h2⟩ := hc
    obtain ⟨h3, h4⟩ := hb
    rcases lt_trichotomy c.y b.y with h | h | h
    · right; left; exact h
    · left; exact Vec2.eq_iff.mpr ⟨by rw [h1, h3], h⟩
    · right; right; exact h
  | down =>
    obtain ⟨h1, h2⟩ := hc
    obtain ⟨h3, h4⟩ := hb
    rcases lt_trichotomy b.y c.y with h | h | h
    · right; left; exact h
    · left; exact Vec2.eq_iff.mpr ⟨by rw [h1, h3], h.symm⟩
    · right; right; exact h
  | left =>
    obtain ⟨h1, h2⟩ := hc
    obtain ⟨h3, h4⟩ := hb
    rcases lt_trichotomy c.x b.x with h | h | h
    · right; left; exact h
    · left; exact Vec2.eq_iff.mpr ⟨h, by rw [h1, h3]⟩
    · right; right; exact h
  | right =>
    obtain ⟨h1, h2⟩ := hc
    obtain ⟨h3, h4⟩ := hb
    rcases lt_trichotomy b.x c.x with h | h | h
    · right; left; exact h
    · left; exact Vec2.eq_iff.mpr ⟨h.symm, by rw [h1, h3]⟩
    · right; right; exact h

theorem SMap.firstNeighbour_some_iff {V : Type} {m : SMap V}
    (hwf : SMap.WF m) (p b : Vec2) (d : Direction) :
    SMap.firstNeighbour m p d = some b ↔
      SMap.contains m p = true ∧ (SMap.get m b).isSome = true ∧ past p b d ∧
      ∀ c : Vec2, (SMap.get m c).isSome = true → past p c d →
        c = b ∨ closer d b c := by
  cases hp : SMap.contains m p with
  | false =>
    unfold SMap.firstNeighbour SMap.firstNeighbourData
    rw [SMap.neighbours_empty_of_absent hwf hp]
    simp
  | true =>
    unfold SMap.firstNeighbour SMap.firstNeighbourData
    have hpw := SMap.neighbours_pairwise hwf p d
    have hmem := SMap.neighbours_mem_iff hwf hp d
    have hasym : ∀ (a c : Vec2 × V),
        (fun a c => closer d a.1 c.1) a c → (fun a c => closer d a.1 c.1) c a → False :=
      fun a c h1 h2 => closer_asymm d a.1 c.1 h1 h2
    constructor
    · intro h
      rcases ho : (SMap.neighbours m p d).head? with _ | e
      · rw [ho] at h; cases h
      · rw [ho] at h
        have h : e.1 = b := by simpa using h
        obtain ⟨hin, hmin⟩ := (headPairwiseIff hasym hpw e).mp ho
        have he : e = (e.1, e.2) := rfl
        rw [he] at hin
        obtain ⟨hg, hpast⟩ := (hmem e.1 e.2).mp hin
        rw [← h]
        refine ⟨rfl, by rw [hg]; rfl, hpast, ?_⟩
        intro c hc hcp
        obtain ⟨w, hw⟩ := Option.isSome_iff_exists.mp hc
        have hcin : (c, w) ∈ SMap.neighbours m p d := (hmem c w).mpr ⟨hw, hcp⟩
        rcases hmin (c, w) hcin with h2 | h2
        · left
          have := congrArg Prod.fst h2
          simpa using this
        · right; exact h2
    · intro ⟨_, hbsome, hbpast, hbmin⟩
      obtain ⟨v, hv⟩ := Option.isSome_iff_exists.mp hbsome
      have hbin : (b, v) ∈ SMap.neighbours m p d := (hmem b v).mpr ⟨hv, hbpast⟩
      have hmin : ∀ f ∈ SMap.neighbours m p d, f = (b, v) ∨ closer d b f.1 := by
        intro f hf
        have hf2 : (f.1, f.2) ∈ SMap.neighbours m p d := hf
        obtain ⟨hg, hpast⟩ := (hmem f.1 f.2).mp hf2
        rcases hbmin f.1 (by rw [hg]; rfl) hpast with h | h
        · left
          have : f.2 = v := by
            rw [h] at hg
            rw [hv] at hg
            exact (Option.some_inj.mp hg).symm
          rw [show f = (f.1, f.2) from rfl, h, this]
        · right; exact h
      rw [(headPairwiseIff hasym hpw (b, v)).mpr ⟨hbin, hmin⟩]
      rfl

theorem SMap.firstNeighbour_congr {V W : Type} {m : SMap V} {n : SMap W}
    (hwfm : SMap.WF m) (hwfn : SMap.WF n)
    (h : ∀ q : Vec2, (SMap.get m q).isSome = (SMap.get n q).isSome)
    (p : Vec2) (d : Direction) :
    SMap.firstNeighbour m p d = SMap.firstNeighbour n p d := by
  have hcont : SMap.contains m p = SMap.contains n p := by
    rw [SMap.contains_eq_isSome, SMap.contains_eq_isSome, h p]
  cases h1 : SMap.firstNeighbour m p d with
  | some b =>
    obtain ⟨hc, hb, hpast, hmin⟩ := (SMap.firstNeighbour_some_iff hwfm p b d).mp h1
    refine ((SMap.firstNeighbour_some_iff hwfn p b d).mpr
      ⟨by rw [← hcont]; exact hc, by rw [← h b]; exact hb, hpast, ?_⟩).symm
    intro c hcs hcp
    exact hmin c (by rw [h c]; exact hcs) hcp
  | none =>
    cases h2 : SMap.firstNeighbour n p d with
    | none => rfl
    | some b =>
      obtain ⟨hc, hb, hpast, hmin⟩ := (SMap.firstNeighbour_some_iff hwfn p b d).mp h2
      have : SMap.firstNeighbour m p d = some b :=
        (SMap.firstNeighbour_some_iff hwfm p b d).mpr
          ⟨by rw [hcont]; exact hc, by rw [h b]; exact hb, hpast, fun c hcs hcp =>
            hmin c (by rw [← h c]; exact hcs) hcp⟩
      rw [h1] at this
      cases this


/-! ## Claim C2: the neighbour query -/

/-- Two-point map used to exercise the neighbour query: values at (0,0)
and (0,5). -/
def c2map : SMap Nat :=
  (SMap.insert (SMap.insert SMap.empty { x := 0, y := 0 } 0).2
    { x := 0, y := 5 } 1).2

/-- The c2map is well formed, by construction from inserts. -/
theorem c2map_wf : SMap.WF c2map :=
  SMap.wf_insert (SMap.wf_insert SMap.wf_empty { x := 0, y := 0 } 0)
    { x := 0, y := 5 } 1

/-- Claim C2, counterexample: at the point (0, 2), which is not a key of the
map although the outer bucket for x = 0 exists, the neighbour query in
direction Down yields nothing, even though the entry (0, 5) lies strictly
past (0, 2) on the same column — contradicting the claim that the
characterization holds whether or not the query point is a key. -/
theorem claim2_counterexample :
    SMap.neighbours c2map { x := 0, y := 2 } Direction.down = [] ∧
    SMap.get c2map { x := 0, y := 5 } = some 1 ∧
    Tbl.containsKey c2map.neighboursX 0 = true ∧
    past { x := 0, y := 2 } { x := 0, y := 5 } Direction.down := by
  refine ⟨by decide, by decide, by decide, ?_⟩
  exact ⟨by decide, by decide⟩

/-- Claim C2 (amended): for a well-formed spatial map, when the query point
p is a key of the map, neighbours(p, d) yields exactly the entries whose
point lies strictly past p along d on p's row or column, ordered from
nearest to farthest, excluding p itself; when p is not a key — even if the
outer bucket for its fixed coordinate exists — the sequence is empty. -/
theorem claim2_neighbours_amended {V : Type} (m : SMap V) (p : Vec2)
    (d : Direction) (hwf : SMap.WF m) :
    (SMap.contains m p = true →
      (∀ q v, ((q, v) ∈ SMap.neighbours m p d) ↔
        (SMap.get m q = some v ∧ past p q d)) ∧
      List.Pairwise (fun a b => closer d a.1 b.1) (SMap.neighbours m p d)) ∧
    (SMap.contains m p = false → SMap.neighbours m p d = []) := by
  constructor
  · intro hp
    exact ⟨fun q v => SMap.neighbours_mem_iff hwf hp d q v,
      SMap.neighbours_pairwise hwf p d⟩
  · intro hp
    exact SMap.neighbours_empty_of_absent hwf hp d

/-- Claim C2 witness: the amended theorem applied to the concrete two-point
map at the key (0, 0) identifies (0, 5) as a Down-neighbour. -/
theorem claim2_neighbours_amended_witness :
    (({ x := 0, y := 5 } : Vec2), 1) ∈
      SMap.neighbours c2map { x := 0, y := 0 } Direction.down :=
  (((claim2_neighbours_amended c2map { x := 0, y := 0 } Direction.down
    c2map_wf).1 (by decide)).1 { x := 0, y := 5 } 1).mpr
    ⟨by decide, by decide, by decide⟩

/-! ## Direction and edge-record helper lemmas -/

theorem DirecMap.dget_dset_self {α : Type} (m : DirecMap α) (d : Direction)
    (v : α) : (m.dset d v).dget d = v := by
  cases d <;> rfl

theorem DirecMap.dget_dset_ne {α : Type} (m : DirecMap α) {d e : Direction}
    (h : e ≠ d) (v : α) : (m.dset d v).dget e = m.dget e := by
  cases d <;> cases e <;> first | rfl | exact absurd rfl h

theorem past_ne {p q : Vec2} {d : Direction} (h : past p q d) : q ≠ p := by
  cases d <;> (obtain ⟨h1, h2⟩ := h; intro hc; rw [hc] at h2; omega)

theorem directionTo_of_past {p q : Vec2} {d : Direction} (h : past p q d) :
    Vec2.directionTo p q = some d := by
  cases d with
  | up =>
    obtain ⟨h1, h2⟩ := h
    unfold Vec2.directionTo
    rw [if_pos h1.symm, if_pos (by omega)]
  | down =>
    obtain ⟨h1, h2⟩ := h
    unfold Vec2.directionTo
    rw [if_pos h1.symm, if_neg (by omega), if_pos (by omega)]
  | left =>
    obtain ⟨h1, h2⟩ := h
    unfold Vec2.directionTo
    rw [if_neg (by omega), if_pos h1.symm, if_pos (by omega)]
  | right =>
    obtain ⟨h1, h2⟩ := h
    unfold Vec2.directionTo
    rw [if_neg (by omega), if_pos h1.symm, if_neg (by omega), if_pos (by omega)]


/-! ## Claim C6: connect and disconnect -/

/-- Claim C6 (amended): for a well-formed graph and vertices a, b with b the
first map-neighbour of a in direction d, and a not already connected to b,
two successive connect calls return true then false (the second leaving the
graph unchanged), a subsequent disconnect returns true, and afterwards
are_connected is false.  Without the not-already-connected hypothesis the
first connect returns false instead. -/
theorem claim6_amended (g : Graph) (a b : Vec2) (d : Direction)
    (hwf : SMap.WF g.verticesEdges)
    (hfn : SMap.firstNeighbour g.verticesEdges a d = some b)
    (hnc : Graph.areConnected g a b = false) :
    ∃ g1 g2,
      Graph.connectE g a b = some (true, g1) ∧
      Graph.connectE g1 a b = some (false, g1) ∧
      Graph.disconnectE g1 a b = some (true, g2) ∧
      Graph.areConnected g2 a b = false := by
  obtain ⟨hc, hbsome, hpast, hmin⟩ :=
    (SMap.firstNeighbour_some_iff hwf a b d).mp hfn
  have hdir := directionTo_of_past hpast
  have hba : b ≠ a := past_ne hpast
  have hab : a ≠ b := fun hc2 => hba hc2.symm
  obtain ⟨esA, hga⟩ := SMap.contains_iff.mp hc
  obtain ⟨esB, hgb⟩ := Option.isSome_iff_exists.mp hbsome
  have had : esA.dget d = false := by
    simp only [Graph.areConnected, hdir, Graph.vertexEdges, hga, hfn] at hnc
    simpa using hnc
  set m := g.verticesEdges with hm
  set es1 := esA.dset d true with hes1
  set m1 := (SMap.insert m a es1).2 with hm1
  have hwf1 : SMap.WF m1 := SMap.wf_insert hwf a es1
  have hg1b : SMap.get m1 b = some esB := by
    rw [hm1, SMap.get_insert, if_neg hba]; exact hgb
  set es2 := esB.dset (Direction.opp d) true with hes2
  set m2 := (SMap.insert m1 b es2).2 with hm2
  have hwf2 : SMap.WF m2 := SMap.wf_insert hwf1 b es2
  have hg2a : SMap.get m2 a = some es1 := by
    rw [hm2, SMap.get_insert, if_neg hab, hm1, SMap.get_insert, if_pos rfl]
  have hg2b : SMap.get m2 b = some es2 := by
    rw [hm2, SMap.get_insert, if_pos rfl]
  have hsome2 : ∀ q : Vec2, (SMap.get m2 q).isSome = (SMap.get m q).isSome := by
    intro q
    rw [hm2, SMap.get_insert, hm1, SMap.get_insert]
    by_cases h1 : q = b
    · rw [if_pos h1, h1, hgb]; rfl
    · rw [if_neg h1]
      by_cases h2 : q = a
      · rw [if_pos h2, h2, hga]; rfl
      · rw [if_neg h2]
  have hfn2 : SMap.firstNeighbour m2 a d = some b :=
    (SMap.firstNeighbour_congr hwf2 hwf hsome2 a d).trans hfn
  have hconn1 : Graph.connectE g a b = some (true, { verticesEdges := m2 }) := by
    simp only [Graph.connectE, hdir, hfn, Graph.vertexEdges, hga, had,
      SMap.update_of_present hwf hga, hg1b,
      SMap.update_of_present hwf1 hg1b]
    simp
  set g1 : Graph := { verticesEdges := m2 } with hg1
  have hconn2 : Graph.connectE g1 a b = some (false, g1) := by
    simp only [Graph.connectE, hdir, hg1, hfn2, Graph.vertexEdges, hg2a]
    simp [hes1, DirecMap.dget_dset_self]
  set es3 := es1.dset d false with hes3
  set m3 := (SMap.insert m2 a es3).2 with hm3
  have hwf3 : SMap.WF m3 := SMap.wf_insert hwf2 a es3
  have hg3b : SMap.get m3 b = some es2 := by
    rw [hm3, SMap.get_insert, if_neg hba]; exact hg2b
  set es4 := es2.dset (Direction.opp d) false with hes4
  set m4 := (SMap.insert m3 b es4).2 with hm4
  have hdisc : Graph.disconnectE g1 a b = some (true, { verticesEdges := m4 }) := by
    simp only [Graph.disconnectE, hdir, hg1, hfn2, Graph.vertexEdges, hg2a,
      hes1, DirecMap.dget_dset_self, SMap.update_of_present hwf2 hg2a, hg3b,
      SMap.update_of_present hwf3 hg3b]
    simp [hes3, hes1]
  refine ⟨g1, { verticesEdges := m4 }, hconn1, hconn2, hdisc, ?_⟩
  have hg4a : SMap.get m4 a = some es3 := by
    rw [hm4, SMap.get_insert, if_neg hab, hm3, SMap.get_insert, if_pos rfl]
  simp only [Graph.areConnected, hdir, Graph.vertexEdges, hg4a]
  simp [hes3, DirecMap.dget_dset_self]

/-- Two-vertex graph used as the concrete C6 instance. -/
def c6graph : Graph :=
  { verticesEdges :=
      (SMap.insert (SMap.insert SMap.empty { x := 0, y := 0 }
        ({ up := false, left := false, down := false, right := false })).2
        { x := 3, y := 0 }
        ({ up := false, left := false, down := false, right := false })).2 }

/-- Claim C6 witness: the amended theorem at the two-vertex graph with b
three cells to the right of a. -/
theorem claim6_amended_witness :
    ∃ g1 g2,
      Graph.connectE c6graph { x := 0, y := 0 } { x := 3, y := 0 } = some (true, g1) ∧
      Graph.connectE g1 { x := 0, y := 0 } { x := 3, y := 0 } = some (false, g1) ∧
      Graph.disconnectE g1 { x := 0, y := 0 } { x := 3, y := 0 } = some (true, g2) ∧
      Graph.areConnected g2 { x := 0, y := 0 } { x := 3, y := 0 } = false :=
  claim6_amended c6graph { x := 0, y := 0 } { x := 3, y := 0 } Direction.right
    (SMap.wf_insert (SMap.wf_insert SMap.wf_empty _ _) _ _)
    (by decide) (by decide)


/-! ## Claim C3: Map::remove and bucket pruning -/

/-- One-entry map exercising remove. -/
def c3map : SMap Nat :=
  (SMap.insert SMap.empty { x := 0, y := 0 } 7).2

/-- Claim C3, failing computation: removing the only entry returns its value
and deletes the point from both tables, but the emptied outer buckets stay
behind in both tables (the source prunes only when the OUTER table is
empty, a dead test), so the map even reports itself non-empty afterwards. -/
theorem claim3_remove_bug :
    (SMap.remove c3map { x := 0, y := 0 }).1 = some 7 ∧
    SMap.get (SMap.remove c3map { x := 0, y := 0 }).2 { x := 0, y := 0 } = none ∧
    (SMap.remove c3map { x := 0, y := 0 }).2.neighboursX = [(0, [])] ∧
    (SMap.remove c3map { x := 0, y := 0 }).2.neighboursY = [(0, [])] ∧
    SMap.isEmpty (SMap.remove c3map { x := 0, y := 0 }).2 = false := by
  refine ⟨by decide, by decide, by decide, by decide, by decide⟩

/-! ## Claim C7: the set round trip -/

/-- Set initially holding (0, 1). -/
def c7set : PSet :=
  PSet.insert PSet.empty { x := 0, y := 1 }

/-- The same set after inserting (0, 0). -/
def c7set1 : PSet :=
  PSet.insert c7set { x := 0, y := 0 }

/-- Claim C7, failing computation: (0, 1) is a member, (0, 0) is inserted
and then removed (remove reports success), yet afterwards (0, 1) is no
longer a member — the remove deleted the whole x = 0 bucket.  The
membership state is not restored. -/
theorem claim7_set_bug :
    PSet.contains c7set { x := 0, y := 1 } = true ∧
    PSet.contains c7set1 { x := 0, y := 1 } = true ∧
    (PSet.remove c7set1 { x := 0, y := 0 }).1 = true ∧
    PSet.contains (PSet.remove c7set1 { x := 0, y := 0 }).2 { x := 0, y := 1 } = false := by
  refine ⟨by decide, by decide, by decide, by decide⟩

/-! ## Claim C5: remove_vertex splicing -/

/-- Connect two vertices, keeping the graph unchanged if the call panics. -/
def oconn (g : Graph) (a b : Vec2) : Graph :=
  ((Graph.connectE g a b).map Prod.snd).getD g

/-- The five vertices of the splice scenario. -/
def c5base : Graph :=
  (Graph.createVertex
    (Graph.createVertex
      (Graph.createVertex
        (Graph.createVertex
          (Graph.createVertex Graph.empty { x := 3, y := -3 }).2
          { x := 3, y := -9 }).2
        { x := 3, y := -1 }).2
      { x := 0, y := -3 }).2
    { x := 1020, y := -3 }).2

/-- The scenario graph: (3,-3) connected to its four straight neighbours. -/
def c5graph : Graph :=
  oconn (oconn (oconn (oconn c5base
    { x := 3, y := -3 } { x := 3, y := -9 })
    { x := 3, y := -3 } { x := 3, y := -1 })
    { x := 3, y := -3 } { x := 0, y := -3 })
    { x := 3, y := -3 } { x := 1020, y := -3 }

/-- The graph after removing (3,-3). -/
def c5after : Graph :=
  (Graph.removeVertex c5graph { x := 3, y := -3 }).2

/-- Claim C5: in the scenario graph, (3,-3) is connected to all four
neighbours; remove_vertex((3,-3)) returns true, (3,-3) is gone, the two
pass-through pairs are spliced into edges, and removing the now absent
point again returns false. -/
theorem claim5_remove_splice :
    Graph.areConnected c5graph { x := 3, y := -3 } { x := 3, y := -9 } = true ∧
    Graph.areConnected c5graph { x := 3, y := -3 } { x := 3, y := -1 } = true ∧
    Graph.areConnected c5graph { x := 3, y := -3 } { x := 0, y := -3 } = true ∧
    Graph.areConnected c5graph { x := 3, y := -3 } { x := 1020, y := -3 } = true ∧
    (Graph.removeVertex c5graph { x := 3, y := -3 }).1 = true ∧
    SMap.contains c5after.verticesEdges { x := 3, y := -3 } = false ∧
    Graph.areConnected c5after { x := 3, y := -9 } { x := 3, y := -1 } = true ∧
    Graph.areConnected c5after { x := 3, y := -1 } { x := 3, y := -9 } = true ∧
    Graph.areConnected c5after { x := 0, y := -3 } { x := 1020, y := -3 } = true ∧
    Graph.areConnected c5after { x := 1020, y := -3 } { x := 0, y := -3 } = true ∧
    (Graph.removeVertex c5after { x := 3, y := -3 }).1 = false := by
  refine ⟨by decide, by decide, by decide, by decide, by decide, by decide,
    by decide, by decide, by decide, by decide, by decide⟩

/-! ## Claim C10: make_path with start equal to goal -/

/-- Claim C10: for every graph, penalty and validity predicate, make_path
with start equal to goal pops the start immediately, assembles the empty
step sequence, and returns it with the graph untouched — the predicate is
never consulted.  The fuel argument of the embedding is arbitrary beyond
the two loop iterations used. -/
theorem claim10_start_eq_goal (fuel : Nat) (g : Graph) (p : Vec2)
    (penalty : Int) (valid : Vec2 → Bool) :
    makePath (fuel + 2) g p p penalty valid = MPOut.path [] g := by
  simp [makePath, runGo, heapPush, heapSiftUp, heapSiftUpGo, heapPop,
    assembleGo]

/-! ## Claim C1: A-star optimality -/

/-- The validity region of the optimality counterexample: two partial rows. -/
def c1valid : Vec2 → Bool := fun p =>
  decide ((p.x, p.y) ∈
    ([(0, 1), (0, 2), (1, 2), (2, 2), (3, 1), (3, 2), (4, 1), (4, 2)] :
      List (Int × Int)))

/-- Graph holding the start (4,1) and goal (0,1) vertices. -/
def c1graph : Graph :=
  (Graph.createVertex
    (Graph.createVertex Graph.empty { x := 4, y := 1 }).2
    { x := 0, y := 1 }).2

/-- The steps make_path returns on the counterexample. -/
def c1steps : List DirecVector :=
  [{ direction := Direction.left, magnitude := 1 },
   { direction := Direction.down, magnitude := 1 },
   { direction := Direction.left, magnitude := 3 },
   { direction := Direction.up, magnitude := 1 }]

/-- A strictly cheaper valid step sequence from start to goal. -/
def c1better : List DirecVector :=
  [{ direction := Direction.down, magnitude := 1 },
   { direction := Direction.left, magnitude := 4 },
   { direction := Direction.up, magnitude := 1 }]

/-- The steps of a make_path outcome, if any. -/
def MPOut.stepsOf : MPOut → Option (List DirecVector)
  | MPOut.path steps _ => some steps
  | _ => none

/-- Claim C1, failing computation: on the eight-cell region with penalty 2,
make_path returns a path of cost (12, 3), while the explicit alternative
walk (Down 1, Left 4, Up 1) stays inside the region, reaches the goal, and
costs (10, 2) — strictly less in the lexicographic order.  The search keys
its travelled table by point alone, so the cost of a path depends on
predecessor data that later updates invalidate. -/
theorem claim1_astar_suboptimal :
    MPOut.stepsOf (makePath 64 c1graph { x := 4, y := 1 } { x := 0, y := 1 }
      2 c1valid) = some c1steps ∧
    walkCost 2 c1steps = { distance := 12, turns := 3 } ∧
    walkEnd { x := 4, y := 1 } (flattenSteps c1better) = { x := 0, y := 1 } ∧
    (∀ q ∈ walkPoints { x := 4, y := 1 } (flattenSteps c1better),
      c1valid q = true) ∧
    walkCost 2 c1better = { distance := 10, turns := 2 } ∧
    Cost.clt { distance := 10, turns := 2 } { distance := 12, turns := 3 } = true := by
  refine ⟨by decide, by decide, by decide, by decide, by decide, by decide⟩


/-- The two-vertex graph with its edge already made. -/
def c6conn : Graph :=
  oconn c6graph { x := 0, y := 0 } { x := 3, y := 0 }

/-- Claim C6, counterexample: on a graph where a and b are already
connected — b still being the first map-neighbour of a in a straight
direction — the first of two successive connect calls returns false, not
true as the claim states for every graph. -/
theorem claim6_counterexample :
    SMap.firstNeighbour c6conn.verticesEdges { x := 0, y := 0 }
      Direction.right = some { x := 3, y := 0 } ∧
    Graph.connectE c6conn { x := 0, y := 0 } { x := 3, y := 0 } =
      some (false, c6conn) := by
  refine ⟨by decide, by decide⟩


/-! ## Claim C9: rectangle borders -/

/-- Claim C9, counterexample: on the 3 by 3 rectangle at the origin the
border iterator emits the right-corner column twice — the point (2, 0)
appears both in the right-column phase and at the end of the top-row phase
— so the output is not duplicate-free; and a rectangle that is empty by
Rect::is_empty (width zero, height three) still emits its left column,
because end_non_empty_ref only recognises the all-zero size vector. -/
theorem claim9_counterexample :
    bordersList { start := { x := 0, y := 0 }, size := { x := 3, y := 3 } } =
      [{ x := 0, y := 0 }, { x := 0, y := 1 }, { x := 0, y := 2 },
       { x := 2, y := 0 }, { x := 2, y := 1 }, { x := 2, y := 2 },
       { x := 1, y := 0 }, { x := 2, y := 0 },
       { x := 1, y := 2 }, { x := 2, y := 2 }] ∧
    ¬ (bordersList { start := { x := 0, y := 0 }, size := { x := 3, y := 3 } }).Nodup ∧
    Rect.isEmpty { start := { x := 0, y := 0 }, size := { x := 0, y := 3 } } = true ∧
    bordersList { start := { x := 0, y := 0 }, size := { x := 0, y := 3 } } =
      [{ x := 0, y := 0 }, { x := 0, y := 1 }, { x := 0, y := 2 }] := by
  refine ⟨by decide, by decide, by decide, by decide⟩

/-- Vertical run of points sharing an x coordinate, top to bottom. -/
def colPoints (x y0 : Int) (n : Nat) : List Vec2 :=
  (List.range n).map (fun (i : Nat) => { x := x, y := y0 + (i : Int) })

/-- Horizontal run of points sharing a y coordinate, left to right. -/
def rowPoints (x0 y : Int) (n : Nat) : List Vec2 :=
  (List.range n).map (fun (i : Nat) => { x := x0 + (i : Int), y := y })

theorem bordersRun_succ (fuel : Nat) (st : BState) :
    bordersRun (fuel + 1) (some st) =
      (bordersNext st).1 :: bordersRun fuel (bordersNext st).2 := rfl

theorem colPoints_succ (x y : Int) (n : Nat) :
    colPoints x y (n + 1) = { x := x, y := y } :: colPoints x (y + 1) n := by
  unfold colPoints
  rw [List.range_succ_eq_map, List.map_cons, List.map_map]
  congr 1
  · exact Vec2.eq_iff.mpr ⟨rfl, by simp⟩
  · refine List.map_congr_left ?_
    intro i _
    refine Vec2.eq_iff.mpr ⟨rfl, ?_⟩
    show y + ((i : Nat) + 1 : Nat) = y + 1 + (i : Int)
    push_cast
    ring

theorem rowPoints_succ (x y : Int) (n : Nat) :
    rowPoints x y (n + 1) = { x := x, y := y } :: rowPoints (x + 1) y n := by
  unfold rowPoints
  rw [List.range_succ_eq_map, List.map_cons, List.map_map]
  congr 1
  · exact Vec2.eq_iff.mpr ⟨by simp, rfl⟩
  · refine List.map_congr_left ?_
    intro i _
    refine Vec2.eq_iff.mpr ⟨?_, rfl⟩
    show x + ((i : Nat) + 1 : Nat) = x + 1 + (i : Int)
    push_cast
    ring

theorem bordersRun_col (fuel : Nat) (st : BState) (n : Nat)
    (hax : st.fixedAxis = Axis.x) (hy : st.curr.y + n = st.bend.y) :
    bordersRun (fuel + n) (some st) =
      colPoints st.curr.x st.curr.y n ++
      bordersRun fuel (some { st with curr := { st.curr with y := st.bend.y } }) := by
  induction n generalizing st with
  | zero =>
    cases st with
    | mk a b c d =>
      have hy2 : d.y + ((0 : Nat) : Int) = b.y := hy
      have hd : ({ y := b.y, x := d.x } : Vec2) = d :=
        Vec2.eq_iff.mpr ⟨rfl, by show b.y = d.y; omega⟩
      show bordersRun (fuel + 0) _ = colPoints d.x d.y 0 ++ _
      rw [hd]
      simp [colPoints]
  | succ n ih =>
    have hstep : bordersNext st = (st.curr,
        some { st with curr := { st.curr with y := st.curr.y + 1 } }) := by
      unfold bordersNext
      rw [hax]
      dsimp only
      rw [if_neg (by omega)]
    rw [show fuel + (n + 1) = (fuel + n) + 1 from rfl, bordersRun_succ, hstep]
    simp only
    rw [colPoints_succ, List.cons_append]
    have hhead : st.curr = ({ x := st.curr.x, y := st.curr.y } : Vec2) :=
      Vec2.eq_iff.mpr ⟨rfl, rfl⟩
    rw [← hhead]
    congr 1
    exact ih { st with curr := { st.curr with y := st.curr.y + 1 } } hax
      (by show st.curr.y + 1 + (n : Int) = st.bend.y; omega)

theorem bordersRun_row (fuel : Nat) (st : BState) (n : Nat)
    (hax : st.fixedAxis = Axis.y) (hx : st.curr.x + n = st.bend.x) :
    bordersRun (fuel + n) (some st) =
      rowPoints st.curr.x st.curr.y n ++
      bordersRun fuel (some { st with curr := { st.curr with x := st.bend.x } }) := by
  induction n generalizing st with
  | zero =>
    cases st with
    | mk a b c d =>
      have hx2 : d.x + ((0 : Nat) : Int) = b.x := hx
      have hd : ({ y := d.y, x := b.x } : Vec2) = d :=
        Vec2.eq_iff.mpr ⟨by show b.x = d.x; omega, rfl⟩
      show bordersRun (fuel + 0) _ = rowPoints d.x d.y 0 ++ _
      rw [hd]
      simp [rowPoints]
  | succ n ih =>
    have hstep : bordersNext st = (st.curr,
        some { st with curr := { st.curr with x := st.curr.x + 1 } }) := by
      unfold bordersNext
      rw [hax]
      dsimp only
      rw [if_neg (by omega)]
    rw [show fuel + (n + 1) = (fuel + n) + 1 from rfl, bordersRun_succ, hstep]
    simp only
    rw [rowPoints_succ, List.cons_append]
    have hhead : st.curr = ({ x := st.curr.x, y := st.curr.y } : Vec2) :=
      Vec2.eq_iff.mpr ⟨rfl, rfl⟩
    rw [← hhead]
    congr 1
    exact ih { st with curr := { st.curr with x := st.curr.x + 1 } } hax
      (by show st.curr.x + 1 + (n : Int) = st.bend.x; omega)



theorem bordersRun_none (f : Nat) : bordersRun f (none : Option BState) = [] := by
  cases f <;> rfl

theorem colPoints_snoc (x y : Int) (n : Nat) :
    colPoints x y (n + 1) = colPoints x y n ++ [{ x := x, y := y + (n : Int) }] := by
  unfold colPoints
  rw [List.range_succ, List.map_append]
  rfl

theorem rowPoints_snoc (x y : Int) (n : Nat) :
    rowPoints x y (n + 1) = rowPoints x y n ++ [{ x := x + (n : Int), y := y }] := by
  unfold rowPoints
  rw [List.range_succ, List.map_append]
  rfl

/-- Border-iterator state with all four corners spelled out. -/
def bst (sx sy ex ey : Int) (ax : Axis) (cx cy : Int) : BState :=
  { bstart := { x := sx, y := sy }, bend := { x := ex, y := ey },
    fixedAxis := ax, curr := { x := cx, y := cy } }

/-- Full border walk for width and height at least two: left column,
bottom-left corner, right column, bottom-right corner, top row, top-right
corner, bottom row, bottom-right corner again, exhaustion. -/
theorem bordersRun_full_w2h2 (sx sy ex ey : Int) (w h : Nat)
    (hw : 2 ≤ w) (hh : 2 ≤ h)
    (hex : sx + ((w - 1 : Nat) : Int) = ex)
    (hey : sy + ((h - 1 : Nat) : Int) = ey) (L : Nat) :
    bordersRun ((((((((L + 1) + (w - 2)) + 1) + (w - 2)) + 1) + (h - 1)) + 1) + (h - 1))
      (some (bst sx sy ex ey Axis.x sx sy)) =
    colPoints sx sy (h - 1) ++ { x := sx, y := ey } ::
      (colPoints ex sy (h - 1) ++ { x := ex, y := ey } ::
        (rowPoints (sx + 1) sy (w - 2) ++ { x := ex, y := sy } ::
          (rowPoints (sx + 1) ey (w - 2) ++ [{ x := ex, y := ey }]))) := by
  have hxlt : sx < ex := by omega
  have hylt : sy < ey := by omega
  have col1 : ∀ f : Nat, bordersRun (f + (h - 1)) (some (bst sx sy ex ey Axis.x sx sy)) =
      colPoints sx sy (h - 1) ++ bordersRun f (some (bst sx sy ex ey Axis.x sx ey)) :=
    fun f => bordersRun_col f _ (h - 1) rfl
      (show sy + ((h - 1 : Nat) : Int) = ey from hey)
  have col2 : ∀ f : Nat, bordersRun (f + (h - 1)) (some (bst sx sy ex ey Axis.x ex sy)) =
      colPoints ex sy (h - 1) ++ bordersRun f (some (bst sx sy ex ey Axis.x ex ey)) :=
    fun f => bordersRun_col f _ (h - 1) rfl
      (show sy + ((h - 1 : Nat) : Int) = ey from hey)
  have row1 : ∀ f : Nat, bordersRun (f + (w - 2)) (some (bst sx sy ex ey Axis.y (sx + 1) sy)) =
      rowPoints (sx + 1) sy (w - 2) ++ bordersRun f (some (bst sx sy ex ey Axis.y ex sy)) :=
    fun f => bordersRun_row f _ (w - 2) rfl
      (show sx + 1 + ((w - 2 : Nat) : Int) = ex from by omega)
  have row2 : ∀ f : Nat, bordersRun (f + (w - 2)) (some (bst sx sy ex ey Axis.y (sx + 1) ey)) =
      rowPoints (sx + 1) ey (w - 2) ++ bordersRun f (some (bst sx sy ex ey Axis.y ex ey)) :=
    fun f => bordersRun_row f _ (w - 2) rfl
      (show sx + 1 + ((w - 2 : Nat) : Int) = ex from by omega)
  have hb1 : bordersNext (bst sx sy ex ey Axis.x sx ey) =
      ({ x := sx, y := ey }, some (bst sx sy ex ey Axis.x ex sy)) := by
    unfold bst bordersNext BState.toSecondCol
    dsimp only
    rw [if_pos (by omega), if_neg (by omega)]
  have hb2 : bordersNext (bst sx sy ex ey Axis.x ex ey) =
      ({ x := ex, y := ey }, some (bst sx sy ex ey Axis.y (sx + 1) sy)) := by
    unfold bst bordersNext BState.toFirstRow
    dsimp only
    rw [if_pos (by omega), if_pos (by omega), if_pos (by omega)]
  have hb3 : bordersNext (bst sx sy ex ey Axis.y ex sy) =
      ({ x := ex, y := sy }, some (bst sx sy ex ey Axis.y (sx + 1) ey)) := by
    unfold bst bordersNext BState.toSecondRow
    dsimp only
    rw [if_pos (by omega), if_pos (by omega)]
  have hb4 : bordersNext (bst sx sy ex ey Axis.y ex ey) =
      ({ x := ex, y := ey }, none) := by
    unfold bst bordersNext
    dsimp only
    rw [if_pos (by omega), if_neg (by omega)]
  have c1 : ∀ f : Nat, bordersRun (f + 1) (some (bst sx sy ex ey Axis.x sx ey)) =
      { x := sx, y := ey } :: bordersRun f (some (bst sx sy ex ey Axis.x ex sy)) := by
    intro f
    rw [bordersRun_succ, hb1]
  have c2 : ∀ f : Nat, bordersRun (f + 1) (some (bst sx sy ex ey Axis.x ex ey)) =
      { x := ex, y := ey } :: bordersRun f (some (bst sx sy ex ey Axis.y (sx + 1) sy)) := by
    intro f
    rw [bordersRun_succ, hb2]
  have c3 : ∀ f : Nat, bordersRun (f + 1) (some (bst sx sy ex ey Axis.y ex sy)) =
      { x := ex, y := sy } :: bordersRun f (some (bst sx sy ex ey Axis.y (sx + 1) ey)) := by
    intro f
    rw [bordersRun_succ, hb3]
  have c4 : ∀ f : Nat, bordersRun (f + 1) (some (bst sx sy ex ey Axis.y ex ey)) =
      { x := ex, y := ey } :: bordersRun f (none : Option BState) := by
    intro f
    rw [bordersRun_succ, hb4]
  rw [col1, c1, col2, c2, row1, c3, row2, c4, bordersRun_none]

/-- Full border walk for width at least two but height one: degenerate left
and right columns, the two corners of the single row, the top row, and the
right corner once more. -/
theorem bordersRun_full_w2h1 (sx sy ex ey : Int) (w h : Nat)
    (hw : 2 ≤ w)
    (hex : sx + ((w - 1 : Nat) : Int) = ex)
    (hey : sy + ((h - 1 : Nat) : Int) = ey)
    (hstop : ¬ sy < ey) (L : Nat) :
    bordersRun ((((((L + 1) + (w - 2)) + 1) + (h - 1)) + 1) + (h - 1))
      (some (bst sx sy ex ey Axis.x sx sy)) =
    colPoints sx sy (h - 1) ++ { x := sx, y := ey } ::
      (colPoints ex sy (h - 1) ++ { x := ex, y := ey } ::
        (rowPoints (sx + 1) sy (w - 2) ++ [{ x := ex, y := sy }])) := by
  have hxlt : sx < ex := by omega
  have col1 : ∀ f : Nat, bordersRun (f + (h - 1)) (some (bst sx sy ex ey Axis.x sx sy)) =
      colPoints sx sy (h - 1) ++ bordersRun f (some (bst sx sy ex ey Axis.x sx ey)) :=
    fun f => bordersRun_col f _ (h - 1) rfl
      (show sy + ((h - 1 : Nat) : Int) = ey from hey)
  have col2 : ∀ f : Nat, bordersRun (f + (h - 1)) (some (bst sx sy ex ey Axis.x ex sy)) =
      colPoints ex sy (h - 1) ++ bordersRun f (some (bst sx sy ex ey Axis.x ex ey)) :=
    fun f => bordersRun_col f _ (h - 1) rfl
      (show sy + ((h - 1 : Nat) : Int) = ey from hey)
  have row1 : ∀ f : Nat, bordersRun (f + (w - 2)) (some (bst sx sy ex ey Axis.y (sx + 1) sy)) =
      rowPoints (sx + 1) sy (w - 2) ++ bordersRun f (some (bst sx sy ex ey Axis.y ex sy)) :=
    fun f => bordersRun_row f _ (w - 2) rfl
      (show sx + 1 + ((w - 2 : Nat) : Int) = ex from by omega)
  have hb1 : bordersNext (bst sx sy ex ey Axis.x sx ey) =
      ({ x := sx, y := ey }, some (bst sx sy ex ey Axis.x ex sy)) := by
    unfold bst bordersNext BState.toSecondCol
    dsimp only
    rw [if_pos (by omega), if_neg (by omega)]
  have hb2 : bordersNext (bst sx sy ex ey Axis.x ex ey) =
      ({ x := ex, y := ey }, some (bst sx sy ex ey Axis.y (sx + 1) sy)) := by
    unfold bst bordersNext BState.toFirstRow
    dsimp only
    rw [if_pos (by omega), if_pos (by omega), if_pos (by omega)]
  have hb3 : bordersNext (bst sx sy ex ey Axis.y ex sy) =
      ({ x := ex, y := sy }, none) := by
    unfold bst bordersNext
    dsimp only
    rw [if_pos (by omega), if_neg (by omega)]
  have c1 : ∀ f : Nat, bordersRun (f + 1) (some (bst sx sy ex ey Axis.x sx ey)) =
      { x := sx, y := ey } :: bordersRun f (some (bst sx sy ex ey Axis.x ex sy)) := by
    intro f
    rw [bordersRun_succ, hb1]
  have c2 : ∀ f : Nat, bordersRun (f + 1) (some (bst sx sy ex ey Axis.x ex ey)) =
      { x := ex, y := ey } :: bordersRun f (some (bst sx sy ex ey Axis.y (sx + 1) sy)) := by
    intro f
    rw [bordersRun_succ, hb2]
  have c3 : ∀ f : Nat, bordersRun (f + 1) (some (bst sx sy ex ey Axis.y ex sy)) =
      { x := ex, y := sy } :: bordersRun f (none : Option BState) := by
    intro f
    rw [bordersRun_succ, hb3]
  rw [col1, c1, col2, c2, row1, c3, bordersRun_none]

/-- Full border walk for width one: the single column, then exhaustion. -/
theorem bordersRun_full_w1 (sx sy ex ey : Int) (h : Nat)
    (hex : ¬ sx < ex)
    (hey : sy + ((h - 1 : Nat) : Int) = ey) (L : Nat) :
    bordersRun ((L + 1) + (h - 1)) (some (bst sx sy ex ey Axis.x sx sy)) =
    colPoints sx sy (h - 1) ++ [{ x := sx, y := ey }] := by
  have col1 : ∀ f : Nat, bordersRun (f + (h - 1)) (some (bst sx sy ex ey Axis.x sx sy)) =
      colPoints sx sy (h - 1) ++ bordersRun f (some (bst sx sy ex ey Axis.x sx ey)) :=
    fun f => bordersRun_col f _ (h - 1) rfl
      (show sy + ((h - 1 : Nat) : Int) = ey from hey)
  have hb1 : bordersNext (bst sx sy ex ey Axis.x sx ey) =
      ({ x := sx, y := ey }, none) := by
    unfold bst bordersNext
    dsimp only
    rw [if_pos (by omega), if_pos (by omega), if_neg (by omega)]
  have c1 : ∀ f : Nat, bordersRun (f + 1) (some (bst sx sy ex ey Axis.x sx ey)) =
      { x := sx, y := ey } :: bordersRun f (none : Option BState) := by
    intro f
    rw [bordersRun_succ, hb1]
  rw [col1, c1, bordersRun_none]

/-- Claim C9 (amended): for positive width and height, borders() emits the
left column top to bottom; then — when the width is at least two — the
right column top to bottom, the top row from the second column through the
right column (re-emitting the top-right corner), and — when the height is
also at least two — the bottom row likewise (re-emitting the bottom-right
corner).  The sequence is empty exactly when the size VECTOR is zero: a
rectangle that is empty through a single zero component still emits
points. -/
theorem claim9_amended :
    (∀ (sx sy : Int) (w h : Nat), 0 < w → 0 < h →
      bordersList { start := { x := sx, y := sy }, size := { x := (w : Int), y := (h : Int) } } =
        colPoints sx sy h ++
        (if 2 ≤ w then
          colPoints (sx + w - 1) sy h ++ rowPoints (sx + 1) sy (w - 1) ++
          (if 2 ≤ h then rowPoints (sx + 1) (sy + h - 1) (w - 1) else [])
        else [])) ∧
    (∀ r : Rect, bordersList r = [] ↔ r.size = { x := 0, y := 0 }) := by
  constructor
  · intro sx sy w h hw hh
    have hinit : bordersInit { start := { x := sx, y := sy }, size := { x := (w : Int), y := (h : Int) } } =
        some (bst sx sy (sx + (w : Int) - 1) (sy + (h : Int) - 1) Axis.x sx sy) := by
      unfold bordersInit Rect.endNonEmpty
      dsimp only
      rw [if_neg (by omega : ¬ ((w : Int) = 0 ∧ (h : Int) = 0))]
      rfl
    have e1 : colPoints sx sy h =
        colPoints sx sy (h - 1) ++ [{ x := sx, y := sy + (h : Int) - 1 }] := by
      have t := colPoints_snoc sx sy (h - 1)
      rw [show h - 1 + 1 = h from by omega,
          show ({ x := sx, y := sy + ((h - 1 : Nat) : Int) } : Vec2) =
            { x := sx, y := sy + (h : Int) - 1 } from
            Vec2.eq_iff.mpr ⟨rfl, by dsimp only; omega⟩] at t
      exact t
    unfold bordersList
    rw [hinit]
    by_cases hw2 : 2 ≤ w
    · have e2 : colPoints (sx + (w : Int) - 1) sy h =
          colPoints (sx + (w : Int) - 1) sy (h - 1) ++
            [{ x := sx + (w : Int) - 1, y := sy + (h : Int) - 1 }] := by
        have t := colPoints_snoc (sx + (w : Int) - 1) sy (h - 1)
        rw [show h - 1 + 1 = h from by omega,
            show ({ x := sx + (w : Int) - 1, y := sy + ((h - 1 : Nat) : Int) } : Vec2) =
              { x := sx + (w : Int) - 1, y := sy + (h : Int) - 1 } from
              Vec2.eq_iff.mpr ⟨rfl, by dsimp only; omega⟩] at t
        exact t
      have e3 : rowPoints (sx + 1) sy (w - 1) =
          rowPoints (sx + 1) sy (w - 2) ++ [{ x := sx + (w : Int) - 1, y := sy }] := by
        have t := rowPoints_snoc (sx + 1) sy (w - 2)
        rw [show w - 2 + 1 = w - 1 from by omega,
            show ({ x := sx + 1 + ((w - 2 : Nat) : Int), y := sy } : Vec2) =
              { x := sx + (w : Int) - 1, y := sy } from
              Vec2.eq_iff.mpr ⟨by dsimp only; omega, rfl⟩] at t
        exact t
      rw [if_pos hw2]
      by_cases hh2 : 2 ≤ h
      · have e4 : rowPoints (sx + 1) (sy + (h : Int) - 1) (w - 1) =
            rowPoints (sx + 1) (sy + (h : Int) - 1) (w - 2) ++
              [{ x := sx + (w : Int) - 1, y := sy + (h : Int) - 1 }] := by
          have t := rowPoints_snoc (sx + 1) (sy + (h : Int) - 1) (w - 2)
          rw [show w - 2 + 1 = w - 1 from by omega,
              show ({ x := sx + 1 + ((w - 2 : Nat) : Int), y := sy + (h : Int) - 1 } : Vec2) =
                { x := sx + (w : Int) - 1, y := sy + (h : Int) - 1 } from
                Vec2.eq_iff.mpr ⟨by dsimp only; omega, rfl⟩] at t
          exact t
        rw [if_pos hh2]
        rw [show bordersFuel { start := { x := sx, y := sy }, size := { x := (w : Int), y := (h : Int) } } =
            (((((((6 + 1) + (w - 2)) + 1) + (w - 2)) + 1) + (h - 1)) + 1) + (h - 1) from by
          unfold bordersFuel
          dsimp only
          omega]
        rw [bordersRun_full_w2h2 sx sy (sx + (w : Int) - 1) (sy + (h : Int) - 1) w h hw2 hh2
          (by omega) (by omega) 6]
        rw [e1, e2, e3, e4]
        simp only [List.append_assoc, List.singleton_append, List.cons_append,
          List.nil_append]
      · rw [if_neg hh2]
        rw [show bordersFuel { start := { x := sx, y := sy }, size := { x := (w : Int), y := (h : Int) } } =
            ((((((w + 5) + 1) + (w - 2)) + 1) + (h - 1)) + 1) + (h - 1) from by
          unfold bordersFuel
          dsimp only
          omega]
        rw [bordersRun_full_w2h1 sx sy (sx + (w : Int) - 1) (sy + (h : Int) - 1) w h hw2
          (by omega) (by omega) (by omega) (w + 5)]
        rw [e1, e2, e3]
        simp only [List.append_assoc, List.singleton_append, List.cons_append,
          List.nil_append, List.append_nil]
    · rw [if_neg hw2]
      rw [show bordersFuel { start := { x := sx, y := sy }, size := { x := (w : Int), y := (h : Int) } } =
          ((h + 6) + 1) + (h - 1) from by
        unfold bordersFuel
        dsimp only
        omega]
      rw [bordersRun_full_w1 sx sy (sx + (w : Int) - 1) (sy + (h : Int) - 1) h
        (by omega) (by omega) (h + 6)]
      rw [e1, List.append_nil]
  · intro r
    constructor
    · intro hemp
      by_contra hne
      have hx : ¬ (r.size.x = 0 ∧ r.size.y = 0) := fun hc =>
        hne (Vec2.eq_iff.mpr ⟨hc.1, hc.2⟩)
      have hinit : bordersInit r = some (bst r.start.x r.start.y (r.start.x + r.size.x - 1) (r.start.y + r.size.y - 1) Axis.x r.start.x r.start.y) := by
        unfold bordersInit Rect.endNonEmpty
        rw [if_neg hx]
        rfl
      have hne2 : bordersList r ≠ [] := by
        unfold bordersList bordersFuel
        rw [hinit,
          show (2 * (r.size.x + r.size.y)).toNat + 4 =
            ((2 * (r.size.x + r.size.y)).toNat + 3) + 1 from rfl,
          bordersRun_succ]
        exact List.cons_ne_nil _ _
      exact hne2 hemp
    · intro hz
      have hinit : bordersInit r = none := by
        unfold bordersInit Rect.endNonEmpty
        rw [if_pos ⟨by rw [hz], by rw [hz]⟩]
        rfl
      unfold bordersList
      rw [hinit, bordersRun_none]

theorem claim9_amended_witness :
    (0 < 4 ∧ 0 < 3) ∧
    bordersList { start := { x := 1, y := 3 }, size := { x := ((4 : Nat) : Int), y := ((3 : Nat) : Int) } } =
      [{ x := 1, y := 3 }, { x := 1, y := 4 }, { x := 1, y := 5 },
       { x := 4, y := 3 }, { x := 4, y := 4 }, { x := 4, y := 5 },
       { x := 2, y := 3 }, { x := 3, y := 3 }, { x := 4, y := 3 },
       { x := 2, y := 5 }, { x := 3, y := 5 }, { x := 4, y := 5 }] :=
  ⟨⟨by decide, by decide⟩, by
    rw [claim9_amended.1 1 3 4 3 (by decide) (by decide)]
    decide⟩


/-! ## Claim C4: the graph consistency invariant

The invariant is stated on the underlying spatial map: every recorded edge
flag points along its direction at an existing first map neighbour which
records the edge back in the opposite direction. -/

theorem Direction.opp_opp (d : Direction) : (Direction.opp (Direction.opp d)) = d := by
  cases d <;> rfl

theorem Direction.opp_inj {d e : Direction}
    (h : Direction.opp d = Direction.opp e) : d = e := by
  have h2 := congrArg Direction.opp h
  rwa [Direction.opp_opp, Direction.opp_opp] at h2

theorem Direction.mem_list (d : Direction) : d ∈ Direction.list := by
  cases d <;> simp [Direction.list]

theorem past_opp {p q : Vec2} {d : Direction} (h : past p q d) :
    past q p (Direction.opp d) := by
  cases d <;> simp only [Direction.opp, past] at h ⊢ <;> omega

theorem past_trans {a b c : Vec2} {d : Direction} (h1 : past a b d)
    (h2 : past b c d) : past a c d := by
  cases d <;> simp only [past] at h1 h2 ⊢ <;> omega

theorem past_of_closer {q p c : Vec2} {d : Direction} (h1 : past q p d)
    (h2 : past q c d) (h3 : closer d p c) : past p c d := by
  cases d <;> simp only [past, closer] at h1 h2 h3 ⊢ <;> omega

theorem past_between {a b c : Vec2} {d : Direction} (hab : past a b d)
    (hbc : past b c (Direction.opp d)) (hca : closer (Direction.opp d) c a) :
    past a c d ∧ closer d c b := by
  cases d <;> simp only [Direction.opp, past, closer] at hab hbc hca ⊢ <;> omega

theorem DirecMap.dget_dset_true_mono {m : DirecMap Bool} {d e : Direction}
    (h : m.dget e = true) : (m.dset d true).dget e = true := by
  by_cases hde : e = d
  · rw [hde, DirecMap.dget_dset_self]
  · rwa [DirecMap.dget_dset_ne _ hde]

theorem SMap.firstNeighbourData_spec {V : Type} {m : SMap V} (hwf : SMap.WF m)
    {p b : Vec2} {v : V} {d : Direction}
    (h : SMap.firstNeighbourData m p d = some (b, v)) :
    SMap.firstNeighbour m p d = some b ∧ SMap.get m b = some v := by
  refine ⟨by unfold SMap.firstNeighbour; rw [h]; rfl, ?_⟩
  have hmem : (b, v) ∈ SMap.neighbours m p d := by
    unfold SMap.firstNeighbourData at h
    exact List.mem_of_mem_head? h
  cases hp : SMap.contains m p with
  | false =>
    rw [SMap.neighbours_empty_of_absent hwf hp] at hmem
    cases hmem
  | true => exact ((SMap.neighbours_mem_iff hwf hp d b v).mp hmem).1

theorem SMap.firstNeighbourData_iff {V : Type} {m : SMap V} (hwf : SMap.WF m)
    (p b : Vec2) (v : V) (d : Direction) :
    SMap.firstNeighbourData m p d = some (b, v) ↔
      (SMap.firstNeighbour m p d = some b ∧ SMap.get m b = some v) := by
  constructor
  · exact SMap.firstNeighbourData_spec hwf
  · intro ⟨hfn, hg⟩
    cases hd : SMap.firstNeighbourData m p d with
    | none =>
      unfold SMap.firstNeighbour at hfn
      rw [hd] at hfn
      cases hfn
    | some e =>
      have h1 : e.1 = b := by
        unfold SMap.firstNeighbour at hfn
        rw [hd] at hfn
        simpa using hfn
      have hspec := SMap.firstNeighbourData_spec hwf
        (show SMap.firstNeighbourData m p d = some (e.1, e.2) from by rw [hd])
      have h2 : e.2 = v := by
        rw [h1] at hspec
        rw [hspec.2] at hg
        exact Option.some_inj.mp hg
      rw [show e = (b, v) from by rw [← h1, ← h2]]

theorem SMap.firstNeighbour_none_iff {V : Type} {m : SMap V} (hwf : SMap.WF m)
    {p : Vec2} (hp : SMap.contains m p = true) (d : Direction) :
    SMap.firstNeighbour m p d = none ↔
      ∀ c : Vec2, (SMap.get m c).isSome = true → ¬ past p c d := by
  constructor
  · intro h c hc hpast
    obtain ⟨w, hw⟩ := Option.isSome_iff_exists.mp hc
    have hmem : (c, w) ∈ SMap.neighbours m p d :=
      (SMap.neighbours_mem_iff hwf hp d c w).mpr ⟨hw, hpast⟩
    cases hl : SMap.neighbours m p d with
    | nil => rw [hl] at hmem; cases hmem
    | cons e t =>
      unfold SMap.firstNeighbour SMap.firstNeighbourData at h
      rw [hl] at h
      simp at h
  · intro hall
    cases hl : SMap.neighbours m p d with
    | nil =>
      unfold SMap.firstNeighbour SMap.firstNeighbourData
      rw [hl]
      rfl
    | cons e t =>
      exfalso
      have hmem : (e.1, e.2) ∈ SMap.neighbours m p d := by
        rw [hl]
        exact List.mem_cons_self _ _
      obtain ⟨hg, hpast⟩ := (SMap.neighbours_mem_iff hwf hp d e.1 e.2).mp hmem
      exact hall e.1 (by rw [hg]; rfl) hpast

theorem SMap.firstNeighbour_symm {V : Type} {m : SMap V} (hwf : SMap.WF m)
    {a b : Vec2} {d : Direction}
    (ha : (SMap.get m a).isSome = true)
    (h : SMap.firstNeighbour m a d = some b) :
    SMap.firstNeighbour m b (Direction.opp d) = some a := by
  obtain ⟨hca, hbs, hpast, hmin⟩ := (SMap.firstNeighbour_some_iff hwf a b d).mp h
  refine (SMap.firstNeighbour_some_iff hwf b a (Direction.opp d)).mpr
    ⟨?_, ha, past_opp hpast, ?_⟩
  · rw [SMap.contains_eq_isSome]
    exact hbs
  · intro c hcs hc
    rcases past_trichotomy hc (past_opp hpast) with h1 | h1 | h1
    · exact Or.inl h1
    · exact Or.inr h1
    · exfalso
      obtain ⟨hpac, hccb⟩ := past_between hpast hc h1
      rcases hmin c hcs hpac with h2 | h2
      · subst h2
        exact past_ne hc rfl
      · exact closer_asymm d b c h2 hccb

theorem SMap.firstNeighbour_remove_of_ne {V : Type} {m : SMap V}
    (hwf : SMap.WF m) {p q c : Vec2} {d : Direction} (hq : q ≠ p) (hcp : c ≠ p)
    (hfc : SMap.firstNeighbour m q d = some c) :
    SMap.firstNeighbour (SMap.remove m p).2 q d = some c := by
  obtain ⟨hcq, hcs, hpast, hmin⟩ := (SMap.firstNeighbour_some_iff hwf q c d).mp hfc
  have hwfR := SMap.wf_remove hwf p
  refine (SMap.firstNeighbour_some_iff hwfR q c d).mpr ⟨?_, ?_, hpast, ?_⟩
  · rw [SMap.contains_eq_isSome, SMap.get_remove hwf p q, if_neg hq,
      ← SMap.contains_eq_isSome]
    exact hcq
  · rw [SMap.get_remove hwf p c, if_neg hcp]
    exact hcs
  · intro c2 hc2 hp2
    rw [SMap.get_remove hwf p c2] at hc2
    by_cases h2 : c2 = p
    · rw [if_pos h2] at hc2
      simp at hc2
    · rw [if_neg h2] at hc2
      exact hmin c2 hc2 hp2

theorem SMap.firstNeighbour_remove_of_eq {V : Type} {m : SMap V}
    (hwf : SMap.WF m) {p q : Vec2} {d : Direction} (hq : q ≠ p)
    (hfp : SMap.firstNeighbour m q d = some p) :
    SMap.firstNeighbour (SMap.remove m p).2 q d =
      SMap.firstNeighbour m p d := by
  obtain ⟨hcq, hps, hpqd, hmin⟩ := (SMap.firstNeighbour_some_iff hwf q p d).mp hfp
  have hwfR := SMap.wf_remove hwf p
  have hcq2 : SMap.contains (SMap.remove m p).2 q = true := by
    rw [SMap.contains_eq_isSome, SMap.get_remove hwf p q, if_neg hq,
      ← SMap.contains_eq_isSome]
    exact hcq
  cases hr : SMap.firstNeighbour m p d with
  | some r =>
    obtain ⟨hcp, hrs, hprd, hminp⟩ := (SMap.firstNeighbour_some_iff hwf p r d).mp hr
    have hrp : r ≠ p := past_ne hprd
    refine (SMap.firstNeighbour_some_iff hwfR q r d).mpr
      ⟨hcq2, ?_, past_trans hpqd hprd, ?_⟩
    · rw [SMap.get_remove hwf p r, if_neg hrp]
      exact hrs
    · intro c hcs hqc
      rw [SMap.get_remove hwf p c] at hcs
      by_cases hicp : c = p
      · rw [if_pos hicp] at hcs
        simp at hcs
      · rw [if_neg hicp] at hcs
        rcases hmin c hcs hqc with h1 | h1
        · exact absurd h1 hicp
        · exact hminp c hcs (past_of_closer hpqd hqc h1)
  | none =>
    cases h2 : SMap.firstNeighbour (SMap.remove m p).2 q d with
    | none => rfl
    | some b =>
      exfalso
      obtain ⟨hcb, hbs, hqb, hminb⟩ :=
        (SMap.firstNeighbour_some_iff hwfR q b d).mp h2
      rw [SMap.get_remove hwf p b] at hbs
      by_cases hbp : b = p
      · rw [if_pos hbp] at hbs
        simp at hbs
      · rw [if_neg hbp] at hbs
        rcases hmin b hbs hqb with h1 | h1
        · exact absurd h1 hbp
        · have hpb : past p b d := past_of_closer hpqd hqb h1
          have hcp : SMap.contains m p = true := by
            rw [SMap.contains_eq_isSome]
            exact hps
          exact (SMap.firstNeighbour_none_iff hwf hcp d).mp hr b hbs hpb

theorem SMap.isSome_update {V : Type} {m : SMap V} (hwf : SMap.WF m)
    (p : Vec2) (v : V) (q : Vec2) :
    (SMap.get (SMap.update m p v).2 q).isSome = (SMap.get m q).isSome := by
  rw [SMap.get_update hwf]
  by_cases h : q = p ∧ (SMap.get m p).isSome = true
  · rw [if_pos h, h.1, h.2]
    rfl
  · rw [if_neg h]

/-- Consistency of an edge-flag map: every recorded edge flag points at an
existing first map neighbour which records the edge back. -/
def EdgeConsistent (m : SMap VertexEdges) : Prop :=
  ∀ (p : Vec2) (es : VertexEdges), SMap.get m p = some es →
    ∀ d : Direction, es.dget d = true →
      ∃ (b : Vec2) (bes : VertexEdges),
        SMap.firstNeighbour m p d = some b ∧
        SMap.get m b = some bes ∧ bes.dget (Direction.opp d) = true

/-- The spec's graph representation invariant. -/
def Graph.Consistent (g : Graph) : Prop :=
  EdgeConsistent g.verticesEdges

theorem Graph.consistent_empty : Graph.Consistent Graph.empty := by
  intro p es h
  simp [Graph.empty, SMap.empty, SMap.get, Tbl.get] at h


theorem edgeConsistent_connect {m : SMap VertexEdges} (hwf : SMap.WF m)
    (hcons : EdgeConsistent m) {a b : Vec2} {d : Direction}
    {esA esB : VertexEdges}
    (hga : SMap.get m a = some esA)
    (hfnb : SMap.firstNeighbour m a d = some b)
    (hgb1 : SMap.get (SMap.update m a (DirecMap.dset esA d true)).2 b = some esB) :
    EdgeConsistent (SMap.update (SMap.update m a (DirecMap.dset esA d true)).2 b
      (DirecMap.dset esB (Direction.opp d) true)).2 := by
  obtain ⟨hca, hbsome, hpab, hmin⟩ := (SMap.firstNeighbour_some_iff hwf a b d).mp hfnb
  have hba : b ≠ a := past_ne hpab
  set m1 := (SMap.update m a (DirecMap.dset esA d true)).2 with hm1
  set m2 := (SMap.update m1 b (DirecMap.dset esB (Direction.opp d) true)).2 with hm2
  have hw1 : SMap.WF m1 := SMap.wf_update hwf _ _
  have hw2 : SMap.WF m2 := SMap.wf_update hw1 _ _
  have hgb : SMap.get m b = some esB := by
    have h2 := hgb1
    rw [hm1, SMap.get_update hwf, if_neg (fun hc => hba hc.1)] at h2
    exact h2
  have hget1 : ∀ q : Vec2, SMap.get m1 q =
      if q = a then some (DirecMap.dset esA d true) else SMap.get m q := by
    intro q
    rw [hm1, SMap.get_update hwf]
    by_cases hq : q = a
    · rw [if_pos ⟨hq, by rw [hga]; rfl⟩, if_pos hq]
    · rw [if_neg (fun hc => hq hc.1), if_neg hq]
  have hget2 : ∀ q : Vec2, SMap.get m2 q =
      if q = b then some (DirecMap.dset esB (Direction.opp d) true)
      else if q = a then some (DirecMap.dset esA d true) else SMap.get m q := by
    intro q
    rw [hm2, SMap.get_update hw1]
    by_cases hq : q = b
    · rw [if_pos ⟨hq, by rw [hgb1]; rfl⟩, if_pos hq]
    · rw [if_neg (fun hc => hq hc.1), if_neg hq, hget1]
  have hsome : ∀ q : Vec2, (SMap.get m2 q).isSome = (SMap.get m q).isSome := by
    intro q
    rw [hm2, SMap.isSome_update hw1, hm1, SMap.isSome_update hwf]
  have hfneq : ∀ (q : Vec2) (e : Direction),
      SMap.firstNeighbour m2 q e = SMap.firstNeighbour m q e :=
    fun q e => SMap.firstNeighbour_congr hw2 hwf hsome q e
  have hsym : SMap.firstNeighbour m b (Direction.opp d) = some a :=
    SMap.firstNeighbour_symm hwf (by rw [hga]; rfl) hfnb
  have hmono : ∀ (c : Vec2) (ces : VertexEdges) (s : Direction),
      SMap.get m c = some ces → ces.dget s = true →
      ∃ ces2, SMap.get m2 c = some ces2 ∧ ces2.dget s = true := by
    intro c ces s hgc hf
    rw [hget2 c]
    by_cases hcb : c = b
    · rw [if_pos hcb]
      refine ⟨_, rfl, ?_⟩
      rw [hcb] at hgc
      rw [hgb] at hgc
      have hces := Option.some_inj.mp hgc
      rw [← hces] at hf
      exact DirecMap.dget_dset_true_mono hf
    · rw [if_neg hcb]
      by_cases hca2 : c = a
      · rw [if_pos hca2]
        refine ⟨_, rfl, ?_⟩
        rw [hca2] at hgc
        rw [hga] at hgc
        have hces := Option.some_inj.mp hgc
        rw [← hces] at hf
        exact DirecMap.dget_dset_true_mono hf
      · rw [if_neg hca2]
        exact ⟨ces, hgc, hf⟩
  intro q es! hq! e hflag
  rw [hget2 q] at hq!
  by_cases hqb : q = b
  · rw [if_pos hqb] at hq!
    have hes : es! = DirecMap.dset esB (Direction.opp d) true :=
      (Option.some_inj.mp hq!).symm
    rw [hqb]
    by_cases hed : e = Direction.opp d
    · subst hed
      refine ⟨a, DirecMap.dset esA d true, ?_, ?_, ?_⟩
      · rw [hfneq]
        exact hsym
      · rw [hget2 a, if_neg (fun hc => hba hc.symm), if_pos rfl]
      · rw [Direction.opp_opp, DirecMap.dget_dset_self]
    · have hfold : esB.dget e = true := by
        rw [hes, DirecMap.dget_dset_ne _ hed] at hflag
        exact hflag
      obtain ⟨c, ces, hfc, hgc, hcf⟩ := hcons b esB hgb e hfold
      obtain ⟨ces2, hgc2, hcf2⟩ := hmono c ces (Direction.opp e) hgc hcf
      exact ⟨c, ces2, by rw [hfneq]; exact hfc, hgc2, hcf2⟩
  · rw [if_neg hqb] at hq!
    by_cases hqa : q = a
    · rw [if_pos hqa] at hq!
      have hes : es! = DirecMap.dset esA d true := (Option.some_inj.mp hq!).symm
      rw [hqa]
      by_cases hed : e = d
      · subst hed
        refine ⟨b, DirecMap.dset esB (Direction.opp e) true, ?_, ?_, ?_⟩
        · rw [hfneq]
          exact hfnb
        · rw [hget2 b, if_pos rfl]
        · rw [DirecMap.dget_dset_self]
      · have hfold : esA.dget e = true := by
          rw [hes, DirecMap.dget_dset_ne _ hed] at hflag
          exact hflag
        obtain ⟨c, ces, hfc, hgc, hcf⟩ := hcons a esA hga e hfold
        obtain ⟨ces2, hgc2, hcf2⟩ := hmono c ces (Direction.opp e) hgc hcf
        exact ⟨c, ces2, by rw [hfneq]; exact hfc, hgc2, hcf2⟩
    · rw [if_neg hqa] at hq!
      obtain ⟨c, ces, hfc, hgc, hcf⟩ := hcons q es! hq! e hflag
      obtain ⟨ces2, hgc2, hcf2⟩ := hmono c ces (Direction.opp e) hgc hcf
      exact ⟨c, ces2, by rw [hfneq]; exact hfc, hgc2, hcf2⟩

theorem edgeConsistent_disconnect {m : SMap VertexEdges} (hwf : SMap.WF m)
    (hcons : EdgeConsistent m) {a b : Vec2} {d : Direction}
    {esA esB : VertexEdges}
    (hga : SMap.get m a = some esA)
    (hfnb : SMap.firstNeighbour m a d = some b)
    (hgb1 : SMap.get (SMap.update m a (DirecMap.dset esA d false)).2 b = some esB) :
    EdgeConsistent (SMap.update (SMap.update m a (DirecMap.dset esA d false)).2 b
      (DirecMap.dset esB (Direction.opp d) false)).2 := by
  obtain ⟨hca, hbsome, hpab, hmin⟩ := (SMap.firstNeighbour_some_iff hwf a b d).mp hfnb
  have hba : b ≠ a := past_ne hpab
  set m1 := (SMap.update m a (DirecMap.dset esA d false)).2 with hm1
  set m2 := (SMap.update m1 b (DirecMap.dset esB (Direction.opp d) false)).2 with hm2
  have hw1 : SMap.WF m1 := SMap.wf_update hwf _ _
  have hw2 : SMap.WF m2 := SMap.wf_update hw1 _ _
  have hgb : SMap.get m b = some esB := by
    have h2 := hgb1
    rw [hm1, SMap.get_update hwf, if_neg (fun hc => hba hc.1)] at h2
    exact h2
  have hget1 : ∀ q : Vec2, SMap.get m1 q =
      if q = a then some (DirecMap.dset esA d false) else SMap.get m q := by
    intro q
    rw [hm1, SMap.get_update hwf]
    by_cases hq : q = a
    · rw [if_pos ⟨hq, by rw [hga]; rfl⟩, if_pos hq]
    · rw [if_neg (fun hc => hq hc.1), if_neg hq]
  have hget2 : ∀ q : Vec2, SMap.get m2 q =
      if q = b then some (DirecMap.dset esB (Direction.opp d) false)
      else if q = a then some (DirecMap.dset esA d false) else SMap.get m q := by
    intro q
    rw [hm2, SMap.get_update hw1]
    by_cases hq : q = b
    · rw [if_pos ⟨hq, by rw [hgb1]; rfl⟩, if_pos hq]
    · rw [if_neg (fun hc => hq hc.1), if_neg hq, hget1]
  have hsome : ∀ q : Vec2, (SMap.get m2 q).isSome = (SMap.get m q).isSome := by
    intro q
    rw [hm2, SMap.isSome_update hw1, hm1, SMap.isSome_update hwf]
  have hfneq : ∀ (q : Vec2) (e : Direction),
      SMap.firstNeighbour m2 q e = SMap.firstNeighbour m q e :=
    fun q e => SMap.firstNeighbour_congr hw2 hwf hsome q e
  have hsym : SMap.firstNeighbour m b (Direction.opp d) = some a :=
    SMap.firstNeighbour_symm hwf (by rw [hga]; rfl) hfnb
  have hval : ∀ (c : Vec2) (ces : VertexEdges) (s : Direction),
      SMap.get m c = some ces → ces.dget s = true →
      ¬(c = a ∧ s = d) → ¬(c = b ∧ s = Direction.opp d) →
      ∃ ces2, SMap.get m2 c = some ces2 ∧ ces2.dget s = true := by
    intro c ces s hgc hf hna hnb
    rw [hget2 c]
    by_cases hcb : c = b
    · rw [if_pos hcb]
      refine ⟨_, rfl, ?_⟩
      rw [hcb] at hgc
      rw [hgb] at hgc
      have hces := Option.some_inj.mp hgc
      rw [← hces] at hf
      rw [DirecMap.dget_dset_ne _ (fun hc => hnb ⟨hcb, hc⟩)]
      exact hf
    · rw [if_neg hcb]
      by_cases hca2 : c = a
      · rw [if_pos hca2]
        refine ⟨_, rfl, ?_⟩
        rw [hca2] at hgc
        rw [hga] at hgc
        have hces := Option.some_inj.mp hgc
        rw [← hces] at hf
        rw [DirecMap.dget_dset_ne _ (fun hc => hna ⟨hca2, hc⟩)]
        exact hf
      · rw [if_neg hca2]
        exact ⟨ces, hgc, hf⟩
  have hSa : ∀ (q : Vec2) (e : Direction), (SMap.get m q).isSome = true →
      SMap.firstNeighbour m q e = some a → Direction.opp e = d → q = b := by
    intro q e hqs hfa hop
    have h1 := SMap.firstNeighbour_symm hwf hqs hfa
    rw [hop, hfnb] at h1
    exact (Option.some_inj.mp h1).symm
  have hSb : ∀ (q : Vec2) (e : Direction), (SMap.get m q).isSome = true →
      SMap.firstNeighbour m q e = some b →
      Direction.opp e = Direction.opp d → q = a := by
    intro q e hqs hfb hop
    have hed : e = d := Direction.opp_inj hop
    subst hed
    have h1 := SMap.firstNeighbour_symm hwf hqs hfb
    rw [hsym] at h1
    exact (Option.some_inj.mp h1).symm
  intro q es! hq! e hflag
  rw [hget2 q] at hq!
  by_cases hqb : q = b
  · rw [if_pos hqb] at hq!
    have hes : es! = DirecMap.dset esB (Direction.opp d) false :=
      (Option.some_inj.mp hq!).symm
    rw [hqb]
    by_cases hed : e = Direction.opp d
    · exfalso
      rw [hes, hed, DirecMap.dget_dset_self] at hflag
      simp at hflag
    · have hfold : esB.dget e = true := by
        rw [hes, DirecMap.dget_dset_ne _ hed] at hflag
        exact hflag
      obtain ⟨c, ces, hfc, hgc, hcf⟩ := hcons b esB hgb e hfold
      have hcb2 : c ≠ b :=
        past_ne ((SMap.firstNeighbour_some_iff hwf b c e).mp hfc).2.2.1
      obtain ⟨ces2, hgc2, hcf2⟩ := hval c ces (Direction.opp e) hgc hcf
        (by
          rintro ⟨hc1, hop⟩
          exact hed (by rw [← Direction.opp_opp e, hop]))
        (fun hc => hcb2 hc.1)
      exact ⟨c, ces2, by rw [hfneq]; exact hfc, hgc2, hcf2⟩
  · rw [if_neg hqb] at hq!
    by_cases hqa : q = a
    · rw [if_pos hqa] at hq!
      have hes : es! = DirecMap.dset esA d false := (Option.some_inj.mp hq!).symm
      rw [hqa]
      by_cases hed : e = d
      · exfalso
        rw [hes, hed, DirecMap.dget_dset_self] at hflag
        simp at hflag
      · have hfold : esA.dget e = true := by
          rw [hes, DirecMap.dget_dset_ne _ hed] at hflag
          exact hflag
        obtain ⟨c, ces, hfc, hgc, hcf⟩ := hcons a esA hga e hfold
        have hca2 : c ≠ a :=
          past_ne ((SMap.firstNeighbour_some_iff hwf a c e).mp hfc).2.2.1
        obtain ⟨ces2, hgc2, hcf2⟩ := hval c ces (Direction.opp e) hgc hcf
          (fun hc => hca2 hc.1)
          (by
            rintro ⟨hc1, hop⟩
            exact hed (Direction.opp_inj hop))
        exact ⟨c, ces2, by rw [hfneq]; exact hfc, hgc2, hcf2⟩
    · rw [if_neg hqa] at hq!
      obtain ⟨c, ces, hfc, hgc, hcf⟩ := hcons q es! hq! e hflag
      obtain ⟨ces2, hgc2, hcf2⟩ := hval c ces (Direction.opp e) hgc hcf
        (by
          rintro ⟨hc1, hop⟩
          rw [hc1] at hfc
          exact hqb (hSa q e (by rw [hq!]; rfl) hfc hop))
        (by
          rintro ⟨hc1, hop⟩
          rw [hc1] at hfc
          exact hqa (hSb q e (by rw [hq!]; rfl) hfc hop))
      exact ⟨c, ces2, by rw [hfneq]; exact hfc, hgc2, hcf2⟩


theorem Graph.consistent_connectE {g : Graph} {a b : Vec2} {r : Bool}
    {g2 : Graph} (hwf : SMap.WF g.verticesEdges) (hcons : Graph.Consistent g)
    (h : Graph.connectE g a b = some (r, g2)) : Graph.Consistent g2 := by
  unfold Graph.connectE at h
  cases hdir : Vec2.directionTo a b with
  | none =>
    rw [hdir] at h
    exact Option.noConfusion h
  | some d =>
    rw [hdir] at h
    dsimp only at h
    by_cases hfn : SMap.firstNeighbour g.verticesEdges a d = some b
    · rw [if_neg (not_not_intro hfn)] at h
      cases hga : Graph.vertexEdges g a with
      | none =>
        rw [hga] at h
        exact Option.noConfusion h
      | some esA =>
        rw [hga] at h
        dsimp only at h
        by_cases hAd : esA.dget d = true
        · rw [if_pos hAd] at h
          have hg2 : g2 = g := (congrArg Prod.snd (Option.some_inj.mp h)).symm
          rw [hg2]
          exact hcons
        · rw [if_neg hAd] at h
          cases hgb : SMap.get
              (SMap.update g.verticesEdges a (DirecMap.dset esA d true)).2 b with
          | none =>
            rw [hgb] at h
            exact Option.noConfusion h
          | some esB =>
            rw [hgb] at h
            dsimp only at h
            have hg2 : g2 = { verticesEdges :=
                (SMap.update (SMap.update g.verticesEdges a
                  (DirecMap.dset esA d true)).2 b
                  (DirecMap.dset esB (Direction.opp d) true)).2 } :=
              (congrArg Prod.snd (Option.some_inj.mp h)).symm
            rw [hg2]
            exact edgeConsistent_connect hwf hcons hga hfn hgb
    · rw [if_pos hfn] at h
      exact Option.noConfusion h

theorem Graph.consistent_disconnectE {g : Graph} {a b : Vec2} {r : Bool}
    {g2 : Graph} (hwf : SMap.WF g.verticesEdges) (hcons : Graph.Consistent g)
    (h : Graph.disconnectE g a b = some (r, g2)) : Graph.Consistent g2 := by
  unfold Graph.disconnectE at h
  cases hdir : Vec2.directionTo a b with
  | none =>
    rw [hdir] at h
    exact Option.noConfusion h
  | some d =>
    rw [hdir] at h
    dsimp only at h
    by_cases hfn : SMap.firstNeighbour g.verticesEdges a d = some b
    · rw [if_neg (not_not_intro hfn)] at h
      cases hga : Graph.vertexEdges g a with
      | none =>
        rw [hga] at h
        exact Option.noConfusion h
      | some esA =>
        rw [hga] at h
        dsimp only at h
        by_cases hAd : esA.dget d = true
        · rw [if_pos hAd] at h
          cases hgb : SMap.get
              (SMap.update g.verticesEdges a (DirecMap.dset esA d false)).2 b with
          | none =>
            rw [hgb] at h
            exact Option.noConfusion h
          | some esB =>
            rw [hgb] at h
            dsimp only at h
            have hg2 : g2 = { verticesEdges :=
                (SMap.update (SMap.update g.verticesEdges a
                  (DirecMap.dset esA d false)).2 b
                  (DirecMap.dset esB (Direction.opp d) false)).2 } :=
              (congrArg Prod.snd (Option.some_inj.mp h)).symm
            rw [hg2]
            exact edgeConsistent_disconnect hwf hcons hga hfn hgb
        · rw [if_neg hAd] at h
          have hg2 : g2 = g := (congrArg Prod.snd (Option.some_inj.mp h)).symm
          rw [hg2]
          exact hcons
    · rw [if_pos hfn] at h
      exact Option.noConfusion h


theorem foldl_ext {α β : Type} (f g : α → β → α) (h : ∀ a b, f a b = g a b) :
    ∀ (l : List β) (a : α), List.foldl f a l = List.foldl g a l := by
  intro l
  induction l with
  | nil => intro a; rfl
  | cons x xs ih =>
    intro a
    rw [List.foldl_cons, List.foldl_cons, h, ih]

/-- The neighbour-flag-clearing step shared by remove_vertex and
remove_with_edges: the first neighbour of p in direction d loses its flag
back toward p when the gate allows it. -/
def clearStep (p : Vec2) (gate : Direction → Bool)
    (m : SMap VertexEdges) (d : Direction) : SMap VertexEdges :=
  match SMap.firstNeighbourData m p d with
  | some (q, qes) =>
    if gate d then (SMap.update m q (DirecMap.dset qes (Direction.opp d) false)).2
    else m
  | none => m

/-- Folding the clearing step over a direction list: keys, well-formedness
and first neighbours are untouched, and a flag of slot s at vertex v
survives exactly when no processed direction d with s = opp d, gate d, and
first neighbour v cleared it. -/
theorem clearFold_spec (p : Vec2) (gate : Direction → Bool) :
    ∀ (ds : List Direction) (m : SMap VertexEdges), SMap.WF m →
      SMap.WF (List.foldl (clearStep p gate) m ds) ∧
      (∀ v : Vec2, (SMap.get (List.foldl (clearStep p gate) m ds) v).isSome =
        (SMap.get m v).isSome) ∧
      (∀ (q : Vec2) (e : Direction),
        SMap.firstNeighbour (List.foldl (clearStep p gate) m ds) q e =
        SMap.firstNeighbour m q e) ∧
      (∀ (v : Vec2) (es : VertexEdges), SMap.get m v = some es →
        ∃ es2, SMap.get (List.foldl (clearStep p gate) m ds) v = some es2 ∧
          ∀ s : Direction, es2.dget s = true ↔
            (es.dget s = true ∧
             ¬ ∃ d, d ∈ ds ∧ s = Direction.opp d ∧
               SMap.firstNeighbour m p d = some v ∧ gate d = true)) := by
  intro ds
  induction ds with
  | nil =>
    intro m hwf
    refine ⟨hwf, fun v => rfl, fun q e => rfl, ?_⟩
    intro v es hg
    refine ⟨es, hg, ?_⟩
    intro s
    simp
  | cons d rest ih =>
    intro m hwf
    rw [List.foldl_cons]
    cases hd : SMap.firstNeighbourData m p d with
    | none =>
      have hfn : SMap.firstNeighbour m p d = none := by
        unfold SMap.firstNeighbour
        rw [hd]
        rfl
      have hstep : clearStep p gate m d = m := by
        unfold clearStep
        rw [hd]
      rw [hstep]
      obtain ⟨h1, h2, h3, h4⟩ := ih m hwf
      refine ⟨h1, h2, h3, ?_⟩
      intro v es hg
      obtain ⟨es2, hg2, hiff⟩ := h4 v es hg
      refine ⟨es2, hg2, ?_⟩
      intro s
      rw [hiff s]
      constructor
      · rintro ⟨hes, hnex⟩
        refine ⟨hes, ?_⟩
        rintro ⟨d2, hmem, hs2, hfn2, hg2x⟩
        rcases List.mem_cons.mp hmem with hcase | hcase
        · rw [hcase] at hfn2
          rw [hfn] at hfn2
          exact Option.noConfusion hfn2
        · exact hnex ⟨d2, hcase, hs2, hfn2, hg2x⟩
      · rintro ⟨hes, hnex⟩
        refine ⟨hes, ?_⟩
        rintro ⟨d2, hmem, hs2, hfn2, hg2x⟩
        exact hnex ⟨d2, List.mem_cons_of_mem _ hmem, hs2, hfn2, hg2x⟩
    | some e =>
      obtain ⟨hfnq, hgq⟩ := SMap.firstNeighbourData_spec hwf
        (show SMap.firstNeighbourData m p d = some (e.1, e.2) from by rw [hd])
      cases hgate : gate d with
      | false =>
        have hstep : clearStep p gate m d = m := by
          unfold clearStep
          rw [hd]
          dsimp only
          rw [if_neg (by simp [hgate])]
        rw [hstep]
        obtain ⟨h1, h2, h3, h4⟩ := ih m hwf
        refine ⟨h1, h2, h3, ?_⟩
        intro v es hg
        obtain ⟨es2, hg2, hiff⟩ := h4 v es hg
        refine ⟨es2, hg2, ?_⟩
        intro s
        rw [hiff s]
        constructor
        · rintro ⟨hes, hnex⟩
          refine ⟨hes, ?_⟩
          rintro ⟨d2, hmem, hs2, hfn2, hg2x⟩
          rcases List.mem_cons.mp hmem with hcase | hcase
          · rw [hcase] at hg2x
            rw [hgate] at hg2x
            exact Bool.noConfusion hg2x
          · exact hnex ⟨d2, hcase, hs2, hfn2, hg2x⟩
        · rintro ⟨hes, hnex⟩
          refine ⟨hes, ?_⟩
          rintro ⟨d2, hmem, hs2, hfn2, hg2x⟩
          exact hnex ⟨d2, List.mem_cons_of_mem _ hmem, hs2, hfn2, hg2x⟩
      | true =>
        have hstep : clearStep p gate m d =
            (SMap.update m e.1 (DirecMap.dset e.2 (Direction.opp d) false)).2 := by
          unfold clearStep
          rw [hd]
          dsimp only
          rw [if_pos hgate]
        rw [hstep]
        set mA := (SMap.update m e.1 (DirecMap.dset e.2 (Direction.opp d) false)).2
          with hmA
        have hwA : SMap.WF mA := SMap.wf_update hwf _ _
        have hsomeA : ∀ v : Vec2, (SMap.get mA v).isSome = (SMap.get m v).isSome :=
          fun v => SMap.isSome_update hwf _ _ v
        have hfnA : ∀ (q : Vec2) (e2 : Direction),
            SMap.firstNeighbour mA q e2 = SMap.firstNeighbour m q e2 :=
          fun q e2 => SMap.firstNeighbour_congr hwA hwf hsomeA q e2
        have hgetA : ∀ v : Vec2, SMap.get mA v =
            if v = e.1 then some (DirecMap.dset e.2 (Direction.opp d) false)
            else SMap.get m v := by
          intro v
          rw [hmA, SMap.get_update hwf]
          by_cases hv : v = e.1
          · rw [if_pos ⟨hv, by rw [hgq]; rfl⟩, if_pos hv]
          · rw [if_neg (fun hc => hv hc.1), if_neg hv]
        obtain ⟨h1, h2, h3, h4⟩ := ih mA hwA
        refine ⟨h1, ?_, ?_, ?_⟩
        · intro v
          rw [h2 v, hsomeA v]
        · intro q e2
          rw [h3 q e2, hfnA q e2]
        · intro v es hg
          by_cases hv : v = e.1
          · have hes : es = e.2 := by
              rw [hv] at hg
              rw [hgq] at hg
              exact (Option.some_inj.mp hg).symm
            obtain ⟨es2, hg2, hiff⟩ := h4 v (DirecMap.dset e.2 (Direction.opp d) false)
              (by rw [hgetA v, if_pos hv])
            refine ⟨es2, hg2, ?_⟩
            intro s
            rw [hiff s]
            constructor
            · rintro ⟨hds, hnex⟩
              have hsd : s ≠ Direction.opp d := by
                intro hc
                rw [hc, DirecMap.dget_dset_self] at hds
                exact Bool.noConfusion hds
              have hes2 : es.dget s = true := by
                rw [DirecMap.dget_dset_ne _ hsd] at hds
                rw [hes]
                exact hds
              refine ⟨hes2, ?_⟩
              rintro ⟨d2, hmem, hs2, hfn2, hg2x⟩
              rcases List.mem_cons.mp hmem with hcase | hcase
              · rw [hcase] at hs2
                exact hsd hs2
              · exact hnex ⟨d2, hcase, hs2, by rw [hfnA]; exact hfn2, hg2x⟩
            · rintro ⟨hes2, hnex⟩
              have hsd : s ≠ Direction.opp d := by
                intro hc
                exact hnex ⟨d, List.mem_cons_self _ _, hc,
                  by rw [hv]; exact hfnq, hgate⟩
              refine ⟨?_, ?_⟩
              · rw [DirecMap.dget_dset_ne _ hsd]
                rw [hes] at hes2
                exact hes2
              · rintro ⟨d2, hmem, hs2, hfn2, hg2x⟩
                rw [hfnA] at hfn2
                exact hnex ⟨d2, List.mem_cons_of_mem _ hmem, hs2, hfn2, hg2x⟩
          · obtain ⟨es2, hg2, hiff⟩ := h4 v es (by rw [hgetA v, if_neg hv]; exact hg)
            refine ⟨es2, hg2, ?_⟩
            intro s
            rw [hiff s]
            constructor
            · rintro ⟨hes2, hnex⟩
              refine ⟨hes2, ?_⟩
              rintro ⟨d2, hmem, hs2, hfn2, hg2x⟩
              rcases List.mem_cons.mp hmem with hcase | hcase
              · rw [hcase] at hfn2
                rw [hfnq] at hfn2
                exact hv (Option.some_inj.mp hfn2).symm
              · exact hnex ⟨d2, hcase, hs2, by rw [hfnA]; exact hfn2, hg2x⟩
            · rintro ⟨hes2, hnex⟩
              refine ⟨hes2, ?_⟩
              rintro ⟨d2, hmem, hs2, hfn2, hg2x⟩
              rw [hfnA] at hfn2
              exact hnex ⟨d2, List.mem_cons_of_mem _ hmem, hs2, hfn2, hg2x⟩


theorem edgeConsistent_removeFold {m : SMap VertexEdges} (hwf : SMap.WF m)
    (hcons : EdgeConsistent m) {p : Vec2} {pes : VertexEdges}
    (hgp : SMap.get m p = some pes) (gate : Direction → Bool)
    (hypGate : ∀ e : Direction, gate (Direction.opp e) = false →
      pes.dget (Direction.opp e) = true →
      pes.dget e = true ∧ gate e = false) :
    EdgeConsistent (SMap.remove
      (List.foldl (clearStep p gate) m Direction.list) p).2 := by
  obtain ⟨hw1, hsome1, hfn1, hval1⟩ := clearFold_spec p gate Direction.list m hwf
  intro q es1 hq1 e hflag
  have hqp : q ≠ p := by
    intro hc
    rw [hc, SMap.get_remove hw1 p p, if_pos rfl] at hq1
    exact Option.noConfusion hq1
  rw [SMap.get_remove hw1 p q, if_neg hqp] at hq1
  have hqs : (SMap.get m q).isSome = true := by
    rw [← hsome1 q, hq1]
    rfl
  obtain ⟨es, hes⟩ := Option.isSome_iff_exists.mp hqs
  obtain ⟨es2, hes2, hiff⟩ := hval1 q es hes
  have hes12 : es2 = es1 := by
    rw [hq1] at hes2
    exact (Option.some_inj.mp hes2).symm
  rw [hes12] at hiff
  obtain ⟨hesq, hnex⟩ := (hiff e).mp hflag
  obtain ⟨c, ces, hfc, hgc, hcf⟩ := hcons q es hes e hesq
  by_cases hcp : c = p
  · rw [hcp] at hfc hgc
    have hces : ces = pes := by
      rw [hgp] at hgc
      exact (Option.some_inj.mp hgc).symm
    rw [hces] at hcf
    have hsymq : SMap.firstNeighbour m p (Direction.opp e) = some q :=
      SMap.firstNeighbour_symm hwf hqs hfc
    have hgof : gate (Direction.opp e) = false := by
      cases hgo : gate (Direction.opp e) with
      | false => rfl
      | true =>
        exact absurd ⟨Direction.opp e, Direction.mem_list _,
          (Direction.opp_opp e).symm, hsymq, hgo⟩ hnex
    obtain ⟨hpe, hge⟩ := hypGate e hgof hcf
    obtain ⟨r, res, hfr, hgr, hrf⟩ := hcons p pes hgp e hpe
    have hrp : r ≠ p :=
      past_ne ((SMap.firstNeighbour_some_iff hwf p r e).mp hfr).2.2.1
    have hfq1 : SMap.firstNeighbour (List.foldl (clearStep p gate) m
        Direction.list) q e = some p := by
      rw [hfn1]
      exact hfc
    have hfnew : SMap.firstNeighbour (SMap.remove (List.foldl (clearStep p gate)
        m Direction.list) p).2 q e = some r := by
      rw [SMap.firstNeighbour_remove_of_eq hw1 hqp hfq1, hfn1]
      exact hfr
    obtain ⟨res2, hgr2, hiffr⟩ := hval1 r res hgr
    have hrflag : res2.dget (Direction.opp e) = true := by
      rw [hiffr (Direction.opp e)]
      refine ⟨hrf, ?_⟩
      rintro ⟨d2, hmem, hs2, hfn2, hg2x⟩
      have hd2 : e = d2 := Direction.opp_inj hs2
      rw [← hd2] at hg2x
      rw [hge] at hg2x
      exact Bool.noConfusion hg2x
    refine ⟨r, res2, hfnew, ?_, hrflag⟩
    rw [SMap.get_remove hw1 p r, if_neg hrp]
    exact hgr2
  · have hfq1 : SMap.firstNeighbour (List.foldl (clearStep p gate) m
        Direction.list) q e = some c := by
      rw [hfn1]
      exact hfc
    have hfnew : SMap.firstNeighbour (SMap.remove (List.foldl (clearStep p gate)
        m Direction.list) p).2 q e = some c :=
      SMap.firstNeighbour_remove_of_ne hw1 hqp hcp hfq1
    obtain ⟨ces2, hgc2, hiffc⟩ := hval1 c ces hgc
    have hcflag : ces2.dget (Direction.opp e) = true := by
      rw [hiffc (Direction.opp e)]
      refine ⟨hcf, ?_⟩
      rintro ⟨d2, hmem, hs2, hfn2, hg2x⟩
      have hd2 : e = d2 := Direction.opp_inj hs2
      rw [← hd2] at hfn2
      have h1 := SMap.firstNeighbour_symm hwf hqs hfc
      have hps : (SMap.get m p).isSome = true := by
        rw [hgp]
        rfl
      have h2 := SMap.firstNeighbour_symm hwf hps hfn2
      rw [h1] at h2
      exact hqp (Option.some_inj.mp h2)
    refine ⟨c, ces2, hfnew, ?_, hcflag⟩
    rw [SMap.get_remove hw1 p c, if_neg hcp]
    exact hgc2

theorem Graph.consistent_removeVertex {g : Graph} (p : Vec2)
    (hwf : SMap.WF g.verticesEdges) (hcons : Graph.Consistent g) :
    Graph.Consistent (Graph.removeVertex g p).2 := by
  unfold Graph.removeVertex
  cases hgp : SMap.get g.verticesEdges p with
  | none => exact hcons
  | some pes =>
    dsimp only
    have hfold : List.foldl
        (fun (m : SMap VertexEdges) d =>
          match SMap.firstNeighbourData m p d with
          | some (q, qes) =>
            if ¬ pes.dget (Direction.opp d) then
              (SMap.update m q (qes.dset (Direction.opp d) false)).2
            else m
          | none => m) g.verticesEdges Direction.list =
        List.foldl (clearStep p (fun d => ! pes.dget (Direction.opp d)))
          g.verticesEdges Direction.list := by
      refine foldl_ext _ _ ?_ Direction.list g.verticesEdges
      intro m d
      unfold clearStep
      cases h2 : SMap.firstNeighbourData m p d with
      | none => rfl
      | some e =>
        dsimp only
        cases hb : pes.dget (Direction.opp d) with
        | false => rw [if_pos (by simp [hb]), if_pos (by simp [hb])]
        | true => rw [if_neg (by simp [hb]), if_neg (by simp [hb])]
    rw [hfold]
    refine edgeConsistent_removeFold hwf hcons hgp _ ?_
    intro e hgo hpo
    refine ⟨?_, ?_⟩
    · simp only [Direction.opp_opp] at hgo
      simpa using hgo
    · simp [hpo]

theorem Graph.consistent_removeWithEdges {g : Graph} (p : Vec2)
    (hwf : SMap.WF g.verticesEdges) (hcons : Graph.Consistent g) :
    Graph.Consistent (Graph.removeWithEdges g p).2 := by
  unfold Graph.removeWithEdges
  cases hgp : SMap.get g.verticesEdges p with
  | none => exact hcons
  | some pes =>
    dsimp only
    have hfold : List.foldl
        (fun (m : SMap VertexEdges) d =>
          match SMap.firstNeighbourData m p d with
          | some (q, qes) =>
            if pes.dget d then
              (SMap.update m q (qes.dset (Direction.opp d) false)).2
            else m
          | none => m) g.verticesEdges Direction.list =
        List.foldl (clearStep p (fun d => pes.dget d))
          g.verticesEdges Direction.list := by
      refine foldl_ext _ _ ?_ Direction.list g.verticesEdges
      intro m d
      unfold clearStep
      cases h2 : SMap.firstNeighbourData m p d with
      | none => rfl
      | some e => dsimp only
    rw [hfold]
    refine edgeConsistent_removeFold hwf hcons hgp _ ?_
    intro e hgo hpo
    exact absurd hpo (by simpa using hgo)


theorem Graph.consistent_createVertex {g : Graph} (p : Vec2)
    (hwf : SMap.WF g.verticesEdges) (hcons : Graph.Consistent g)
    (hsplit : ∀ (a : Vec2) (es : VertexEdges) (d : Direction) (b : Vec2),
      SMap.get g.verticesEdges a = some es → es.dget d = true →
      SMap.firstNeighbour g.verticesEdges a d = some b →
      past a p d → past p b d → False) :
    Graph.Consistent (Graph.createVertex g p).2 := by
  unfold Graph.createVertex
  dsimp only
  by_cases hp : (SMap.get g.verticesEdges p).isSome = true
  · obtain ⟨w, hw⟩ := Option.isSome_iff_exists.mp hp
    rw [SMap.create_of_present hwf hw]
    exact hcons
  · have hgnone : SMap.get g.verticesEdges p = none := by
      cases hgn : SMap.get g.verticesEdges p with
      | none => rfl
      | some w =>
        rw [hgn] at hp
        exact absurd rfl hp
    have hcont : SMap.contains g.verticesEdges p = false := by
      rw [SMap.contains_eq_isSome, hgnone]
      rfl
    have hfn0 : ∀ d : Direction,
        SMap.firstNeighbourData g.verticesEdges p d = none := by
      intro d
      unfold SMap.firstNeighbourData
      rw [SMap.neighbours_empty_of_absent hwf hcont]
      rfl
    have hedges : (Direction.list.foldl
        (fun (acc : VertexEdges) d =>
          match SMap.firstNeighbourData g.verticesEdges p d with
          | some (_, qes) =>
            if qes.dget (Direction.opp d) then acc.dset d true else acc
          | none => acc)
        { up := false, left := false, down := false, right := false }) =
        ({ up := false, left := false, down := false, right := false } :
          VertexEdges) := by
      simp only [Direction.list, List.foldl_cons, List.foldl_nil, hfn0]
    rw [hedges]
    have hw2 : SMap.WF (SMap.create g.verticesEdges p
        { up := false, left := false, down := false, right := false }).2 :=
      SMap.wf_create hwf _ _
    have hget2 : ∀ q : Vec2, SMap.get (SMap.create g.verticesEdges p
        { up := false, left := false, down := false, right := false }).2 q =
        if q = p then
          some { up := false, left := false, down := false, right := false }
        else SMap.get g.verticesEdges q := by
      intro q
      rw [SMap.get_create hwf]
      by_cases hq : q = p
      · rw [if_pos ⟨hq, by rw [hgnone]; rfl⟩, if_pos hq]
      · rw [if_neg (fun hc => hq hc.1), if_neg hq]
    intro q es hq2 e hflag
    rw [hget2 q] at hq2
    by_cases hqp : q = p
    · rw [if_pos hqp] at hq2
      have hes : es =
          ({ up := false, left := false, down := false, right := false } :
            VertexEdges) := (Option.some_inj.mp hq2).symm
      rw [hes] at hflag
      exact absurd hflag (by cases e <;> simp [DirecMap.dget])
    · rw [if_neg hqp] at hq2
      obtain ⟨b, bes, hfb, hgb, hbf⟩ := hcons q es hq2 e hflag
      obtain ⟨hcq, hbs, hqb, hmin⟩ :=
        (SMap.firstNeighbour_some_iff hwf q b e).mp hfb
      have hbp : b ≠ p := by
        intro hc
        rw [hc, hgnone] at hgb
        exact Option.noConfusion hgb
      have hfb2 : SMap.firstNeighbour (SMap.create g.verticesEdges p
          { up := false, left := false, down := false, right := false }).2 q e =
          some b := by
        refine (SMap.firstNeighbour_some_iff hw2 q b e).mpr ⟨?_, ?_, hqb, ?_⟩
        · rw [SMap.contains_eq_isSome, hget2 q, if_neg hqp,
            ← SMap.contains_eq_isSome]
          exact hcq
        · rw [hget2 b, if_neg hbp]
          exact hbs
        · intro c hcs hqc
          rw [hget2 c] at hcs
          by_cases hcp : c = p
          · rcases past_trichotomy (hcp ▸ hqc : past q p e) hqb with h1 | h1 | h1
            · exact absurd h1 (fun hc2 => hbp hc2.symm)
            · exact Or.inr (by rw [hcp]; exact h1)
            · exact absurd (past_of_closer (hcp ▸ hqc) hqb h1)
                (fun hc2 => hsplit q es e b hq2 hflag hfb (hcp ▸ hqc) hc2)
          · rw [if_neg hcp] at hcs
            exact hmin c hcs hqc
      refine ⟨b, bes, hfb2, ?_, hbf⟩
      rw [hget2 b, if_neg hbp]
      exact hgb


/-- Two isolated vertices at (0,0) and (2,0). -/
def c4pre0 : Graph :=
  (Graph.createVertex ((Graph.createVertex Graph.empty { x := 0, y := 0 }).2)
    { x := 2, y := 0 }).2

/-- The two vertices connected by an edge along the row. -/
def c4pre : Graph := oconn c4pre0 { x := 0, y := 0 } { x := 2, y := 0 }

/-- A vertex created strictly inside the existing edge. -/
def c4broken : Graph := (Graph.createVertex c4pre { x := 1, y := 0 }).2

/-- Claim C4, counterexample: the consistency invariant is NOT preserved by
create_vertex.  Reachable state: create (0,0) and (2,0), connect them
(returns true), then create (1,0).  The new vertex becomes the first
neighbour of (0,0) rightwards, but its flags are all false — the seeding
loop queries the first neighbours of the vertex before it is inserted, and
the neighbour iterator of an absent key is empty — so (0,0) points right at
(1,0) which does not point back. -/
theorem claim4_counterexample :
    Graph.connectE c4pre0 { x := 0, y := 0 } { x := 2, y := 0 } =
      some (true, c4pre) ∧
    (Graph.createVertex c4pre { x := 1, y := 0 }).1 = true ∧
    ¬ Graph.Consistent c4broken := by
  refine ⟨by decide, by decide, ?_⟩
  intro h
  obtain ⟨b, bes, hfn, hget, hflag⟩ := h { x := 0, y := 0 }
    { up := false, left := false, down := false, right := true }
    (by decide) Direction.right (by decide)
  rw [show SMap.firstNeighbour c4broken.verticesEdges { x := 0, y := 0 }
      Direction.right = some { x := 1, y := 0 } from by decide] at hfn
  have hb := Option.some_inj.mp hfn
  rw [← hb] at hget
  rw [show SMap.get c4broken.verticesEdges { x := 1, y := 0 } =
      some { up := false, left := false, down := false, right := false } from
      by decide] at hget
  have hbes := Option.some_inj.mp hget
  rw [← hbes] at hflag
  exact absurd hflag (by decide)

/-- Claim C4 (amended): the consistency invariant holds for the empty graph
and is preserved by connect, disconnect, remove_vertex and
remove_with_edges (on well-formed maps).  It is NOT preserved by
create_vertex in general — the flag-seeding loop reads the map before the
vertex is inserted, so the new flags are always all false
(claim4_counterexample); preservation holds exactly under the additional
hypothesis that no recorded edge passes strictly through the created
point. -/
theorem claim4_amended :
    Graph.Consistent Graph.empty ∧
    (∀ (g : Graph) (a b : Vec2) (r : Bool) (g2 : Graph),
      SMap.WF g.verticesEdges → Graph.Consistent g →
      Graph.connectE g a b = some (r, g2) → Graph.Consistent g2) ∧
    (∀ (g : Graph) (a b : Vec2) (r : Bool) (g2 : Graph),
      SMap.WF g.verticesEdges → Graph.Consistent g →
      Graph.disconnectE g a b = some (r, g2) → Graph.Consistent g2) ∧
    (∀ (g : Graph) (p : Vec2), SMap.WF g.verticesEdges → Graph.Consistent g →
      Graph.Consistent (Graph.removeVertex g p).2) ∧
    (∀ (g : Graph) (p : Vec2), SMap.WF g.verticesEdges → Graph.Consistent g →
      Graph.Consistent (Graph.removeWithEdges g p).2) ∧
    (∀ (g : Graph) (p : Vec2), SMap.WF g.verticesEdges → Graph.Consistent g →
      (∀ (a : Vec2) (es : VertexEdges) (d : Direction) (b : Vec2),
        SMap.get g.verticesEdges a = some es → es.dget d = true →
        SMap.firstNeighbour g.verticesEdges a d = some b →
        past a p d → past p b d → False) →
      Graph.Consistent (Graph.createVertex g p).2) :=
  ⟨Graph.consistent_empty,
   fun _ _ _ _ _ hwf hc h => Graph.consistent_connectE hwf hc h,
   fun _ _ _ _ _ hwf hc h => Graph.consistent_disconnectE hwf hc h,
   fun _ p hwf hc => Graph.consistent_removeVertex p hwf hc,
   fun _ p hwf hc => Graph.consistent_removeWithEdges p hwf hc,
   fun _ p hwf hc hs => Graph.consistent_createVertex p hwf hc hs⟩

theorem claim4_amended_witness :
    Graph.Consistent (Graph.removeVertex Graph.empty { x := 0, y := 0 }).2 :=
  claim4_amended.2.2.2.1 Graph.empty { x := 0, y := 0 } SMap.wf_empty
    claim4_amended.1


/-! ## Claim C8: A-star termination and the no-path condition

The embedding of std BinaryHeap is analysed only through the multiset of
its entries: push prepends an entry up to permutation and pop splits off
one entry up to permutation, which is all the termination and
reachability arguments require. -/

theorem set_cons_perm {α : Type} :
    ∀ (t : List α) (m : Nat) (e d0 : α), m < t.length →
      List.Perm (t.getD m d0 :: t.set m e) (e :: t) := by
  intro t
  induction t with
  | nil =>
    intro m e d0 hm
    simp at hm
  | cons b s ih =>
    intro m e d0 hm
    cases m with
    | zero => exact List.Perm.swap e b s
    | succ m =>
      have hms : m < s.length := by simpa using hm
      have h1 : List.Perm (s.getD m d0 :: b :: s.set m e)
          (b :: s.getD m d0 :: s.set m e) := List.Perm.swap _ _ _
      have h2 : List.Perm (b :: s.getD m d0 :: s.set m e) (b :: e :: s) :=
        List.Perm.cons b (ih m e d0 hms)
      have h3 : List.Perm (b :: e :: s) (e :: b :: s) := List.Perm.swap _ _ _
      exact h1.trans (h2.trans h3)

theorem set_exch_perm {α : Type} :
    ∀ (t : List α) (m : Nat) (x y : α), m < t.length →
      List.Perm (x :: t.set m y) (y :: t.set m x) := by
  intro t
  induction t with
  | nil =>
    intro m x y hm
    simp at hm
  | cons b s ih =>
    intro m x y hm
    cases m with
    | zero => exact List.Perm.swap y x s
    | succ m =>
      have hms : m < s.length := by simpa using hm
      have h1 : List.Perm (x :: b :: s.set m y) (b :: x :: s.set m y) :=
        List.Perm.swap _ _ _
      have h2 : List.Perm (b :: x :: s.set m y) (b :: y :: s.set m x) :=
        List.Perm.cons b (ih m x y hms)
      have h3 : List.Perm (b :: y :: s.set m x) (y :: b :: s.set m x) :=
        List.Perm.swap _ _ _
      exact h1.trans (h2.trans h3)

theorem set_swap_perm {α : Type} :
    ∀ (l : List α) (i j : Nat) (e d0 : α), i < l.length → j < l.length →
      i ≠ j → List.Perm ((l.set i (l.getD j d0)).set j e) (l.set i e) := by
  intro l
  induction l with
  | nil =>
    intro i j e d0 hi
    simp at hi
  | cons a t ih =>
    intro i j e d0 hi hj hij
    cases i with
    | zero =>
      cases j with
      | zero => exact absurd rfl hij
      | succ j =>
        have hjt : j < t.length := by simpa using hj
        show List.Perm (t.getD j d0 :: t.set j e) (e :: t)
        exact set_cons_perm t j e d0 hjt
    | succ i =>
      cases j with
      | zero =>
        have hit : i < t.length := by simpa using hi
        show List.Perm (e :: t.set i a) (a :: t.set i e)
        exact set_exch_perm t i e a hit
      | succ j =>
        have hit : i < t.length := by simpa using hi
        have hjt : j < t.length := by simpa using hj
        have hijt : i ≠ j := fun hc => hij (by rw [hc])
        show List.Perm (a :: (t.set i (t.getD j d0)).set j e) (a :: t.set i e)
        exact List.Perm.cons a (ih i j e d0 hit hjt hijt)

theorem heapSiftUpGo_perm :
    ∀ (fuel : Nat) (data : List HeapEntry) (start pos : Nat) (elem : HeapEntry),
      pos < data.length →
      List.Perm (heapSiftUpGo fuel data start pos elem) (data.set pos elem) := by
  intro fuel
  induction fuel with
  | zero =>
    intro data start pos elem hpos
    exact List.Perm.refl _
  | succ fuel ih =>
    intro data start pos elem hpos
    unfold heapSiftUpGo
    by_cases hsp : start < pos
    · rw [if_pos hsp]
      dsimp only
      by_cases hgt : heapGT elem (data.getD ((pos - 1) / 2) default) = true
      · rw [if_pos hgt]
        have hpar : (pos - 1) / 2 < data.length := by
          have h1 : (pos - 1) / 2 ≤ pos - 1 := Nat.div_le_self _ _
          omega
        have hrec := ih (data.set pos (data.getD ((pos - 1) / 2) default))
          start ((pos - 1) / 2) elem (by simpa using hpar)
        refine hrec.trans ?_
        have hne : pos ≠ (pos - 1) / 2 := by
          have h1 : (pos - 1) / 2 ≤ pos - 1 := Nat.div_le_self _ _
          omega
        exact set_swap_perm data pos ((pos - 1) / 2) elem default hpos hpar hne
      · rw [if_neg hgt]
    · rw [if_neg hsp]

theorem heapSiftUp_perm (data : List HeapEntry) (start pos : Nat)
    (elem : HeapEntry) (hpos : pos < data.length) :
    List.Perm (heapSiftUp data start pos elem) (data.set pos elem) :=
  heapSiftUpGo_perm (pos + 1) data start pos elem hpos

theorem heapPush_perm (data : List HeapEntry) (e : HeapEntry) :
    List.Perm (heapPush data e) (e :: data) := by
  unfold heapPush
  have h1 := heapSiftUp_perm (data ++ [e]) 0 data.length e (by simp)
  refine h1.trans ?_
  rw [List.set_append_right _ _ (le_refl _)]
  simp only [Nat.sub_self, List.set_cons_zero]
  exact List.perm_append_singleton e data

theorem heapPush_length (data : List HeapEntry) (e : HeapEntry) :
    (heapPush data e).length = data.length + 1 := by
  have h2 := (heapPush_perm data e).length_eq
  simpa using h2

theorem heapSiftDownGo_spec :
    ∀ (fuel : Nat) (data : List HeapEntry) (endIdx pos : Nat),
      pos < data.length → endIdx ≤ data.length →
      (heapSiftDownGo fuel data endIdx pos).1.length = data.length ∧
      (heapSiftDownGo fuel data endIdx pos).2 < data.length ∧
      ∀ e : HeapEntry,
        List.Perm ((heapSiftDownGo fuel data endIdx pos).1.set
          (heapSiftDownGo fuel data endIdx pos).2 e) (data.set pos e) := by
  intro fuel
  induction fuel with
  | zero =>
    intro data endIdx pos hpos hend
    exact ⟨rfl, hpos, fun e => List.Perm.refl _⟩
  | succ fuel ih =>
    intro data endIdx pos hpos hend
    unfold heapSiftDownGo
    by_cases hc : 2 * pos + 1 < endIdx - 1
    · rw [if_pos hc]
      dsimp only
      set c := if heapGT (data.getD (2 * pos + 1 + 1) default)
          (data.getD (2 * pos + 1) default)
          || decide ((data.getD (2 * pos + 1) default).1 =
            (data.getD (2 * pos + 1 + 1) default).1)
        then 2 * pos + 1 + 1 else 2 * pos + 1 with hcdef
      have hcb : c ≤ 2 * pos + 2 := by
        rw [hcdef]
        split <;> omega
      have hcb2 : 2 * pos + 1 ≤ c := by
        rw [hcdef]
        split <;> omega
      have hclen : c < data.length := by omega
      have hrec := ih (data.set pos (data.getD c default)) endIdx c
        (by simpa using hclen) (by simpa using hend)
      refine ⟨by rw [hrec.1]; simp, by simpa using hrec.2.1, ?_⟩
      intro e
      refine (hrec.2.2 e).trans ?_
      exact set_swap_perm data pos c e default hpos hclen (by omega)
    · rw [if_neg hc]
      exact ⟨rfl, hpos, fun e => List.Perm.refl _⟩

theorem heapSiftDownToBottom_perm (data : List HeapEntry) (endIdx pos : Nat)
    (elem : HeapEntry) (hpos : pos < data.length)
    (hend : endIdx ≤ data.length) :
    List.Perm (heapSiftDownToBottom data endIdx pos elem)
      (data.set pos elem) := by
  unfold heapSiftDownToBottom
  obtain ⟨hlen, hpos2, hperm⟩ :=
    heapSiftDownGo_spec endIdx data endIdx pos hpos hend
  dsimp only
  by_cases hch : 2 * (heapSiftDownGo endIdx data endIdx pos).2 + 1 = endIdx - 1
  · rw [if_pos hch]
    have hchlen : 2 * (heapSiftDownGo endIdx data endIdx pos).2 + 1 <
        (heapSiftDownGo endIdx data endIdx pos).1.length := by omega
    have h1 := heapSiftUp_perm
      ((heapSiftDownGo endIdx data endIdx pos).1.set
        (heapSiftDownGo endIdx data endIdx pos).2
        ((heapSiftDownGo endIdx data endIdx pos).1.getD
          (2 * (heapSiftDownGo endIdx data endIdx pos).2 + 1) default))
      pos (2 * (heapSiftDownGo endIdx data endIdx pos).2 + 1) elem
      (by simpa using hchlen)
    refine h1.trans ?_
    refine (set_swap_perm (heapSiftDownGo endIdx data endIdx pos).1
      (heapSiftDownGo endIdx data endIdx pos).2
      (2 * (heapSiftDownGo endIdx data endIdx pos).2 + 1) elem default
      (by omega) hchlen (by omega)).trans ?_
    exact hperm elem
  · rw [if_neg hch]
    have h1 := heapSiftUp_perm (heapSiftDownGo endIdx data endIdx pos).1 pos
      (heapSiftDownGo endIdx data endIdx pos).2 elem (by omega)
    exact h1.trans (hperm elem)

theorem heapPop_eq_none_iff (data : List HeapEntry) :
    heapPop data = none ↔ data = [] := by
  constructor
  · intro h
    cases hl : data.getLast? with
    | none => exact List.getLast?_eq_none_iff.mp hl
    | some item =>
      exfalso
      unfold heapPop at h
      rw [hl] at h
      dsimp only at h
      by_cases hre : List.isEmpty data.dropLast
      · rw [if_pos hre] at h
        exact Option.noConfusion h
      · rw [if_neg hre] at h
        exact Option.noConfusion h
  · intro h
    subst h
    rfl

theorem heapPop_perm {data : List HeapEntry} {x : HeapEntry}
    {data2 : List HeapEntry} (h : heapPop data = some (x, data2)) :
    List.Perm data (x :: data2) := by
  unfold heapPop at h
  cases hl : data.getLast? with
  | none =>
    rw [hl] at h
    exact Option.noConfusion h
  | some item =>
    rw [hl] at h
    dsimp only at h
    obtain ⟨ys, hdata⟩ := List.getLast?_eq_some_iff.mp hl
    have hrest : data.dropLast = ys := by
      rw [hdata]
      exact List.dropLast_concat
    rw [hrest] at h
    by_cases hye : List.isEmpty ys
    · rw [if_pos hye] at h
      have hys : ys = [] := by
        cases ys with
        | nil => rfl
        | cons y t => simp at hye
      have h2 := Option.some_inj.mp h
      have hx : item = x := congrArg Prod.fst h2
      have hd : ([] : List HeapEntry) = data2 := congrArg Prod.snd h2
      rw [hdata, hys, ← hx, ← hd]
      exact List.Perm.refl _
    · rw [if_neg hye] at h
      have h2 := Option.some_inj.mp h
      have hx : ys.getD 0 default = x := congrArg Prod.fst h2
      have hd : heapSiftDownToBottom (ys.set 0 item) ys.length 0 item = data2 :=
        congrArg Prod.snd h2
      have hysne : ys ≠ [] := by
        intro hc
        rw [hc] at hye
        exact hye rfl
      obtain ⟨y0, ytail, hys⟩ := List.exists_cons_of_ne_nil hysne
      have hlen0 : 0 < (ys.set 0 item).length := by
        rw [hys]
        simp
      have hperm1 : List.Perm data2 ((ys.set 0 item).set 0 item) := by
        rw [← hd]
        exact heapSiftDownToBottom_perm (ys.set 0 item) ys.length 0 item
          hlen0 (by simp)
      rw [List.set_set] at hperm1
      have hset : ys.set 0 item = item :: ytail := by
        rw [hys]
        rfl
      rw [hset] at hperm1
      have hx0 : x = y0 := by
        rw [← hx, hys]
        rfl
      rw [hdata, hys, hx0]
      have hstep1 : List.Perm (y0 :: data2) (y0 :: item :: ytail) :=
        List.Perm.cons y0 hperm1
      refine List.Perm.trans ?_ hstep1.symm
      show List.Perm (y0 :: (ytail ++ [item])) (y0 :: item :: ytail)
      exact List.Perm.cons y0 (List.perm_append_singleton item ytail)

theorem heapPop_length {data : List HeapEntry} {x : HeapEntry}
    {data2 : List HeapEntry} (h : heapPop data = some (x, data2)) :
    data.length = data2.length + 1 := by
  have h2 := (heapPop_perm h).length_eq
  simpa using h2


/-- Reachability by unit cardinal steps through points accepted by the
validity predicate (the start itself need not be accepted, matching the
search, which enqueues the start unconditionally). -/
inductive Reach (valid : Vec2 → Bool) (startP : Vec2) : Vec2 → Prop where
  | base : Reach valid startP startP
  | step {q : Vec2} (d : Direction) : Reach valid startP q →
      valid (Vec2.moveOne q d) = true → Reach valid startP (Vec2.moveOne q d)

/-- Cost sanity: non-negative turns bounded by the distance (every stored
cost satisfies this when the penalty is non-negative). -/
def costOK (c : Cost) : Prop := 0 ≤ c.turns ∧ c.turns ≤ c.distance

/-- Natural-number rank embedding the lexicographic cost order on costs
satisfying costOK. -/
def crank (c : Cost) : Nat :=
  (c.distance * (c.distance + 1) + 2 * c.turns).toNat

theorem crank_lt {a b : Cost} (ha : costOK a) (hb : costOK b)
    (h : Cost.clt a b = true) : crank a < crank b := by
  obtain ⟨ha1, ha2⟩ := ha
  obtain ⟨hb1, hb2⟩ := hb
  have hd : a.distance < b.distance ∨
      (a.distance = b.distance ∧ a.turns < b.turns) := by
    unfold Cost.clt at h
    simp only [Bool.or_eq_true, decide_eq_true_eq, Bool.and_eq_true] at h
    exact h
  have hkey : a.distance * (a.distance + 1) + 2 * a.turns <
      b.distance * (b.distance + 1) + 2 * b.turns := by
    rcases hd with h1 | ⟨h1, h2⟩
    · have hsq : (a.distance + 1) * (a.distance + 1 + 1) ≤
          b.distance * (b.distance + 1) := by
        have e1 : a.distance + 1 ≤ b.distance := by omega
        have e2 : 0 ≤ a.distance + 1 := by omega
        exact mul_le_mul e1 (by omega) (by omega) (by omega)
      nlinarith
    · rw [h1]
      omega
  have hna : 0 ≤ a.distance * (a.distance + 1) :=
    mul_nonneg (by omega) (by omega)
  have hnb : 0 ≤ b.distance * (b.distance + 1) :=
    mul_nonneg (by omega) (by omega)
  unfold crank
  omega

theorem aget_ainsert {V : Type} :
    ∀ (l : List (Vec2 × V)) (k : Vec2) (v : V) (k2 : Vec2),
      aget (ainsert l k v) k2 = if k2 = k then some v else aget l k2 := by
  intro l
  induction l with
  | nil =>
    intro k v k2
    simp only [ainsert, aget]
  | cons e rest ih =>
    intro k v k2
    simp only [ainsert]
    by_cases h : k = e.1
    · rw [if_pos h]
      simp only [aget]
      by_cases h2 : k2 = k
      · rw [if_pos h2, if_pos h2]
      · rw [if_neg h2, if_neg h2, if_neg (fun hc => h2 (hc.trans h.symm))]
    · rw [if_neg h]
      simp only [aget]
      rw [ih]
      by_cases h2 : k2 = e.1
      · rw [if_pos h2, if_neg (fun hc => h (hc.symm.trans h2)), if_pos h2]
      · rw [if_neg h2, if_neg h2]

theorem sum_map_lt {f g : Vec2 → Nat} :
    ∀ (U : List Vec2), (∀ p ∈ U, g p ≤ f p) → (∃ p ∈ U, g p < f p) →
      (U.map g).sum < (U.map f).sum := by
  intro U
  induction U with
  | nil =>
    intro _ hex
    obtain ⟨p, hp, _⟩ := hex
    cases hp
  | cons a t ih =>
    intro hle hex
    simp only [List.map_cons, List.sum_cons]
    obtain ⟨p, hp, hplt⟩ := hex
    rcases List.mem_cons.mp hp with hpa | hpt
    · have ht : (t.map g).sum ≤ (t.map f).sum := by
        have : ∀ (t2 : List Vec2), (∀ p ∈ t2, g p ≤ f p) →
            (t2.map g).sum ≤ (t2.map f).sum := by
          intro t2
          induction t2 with
          | nil => intro _; exact le_refl _
          | cons b s ihs =>
            intro hle2
            simp only [List.map_cons, List.sum_cons]
            exact Nat.add_le_add (hle2 b (List.mem_cons_self _ _))
              (ihs (fun q hq => hle2 q (List.mem_cons_of_mem _ hq)))
        exact this t (fun q hq => hle q (List.mem_cons_of_mem _ hq))
      have ha : g a < f a := by
        rw [hpa] at hplt
        exact hplt
      omega
    · have ha : g a ≤ f a := hle a (List.mem_cons_self _ _)
      have ht := ih (fun q hq => hle q (List.mem_cons_of_mem _ hq)) ⟨p, hpt, hplt⟩
      omega

theorem filter_length_lt {P Q : Vec2 → Bool} :
    ∀ (U : List Vec2), (∀ p ∈ U, Q p = true → P p = true) →
      (∃ p ∈ U, P p = true ∧ Q p = false) →
      (U.filter Q).length < (U.filter P).length := by
  intro U
  induction U with
  | nil =>
    intro _ hex
    obtain ⟨p, hp, _⟩ := hex
    cases hp
  | cons a t ih =>
    intro hmono hex
    have hlemma : ∀ (t2 : List Vec2), (∀ p ∈ t2, Q p = true → P p = true) →
        (t2.filter Q).length ≤ (t2.filter P).length := by
      intro t2
      induction t2 with
      | nil => intro _; exact le_refl _
      | cons b s ihs =>
        intro hm2
        simp only [List.filter_cons]
        cases hq : Q b with
        | true =>
          rw [if_pos (by simp), if_pos (by simp [hm2 b (List.mem_cons_self _ _) hq])]
          simpa using Nat.succ_le_succ
            (ihs (fun q hq2 => hm2 q (List.mem_cons_of_mem _ hq2)))
        | false =>
          rw [if_neg (by simp)]
          have hrest := ihs (fun q hq2 => hm2 q (List.mem_cons_of_mem _ hq2))
          cases hp : P b with
          | true =>
            rw [if_pos (by simp [hp])]
            simp only [List.length_cons]
            omega
          | false =>
            rw [if_neg (by simp [hp])]
            exact hrest
    obtain ⟨p, hp, hpP, hpQ⟩ := hex
    simp only [List.filter_cons]
    rcases List.mem_cons.mp hp with hpa | hpt
    · rw [← hpa] at *
      rw [if_neg (by simp [hpQ]), if_pos (by simp [hpP])]
      have := hlemma t (fun q hq => hmono q (List.mem_cons_of_mem _ hq))
      simp only [List.length_cons]
      omega
    · have ht := ih (fun q hq => hmono q (List.mem_cons_of_mem _ hq))
        ⟨p, hpt, hpP, hpQ⟩
      cases hq : Q a with
      | true =>
        rw [if_pos (by simp),
          if_pos (by simp [hmono a (List.mem_cons_self _ _) hq])]
        simpa using Nat.succ_lt_succ ht
      | false =>
        rw [if_neg (by simp)]
        cases hp2 : P a with
        | true =>
          rw [if_pos (by simp [hp2])]
          simp only [List.length_cons]
          omega
        | false =>
          rw [if_neg (by simp [hp2])]
          exact ht


/-- Base search invariants: stored costs are sane, frontier points are
travelled, travelled points are reachable and lie in the finite universe,
the start is travelled, and predecessor links strictly decrease the stored
distance (so predecessor chains cannot cycle). -/
def AInvBase (startP : Vec2) (valid : Vec2 → Bool) (U : List Vec2)
    (st : AState) : Prop :=
  (∀ (k : Vec2) (c : Cost), aget st.travelled k = some c → costOK c) ∧
  (∀ e ∈ st.costPoints, (aget st.travelled e.2).isSome = true) ∧
  (∀ (k : Vec2) (c : Cost), aget st.travelled k = some c →
    Reach valid startP k) ∧
  (aget st.travelled startP).isSome = true ∧
  (∀ k : Vec2, (aget st.travelled k).isSome = true → k ∈ U) ∧
  (∀ (k c2 : Vec2), aget st.predecessors k = some c2 →
    ∃ ck cc, aget st.travelled k = some ck ∧ aget st.travelled c2 = some cc ∧
      cc.distance < ck.distance)

/-- The frontier-coverage invariant: every travelled point either still has
a frontier entry or has been expanded (all its valid neighbours are
travelled); the goal is never silently expanded. -/
def AComplete (goal : Vec2) (valid : Vec2 → Bool) (st : AState) : Prop :=
  ∀ k : Vec2, (aget st.travelled k).isSome = true →
    (∃ e ∈ st.costPoints, e.2 = k) ∨
    (k ≠ goal ∧ ∀ d : Direction, valid (Vec2.moveOne k d) = true →
      (aget st.travelled (Vec2.moveOne k d)).isSome = true)

/-- Number of universe points not yet travelled. -/
def muNew (U : List Vec2) (st : AState) : Nat :=
  (U.filter (fun p => !(aget st.travelled p).isSome)).length

/-- Total rank of the travelled costs over the universe. -/
def muRank (U : List Vec2) (st : AState) : Nat :=
  (U.map (fun p => match aget st.travelled p with
    | some c => crank c
    | none => 0)).sum

/-- Strict decrease witnessed by a successful relaxation: a new key enters
the travelled table, or a present key strictly improves. -/
def muPairLt (U : List Vec2) (a b : AState) : Prop :=
  muNew U a < muNew U b ∨ (muNew U a = muNew U b ∧ muRank U a < muRank U b)

/-- The turn test of eval_neighbours. -/
def turnFlag (preds : List (Vec2 × Vec2)) (current : Vec2)
    (d : Direction) : Bool :=
  match aget preds current with
  | some prev => decide (Vec2.directionTo prev current ≠ some d)
  | none => false

/-- The tentative cost of entering a neighbour. -/
def attOf (penalty : Int) (c : Cost) (turning : Bool) : Cost :=
  if turning then { distance := c.distance + 1 + penalty, turns := c.turns + 1 }
  else { distance := c.distance + 1, turns := c.turns }

/-- The improvement test of eval_neighbours. -/
def betterOf (old : Option Cost) (att : Cost) : Bool :=
  match old with
  | none => true
  | some o => Cost.clt att o

/-- One direction of PathMakerCall::eval_neighbours, definitionally equal
to the fold body of the embedding. -/
def evalStep (penalty : Int) (goal : Vec2) (valid : Vec2 → Bool)
    (current : Vec2) (st : AState) (d : Direction) : AState :=
  let nb := Vec2.moveOne current d
  if valid nb then
    match aget st.travelled current with
    | none => st
    | some c =>
      let att := attOf penalty c (turnFlag st.predecessors current d)
      if betterOf (aget st.travelled nb) att then
        { travelled := ainsert st.travelled nb att
          predecessors := ainsert st.predecessors nb current
          costPoints := heapPush st.costPoints
            ({ distance := att.distance + (idist nb.x goal.x + idist nb.y goal.y),
               turns := att.turns }, nb) }
      else st
  else st

theorem evalNeighbours_eq (penalty : Int) (goal : Vec2) (valid : Vec2 → Bool)
    (st : AState) (current : Vec2) :
    evalNeighbours penalty goal valid st current =
    List.foldl (evalStep penalty goal valid current) st Direction.list := rfl

theorem attOf_spec (penalty : Int) (c : Cost) (t : Bool) (hc : costOK c)
    (hpen : 0 ≤ penalty) :
    costOK (attOf penalty c t) ∧ c.distance < (attOf penalty c t).distance := by
  obtain ⟨h1, h2⟩ := hc
  cases t with
  | false =>
    unfold attOf
    rw [if_neg (by simp)]
    exact ⟨⟨by dsimp only; omega, by dsimp only; omega⟩, by dsimp only; omega⟩
  | true =>
    unfold attOf
    rw [if_pos rfl]
    exact ⟨⟨by dsimp only; omega, by dsimp only; omega⟩, by dsimp only; omega⟩

theorem clt_distance_le {a b : Cost} (h : Cost.clt a b = true) :
    a.distance ≤ b.distance := by
  unfold Cost.clt at h
  simp only [Bool.or_eq_true, decide_eq_true_eq, Bool.and_eq_true] at h
  rcases h with h | ⟨h, _⟩
  · omega
  · omega

theorem moveOne_ne (p : Vec2) (d : Direction) : Vec2.moveOne p d ≠ p := by
  intro hc
  rw [Vec2.eq_iff] at hc
  obtain ⟨h1, h2⟩ := hc
  cases d <;> simp [Vec2.moveOne] at h1 h2 <;> omega


def relaxed (penalty : Int) (goal current : Vec2) (st : AState) (d : Direction)
    (c : Cost) : AState :=
  let nb := Vec2.moveOne current d
  let att := attOf penalty c (turnFlag st.predecessors current d)
  { travelled := ainsert st.travelled nb att
    predecessors := ainsert st.predecessors nb current
    costPoints := heapPush st.costPoints
      ({ distance := att.distance + (idist nb.x goal.x + idist nb.y goal.y),
         turns := att.turns }, nb) }

theorem relax_spec (penalty : Int) (startP goal : Vec2) (valid : Vec2 → Bool)
    (U : List Vec2) (hpen : 0 ≤ penalty)
    (hU : ∀ p : Vec2, valid p = true → p ∈ U)
    (current : Vec2) (st : AState) (d : Direction)
    (hbase : AInvBase startP valid U st) (hReach : Reach valid startP current)
    (hv : valid (Vec2.moveOne current d) = true)
    {c : Cost} (hc : aget st.travelled current = some c)
    (hbet : ∀ old : Cost,
      aget st.travelled (Vec2.moveOne current d) = some old →
      Cost.clt (attOf penalty c (turnFlag st.predecessors current d)) old = true) :
    AInvBase startP valid U (relaxed penalty goal current st d c) ∧
    (∀ k : Vec2, (aget st.travelled k).isSome = true →
      (aget (relaxed penalty goal current st d c).travelled k).isSome = true) ∧
    (∀ e ∈ st.costPoints, e ∈ (relaxed penalty goal current st d c).costPoints) ∧
    (∀ k : Vec2,
      (aget (relaxed penalty goal current st d c).travelled k).isSome = true →
      (aget st.travelled k).isSome = true ∨
      ∃ e ∈ (relaxed penalty goal current st d c).costPoints, e.2 = k) ∧
    (aget (relaxed penalty goal current st d c).travelled
      (Vec2.moveOne current d)).isSome = true ∧
    muPairLt U (relaxed penalty goal current st d c) st := by
  obtain ⟨hOK, hHT, hRe, hS, hKU, hPD⟩ := hbase
  set st2 := relaxed penalty goal current st d c with hst2
  set nb := Vec2.moveOne current d with hnb
  set att := attOf penalty c (turnFlag st.predecessors current d) with hatt
  obtain ⟨hattOK, hattD⟩ := attOf_spec penalty c _ (hOK current c hc) hpen
  have hnbne : nb ≠ current := by
    rw [hnb]
    exact moveOne_ne current d
  have hget2 : ∀ k : Vec2, aget st2.travelled k =
      if k = nb then some att else aget st.travelled k := by
    intro k
    exact aget_ainsert _ _ _ _
  have hpred2 : ∀ k : Vec2, aget st2.predecessors k =
      if k = nb then some current else aget st.predecessors k := by
    intro k
    exact aget_ainsert _ _ _ _
  have hcp : st2.costPoints = heapPush st.costPoints
      ({ distance := att.distance + (idist nb.x goal.x + idist nb.y goal.y),
         turns := att.turns }, nb) := rfl
  have hheap2 : ∀ e : HeapEntry, e ∈ st2.costPoints ↔
      e = ({ distance := att.distance + (idist nb.x goal.x + idist nb.y goal.y),
             turns := att.turns }, nb) ∨ e ∈ st.costPoints := by
    intro e
    rw [hcp]
    constructor
    · intro he
      exact List.mem_cons.mp ((heapPush_perm _ _).mem_iff.mp he)
    · intro he
      exact (heapPush_perm _ _).mem_iff.mpr (List.mem_cons.mpr he)
  refine ⟨⟨?_, ?_, ?_, ?_, ?_, ?_⟩, ?_, ?_, ?_, ?_, ?_⟩
  · intro k ck hk
    rw [hget2 k] at hk
    by_cases hkb : k = nb
    · rw [if_pos hkb] at hk
      rw [← Option.some_inj.mp hk]
      exact hattOK
    · rw [if_neg hkb] at hk
      exact hOK k ck hk
  · intro e he
    rcases (hheap2 e).mp he with he1 | he1
    · have he2 : e.2 = nb := by rw [he1]
      rw [hget2, if_pos he2]
      rfl
    · rw [hget2]
      by_cases hkb : e.2 = nb
      · rw [if_pos hkb]
        rfl
      · rw [if_neg hkb]
        exact hHT e he1
  · intro k ck hk
    rw [hget2 k] at hk
    by_cases hkb : k = nb
    · rw [hkb, hnb]
      exact Reach.step d hReach hv
    · rw [if_neg hkb] at hk
      exact hRe k ck hk
  · rw [hget2]
    by_cases hsb : startP = nb
    · rw [if_pos hsb]
      rfl
    · rw [if_neg hsb]
      exact hS
  · intro k hk
    rw [hget2 k] at hk
    by_cases hkb : k = nb
    · rw [hkb]
      exact hU nb hv
    · rw [if_neg hkb] at hk
      exact hKU k hk
  · intro k c2 hkp
    rw [hpred2 k] at hkp
    by_cases hkb : k = nb
    · rw [if_pos hkb] at hkp
      have hc2 : c2 = current := (Option.some_inj.mp hkp).symm
      refine ⟨att, c, ?_, ?_, hattD⟩
      · rw [hget2, if_pos hkb]
      · rw [hget2, hc2, if_neg (fun hcc => hnbne hcc.symm)]
        exact hc
    · rw [if_neg hkb] at hkp
      obtain ⟨ck, cc, h1, h2, h3⟩ := hPD k c2 hkp
      by_cases hc2b : c2 = nb
      · have hold : aget st.travelled nb = some cc := by
          rw [← hc2b]
          exact h2
        have hclt := hbet cc hold
        refine ⟨ck, att, ?_, ?_, ?_⟩
        · rw [hget2, if_neg hkb]
          exact h1
        · rw [hget2, if_pos hc2b]
        · have hdle := clt_distance_le hclt
          omega
      · refine ⟨ck, cc, ?_, ?_, h3⟩
        · rw [hget2, if_neg hkb]
          exact h1
        · rw [hget2, if_neg hc2b]
          exact h2
  · intro k hk
    rw [hget2]
    by_cases hkb : k = nb
    · rw [if_pos hkb]
      rfl
    · rw [if_neg hkb]
      exact hk
  · intro e he
    exact (hheap2 e).mpr (Or.inr he)
  · intro k hk
    rw [hget2 k] at hk
    by_cases hkb : k = nb
    · right
      refine ⟨({ distance := att.distance + (idist nb.x goal.x + idist nb.y goal.y), turns := att.turns }, nb), (hheap2 _).mpr (Or.inl rfl), ?_⟩
      rw [hkb]
    · rw [if_neg hkb] at hk
      exact Or.inl hk
  · rw [hget2, if_pos rfl]
    rfl
  · cases hb : aget st.travelled nb with
    | none =>
      left
      unfold muNew
      refine filter_length_lt U ?_ ?_
      · intro p hp hQ
        rw [hget2] at hQ
        by_cases hpb : p = nb
        · rw [if_pos hpb] at hQ
          simp at hQ
        · rw [if_neg hpb] at hQ
          exact hQ
      · refine ⟨nb, hU nb hv, ?_, ?_⟩
        · rw [hb]
          rfl
        · rw [hget2, if_pos rfl]
          rfl
    | some old =>
      right
      have hclt := hbet old hb
      constructor
      · unfold muNew
        congr 1
        refine List.filter_congr ?_
        intro p hp
        rw [hget2]
        by_cases hpb : p = nb
        · rw [if_pos hpb, hpb, hb]
          rfl
        · rw [if_neg hpb]
      · unfold muRank
        refine sum_map_lt U ?_ ?_
        · intro p hp
          rw [hget2]
          by_cases hpb : p = nb
          · rw [if_pos hpb, hpb, hb]
            exact le_of_lt (crank_lt hattOK (hOK nb old hb) hclt)
          · rw [if_neg hpb]
        · refine ⟨nb, hU nb hv, ?_⟩
          rw [hget2, if_pos rfl, hb]
          exact crank_lt hattOK (hOK nb old hb) hclt

theorem evalStep_spec (penalty : Int) (startP goal : Vec2) (valid : Vec2 → Bool)
    (U : List Vec2) (hpen : 0 ≤ penalty)
    (hU : ∀ p : Vec2, valid p = true → p ∈ U)
    (current : Vec2) (st : AState) (d : Direction)
    (hbase : AInvBase startP valid U st)
    (hReach : Reach valid startP current) :
    AInvBase startP valid U (evalStep penalty goal valid current st d) ∧
    (∀ k : Vec2, (aget st.travelled k).isSome = true →
      (aget (evalStep penalty goal valid current st d).travelled k).isSome = true) ∧
    (∀ e ∈ st.costPoints,
      e ∈ (evalStep penalty goal valid current st d).costPoints) ∧
    (∀ k : Vec2,
      (aget (evalStep penalty goal valid current st d).travelled k).isSome = true →
      (aget st.travelled k).isSome = true ∨
      ∃ e ∈ (evalStep penalty goal valid current st d).costPoints, e.2 = k) ∧
    (valid (Vec2.moveOne current d) = true →
      (aget st.travelled current).isSome = true →
      (aget (evalStep penalty goal valid current st d).travelled
        (Vec2.moveOne current d)).isSome = true) ∧
    (evalStep penalty goal valid current st d = st ∨
      muPairLt U (evalStep penalty goal valid current st d) st) := by
  unfold evalStep
  dsimp only
  by_cases hv : valid (Vec2.moveOne current d) = true
  · rw [if_pos hv]
    cases hc : aget st.travelled current with
    | none =>
      refine ⟨hbase, fun k h => h, fun e he => he, fun k h => Or.inl h, ?_,
        Or.inl rfl⟩
      intro _ hcs
      simp at hcs
    | some c =>
      dsimp only
      cases hb : aget st.travelled (Vec2.moveOne current d) with
      | none =>
        rw [if_pos (show betterOf none
            (attOf penalty c (turnFlag st.predecessors current d)) = true from rfl)]
        obtain ⟨r1, r2, r3, r4, r5, r6⟩ := relax_spec penalty startP goal valid U
          hpen hU current st d
          hbase hReach hv hc
          (fun old2 hold2 => by
            rw [hb] at hold2
            exact Option.noConfusion hold2)
        exact ⟨r1, r2, r3, r4, fun _ _ => r5, Or.inr r6⟩
      | some old =>
        by_cases hcl : Cost.clt
            (attOf penalty c (turnFlag st.predecessors current d)) old = true
        · rw [if_pos (show betterOf (some old)
              (attOf penalty c (turnFlag st.predecessors current d)) = true from hcl)]
          obtain ⟨r1, r2, r3, r4, r5, r6⟩ := relax_spec penalty startP goal valid U
            hpen hU current st d hbase hReach hv hc
            (fun old2 hold2 => by
              rw [hb] at hold2
              rw [← Option.some_inj.mp hold2]
              exact hcl)
          exact ⟨r1, r2, r3, r4, fun _ _ => r5, Or.inr r6⟩
        · rw [if_neg (show ¬ betterOf (some old)
              (attOf penalty c (turnFlag st.predecessors current d)) = true from hcl)]
          refine ⟨hbase, fun k h => h, fun e he => he, fun k h => Or.inl h, ?_,
            Or.inl rfl⟩
          intro _ _
          rw [hb]
          rfl
  · rw [if_neg hv]
    exact ⟨hbase, fun k h => h, fun e he => he, fun k h => Or.inl h,
      fun hvv _ => absurd hvv hv, Or.inl rfl⟩


theorem muPairLt_trans {U : List Vec2} {a b c : AState} (h1 : muPairLt U a b)
    (h2 : muPairLt U b c) : muPairLt U a c := by
  unfold muPairLt at h1 h2 ⊢
  rcases h1 with h1 | ⟨h1a, h1b⟩ <;> rcases h2 with h2 | ⟨h2a, h2b⟩
  · left
    omega
  · left
    omega
  · left
    omega
  · right
    exact ⟨by omega, by omega⟩

theorem evalFold_spec (penalty : Int) (startP goal : Vec2) (valid : Vec2 → Bool)
    (U : List Vec2) (hpen : 0 ≤ penalty)
    (hU : ∀ p : Vec2, valid p = true → p ∈ U) (current : Vec2)
    (hReach : Reach valid startP current) :
    ∀ (l : List Direction) (st : AState), AInvBase startP valid U st →
    AInvBase startP valid U
      (List.foldl (evalStep penalty goal valid current) st l) ∧
    (∀ k : Vec2, (aget st.travelled k).isSome = true →
      (aget (List.foldl (evalStep penalty goal valid current) st l).travelled
        k).isSome = true) ∧
    (∀ e ∈ st.costPoints,
      e ∈ (List.foldl (evalStep penalty goal valid current) st l).costPoints) ∧
    (∀ k : Vec2,
      (aget (List.foldl (evalStep penalty goal valid current) st l).travelled
        k).isSome = true →
      (aget st.travelled k).isSome = true ∨
      ∃ e ∈ (List.foldl (evalStep penalty goal valid current) st l).costPoints,
        e.2 = k) ∧
    ((aget st.travelled current).isSome = true → ∀ d ∈ l,
      valid (Vec2.moveOne current d) = true →
      (aget (List.foldl (evalStep penalty goal valid current) st l).travelled
        (Vec2.moveOne current d)).isSome = true) ∧
    (List.foldl (evalStep penalty goal valid current) st l = st ∨
      muPairLt U (List.foldl (evalStep penalty goal valid current) st l) st) := by
  intro l
  induction l with
  | nil =>
    intro st hbase
    refine ⟨hbase, fun k h => h, fun e he => he, fun k h => Or.inl h, ?_,
      Or.inl rfl⟩
    intro _ d hd
    exact absurd hd (List.not_mem_nil d)
  | cons a tl ih =>
    intro st hbase
    simp only [List.foldl_cons]
    obtain ⟨s1, s2, s3, s4, s5, s6⟩ := evalStep_spec penalty startP goal valid U
      hpen hU current st a hbase hReach
    obtain ⟨i1, i2, i3, i4, i5, i6⟩ := ih (evalStep penalty goal valid current st a) s1
    refine ⟨i1, fun k h => i2 k (s2 k h), fun e he => i3 e (s3 e he), ?_, ?_, ?_⟩
    · intro k h
      rcases i4 k h with h1 | h1
      · rcases s4 k h1 with h2 | ⟨e, he, hek⟩
        · exact Or.inl h2
        · exact Or.inr ⟨e, i3 e he, hek⟩
      · exact Or.inr h1
    · intro hcur d hd hvd
      rcases List.mem_cons.mp hd with hda | hdt
      · subst hda
        exact i2 _ (s5 hvd hcur)
      · exact i5 (s2 current hcur) d hdt hvd
    · rcases i6 with hie | hilt
      · rcases s6 with hse | hslt
        · exact Or.inl (hie.trans hse)
        · exact Or.inr (by rw [hie]; exact hslt)
      · rcases s6 with hse | hslt
        · right
          nth_rewrite 2 [hse] at hilt
          exact hilt
        · exact Or.inr (muPairLt_trans hilt hslt)

theorem runGo_succ (fuel : Nat) (penalty : Int) (startP goal : Vec2)
    (valid : Vec2 → Bool) (st : AState) (g : Graph) :
    runGo (fuel + 1) penalty startP goal valid st g =
      match heapPop st.costPoints with
      | none => MPOut.noPath g
      | some (entry, heap1) =>
        if entry.2 = goal then
          assembleGo fuel st.predecessors startP g goal goal []
        else
          runGo fuel penalty startP goal valid
            (evalNeighbours penalty goal valid { st with costPoints := heap1 }
              entry.2) g := rfl


theorem assembleGo_succ (fuel : Nat) (preds : List (Vec2 × Vec2)) (startP : Vec2)
    (g : Graph) (lastV current : Vec2) (steps : List DirecVector) :
    assembleGo (fuel + 1) preds startP g lastV current steps =
      (if current = startP then MPOut.path steps g
       else
        match aget preds current with
        | none => MPOut.panicked
        | some prev =>
          match Vec2.directionTo prev current with
          | none => MPOut.panicked
          | some dir =>
            let cont := fun (g1 : Graph) (lastV1 : Vec2)
                (steps1 : List DirecVector) =>
              if SMap.contains g1.verticesEdges prev then
                match Graph.connectE g1 lastV1 prev with
                | none => MPOut.panicked
                | some r =>
                  assembleGo fuel preds startP r.2 prev prev steps1
              else
                assembleGo fuel preds startP g1 lastV1 prev steps1
            match steps with
            | s :: rest =>
              if s.direction = dir then
                cont g lastV ({ direction := dir, magnitude := s.magnitude + 1 } :: rest)
              else
                if lastV ≠ current then
                  let g1 := (Graph.createVertex g current).2
                  match Graph.connectE g1 lastV current with
                  | none => MPOut.panicked
                  | some r =>
                    cont r.2 current ({ direction := dir, magnitude := 1 } :: s :: rest)
                else
                  cont g lastV ({ direction := dir, magnitude := 1 } :: s :: rest)
            | [] =>
              if lastV ≠ current then
                let g1 := (Graph.createVertex g current).2
                match Graph.connectE g1 lastV current with
                | none => MPOut.panicked
                | some r =>
                  cont r.2 current [{ direction := dir, magnitude := 1 }]
              else
                cont g lastV [{ direction := dir, magnitude := 1 }]) := rfl

theorem assembleGo_ne_noPath :
    ∀ (fuel : Nat) (preds : List (Vec2 × Vec2)) (startP : Vec2) (g : Graph)
      (lastV current : Vec2) (steps : List DirecVector) (gr : Graph),
      assembleGo fuel preds startP g lastV current steps ≠ MPOut.noPath gr := by
  intro fuel
  induction fuel with
  | zero =>
    intro preds startP g lastV current steps gr h
    exact MPOut.noConfusion h
  | succ f ih =>
    intro preds startP g lastV current steps gr h
    rw [assembleGo_succ] at h
    dsimp only at h
    repeat' split at h
    all_goals
      first
        | exact MPOut.noConfusion h
        | exact ih _ _ _ _ _ _ _ h

theorem assembleGo_term (preds : List (Vec2 × Vec2)) (startP : Vec2)
    (trav : List (Vec2 × Cost))
    (hPD : ∀ (k c2 : Vec2), aget preds k = some c2 →
      ∃ ck cc, aget trav k = some ck ∧ aget trav c2 = some cc ∧
        cc.distance < ck.distance)
    (hOK : ∀ (k : Vec2) (c : Cost), aget trav k = some c → costOK c) :
    ∀ (n : Nat) (current : Vec2) (ck : Cost), aget trav current = some ck →
      ck.distance.toNat < n →
      ∀ (g : Graph) (lastV : Vec2) (steps : List DirecVector),
        ∃ fuel : Nat,
          assembleGo fuel preds startP g lastV current steps ≠ MPOut.fuelOut := by
  intro n
  induction n with
  | zero =>
    intro current ck hck hlt
    omega
  | succ n ih =>
    intro current ck hck hlt g lastV steps
    by_cases hcs : current = startP
    · refine ⟨1, ?_⟩
      rw [show (1 : Nat) = 0 + 1 from rfl, assembleGo_succ, if_pos hcs]
      exact fun h => MPOut.noConfusion h
    · cases hpred : aget preds current with
      | none =>
        refine ⟨1, ?_⟩
        rw [show (1 : Nat) = 0 + 1 from rfl, assembleGo_succ, if_neg hcs, hpred]
        exact fun h => MPOut.noConfusion h
      | some prev =>
        obtain ⟨ck2, cc, hck2, hcc, hdlt⟩ := hPD current prev hpred
        have hdlt2 : cc.distance < ck.distance := by
          rw [hck] at hck2
          rw [Option.some_inj.mp hck2]
          exact hdlt
        have hccOK := hOK prev cc hcc
        have hckOK := hOK current ck hck
        have hlt2 : cc.distance.toNat < n := by
          obtain ⟨h1, h2⟩ := hccOK
          obtain ⟨h3, h4⟩ := hckOK
          omega
        cases hdir : Vec2.directionTo prev current with
        | none =>
          refine ⟨1, ?_⟩
          rw [show (1 : Nat) = 0 + 1 from rfl, assembleGo_succ, if_neg hcs, hpred]
          dsimp only
          rw [hdir]
          exact fun h => MPOut.noConfusion h
        | some dir =>
          have hcont : ∀ (g1 : Graph) (lastV1 : Vec2)
              (steps1 : List DirecVector), ∃ fuel : Nat,
              (if SMap.contains g1.verticesEdges prev then
                match Graph.connectE g1 lastV1 prev with
                | none => MPOut.panicked
                | some r =>
                  assembleGo fuel preds startP r.2 prev prev steps1
              else
                assembleGo fuel preds startP g1 lastV1 prev steps1) ≠
                MPOut.fuelOut := by
            intro g1 lastV1 steps1
            by_cases hct : SMap.contains g1.verticesEdges prev = true
            · cases hconn : Graph.connectE g1 lastV1 prev with
              | none =>
                refine ⟨0, ?_⟩
                rw [if_pos hct]
                exact fun h => MPOut.noConfusion h
              | some r =>
                obtain ⟨F, hF⟩ := ih prev cc hcc hlt2 r.2 prev steps1
                refine ⟨F, ?_⟩
                rw [if_pos hct]
                exact hF
            · obtain ⟨F, hF⟩ := ih prev cc hcc hlt2 g1 lastV1 steps1
              refine ⟨F, ?_⟩
              rw [if_neg hct]
              exact hF
          cases steps with
          | cons st rest =>
            by_cases hsd : st.direction = dir
            · obtain ⟨F, hF⟩ := hcont g lastV
                ({ direction := dir, magnitude := st.magnitude + 1 } :: rest)
              refine ⟨F + 1, ?_⟩
              rw [assembleGo_succ, if_neg hcs, hpred]
              dsimp only
              rw [hdir]
              dsimp only
              rw [if_pos hsd]
              exact hF
            · by_cases hlv : lastV ≠ current
              · cases hconn2 : Graph.connectE (Graph.createVertex g current).2
                    lastV current with
                | none =>
                  refine ⟨1, ?_⟩
                  rw [show (1 : Nat) = 0 + 1 from rfl, assembleGo_succ,
                    if_neg hcs, hpred]
                  dsimp only
                  rw [hdir]
                  dsimp only
                  rw [if_neg hsd, if_pos hlv]
                  rw [hconn2]
                  exact fun h => MPOut.noConfusion h
                | some r =>
                  obtain ⟨F, hF⟩ := hcont r.2 current
                    ({ direction := dir, magnitude := 1 } :: st :: rest)
                  refine ⟨F + 1, ?_⟩
                  rw [assembleGo_succ, if_neg hcs, hpred]
                  dsimp only
                  rw [hdir]
                  dsimp only
                  rw [if_neg hsd, if_pos hlv]
                  rw [hconn2]
                  exact hF
              · obtain ⟨F, hF⟩ := hcont g lastV
                  ({ direction := dir, magnitude := 1 } :: st :: rest)
                refine ⟨F + 1, ?_⟩
                rw [assembleGo_succ, if_neg hcs, hpred]
                dsimp only
                rw [hdir]
                dsimp only
                rw [if_neg hsd, if_neg hlv]
                exact hF
          | nil =>
            by_cases hlv : lastV ≠ current
            · cases hconn2 : Graph.connectE (Graph.createVertex g current).2
                  lastV current with
              | none =>
                refine ⟨1, ?_⟩
                rw [show (1 : Nat) = 0 + 1 from rfl, assembleGo_succ,
                  if_neg hcs, hpred]
                dsimp only
                rw [hdir]
                dsimp only
                rw [if_pos hlv]
                rw [hconn2]
                exact fun h => MPOut.noConfusion h
              | some r =>
                obtain ⟨F, hF⟩ := hcont r.2 current
                  [{ direction := dir, magnitude := 1 }]
                refine ⟨F + 1, ?_⟩
                rw [assembleGo_succ, if_neg hcs, hpred]
                dsimp only
                rw [hdir]
                dsimp only
                rw [if_pos hlv]
                rw [hconn2]
                exact hF
            · obtain ⟨F, hF⟩ := hcont g lastV
                [{ direction := dir, magnitude := 1 }]
              refine ⟨F + 1, ?_⟩
              rw [assembleGo_succ, if_neg hcs, hpred]
              dsimp only
              rw [hdir]
              dsimp only
              rw [if_neg hlv]
              exact hF


/-- The outcome contract of the search loop: fuel suffices, a None result
certifies unreachability, and a path or an assembly panic certifies
reachability of the goal. -/
def GoodOut (valid : Vec2 → Bool) (startP goal : Vec2) (o : MPOut) : Prop :=
  o ≠ MPOut.fuelOut ∧
  ((∃ gr : Graph, o = MPOut.noPath gr) → ¬ Reach valid startP goal) ∧
  (((∃ steps gr, o = MPOut.path steps gr) ∨ o = MPOut.panicked) →
    Reach valid startP goal)

theorem triple_induction (P : Nat → Nat → Nat → Prop)
    (h : ∀ n1 n2 n3 : Nat,
      (∀ m1 m2 m3 : Nat, m1 < n1 → P m1 m2 m3) →
      (∀ m2 m3 : Nat, m2 < n2 → P n1 m2 m3) →
      (∀ m3 : Nat, m3 < n3 → P n1 n2 m3) → P n1 n2 n3) :
    ∀ n1 n2 n3 : Nat, P n1 n2 n3 := by
  intro n1
  induction n1 using Nat.strong_induction_on with
  | _ n1 ih1 =>
    intro n2
    induction n2 using Nat.strong_induction_on with
    | _ n2 ih2 =>
      intro n3
      induction n3 using Nat.strong_induction_on with
      | _ n3 ih3 =>
        exact h n1 n2 n3 (fun m1 m2 m3 hm => ih1 m1 hm m2 m3)
          (fun m2 m3 hm => ih2 m2 hm m3) (fun m3 hm => ih3 m3 hm)

theorem closed_not_reach (startP goal : Vec2) (valid : Vec2 → Bool)
    (st : AState) (hS : (aget st.travelled startP).isSome = true)
    (hcomp : AComplete goal valid st) (hempty : st.costPoints = []) :
    ¬ Reach valid startP goal := by
  have htrav : ∀ k : Vec2, Reach valid startP k →
      (aget st.travelled k).isSome = true := by
    intro k hk
    induction hk with
    | base => exact hS
    | step d hq hv ih =>
      rcases hcomp _ ih with ⟨e, he, _⟩ | ⟨_, hall⟩
      · rw [hempty] at he
        exact absurd he (List.not_mem_nil e)
      · exact hall d hv
  intro hg
  rcases hcomp goal (htrav goal hg) with ⟨e, he, _⟩ | ⟨hne, _⟩
  · rw [hempty] at he
    exact absurd he (List.not_mem_nil e)
  · exact hne rfl

theorem expand_spec (penalty : Int) (startP goal : Vec2) (valid : Vec2 → Bool)
    (U : List Vec2) (hpen : 0 ≤ penalty)
    (hU : ∀ p : Vec2, valid p = true → p ∈ U)
    (st : AState) (entry : HeapEntry) (heap1 : List HeapEntry)
    (hpop : heapPop st.costPoints = some (entry, heap1))
    (hbase : AInvBase startP valid U st) (hcomp : AComplete goal valid st)
    (hng : entry.2 ≠ goal) :
    AInvBase startP valid U (evalNeighbours penalty goal valid
      { st with costPoints := heap1 } entry.2) ∧
    AComplete goal valid (evalNeighbours penalty goal valid
      { st with costPoints := heap1 } entry.2) ∧
    (muPairLt U (evalNeighbours penalty goal valid
        { st with costPoints := heap1 } entry.2) st ∨
      (muNew U (evalNeighbours penalty goal valid
          { st with costPoints := heap1 } entry.2) = muNew U st ∧
        muRank U (evalNeighbours penalty goal valid
          { st with costPoints := heap1 } entry.2) = muRank U st ∧
        (evalNeighbours penalty goal valid
          { st with costPoints := heap1 } entry.2).costPoints.length <
          st.costPoints.length)) := by
  obtain ⟨hOK, hHT, hRe, hS, hKU, hPD⟩ := hbase
  have hperm := heapPop_perm hpop
  have hentry : entry ∈ st.costPoints :=
    hperm.mem_iff.mpr (List.mem_cons_self _ _)
  have htravE : (aget st.travelled entry.2).isSome = true := hHT entry hentry
  obtain ⟨ce, hce⟩ := Option.isSome_iff_exists.mp htravE
  have hReachE : Reach valid startP entry.2 := hRe entry.2 ce hce
  have hbase1 : AInvBase startP valid U { st with costPoints := heap1 } := by
    refine ⟨hOK, ?_, hRe, hS, hKU, hPD⟩
    intro e he
    exact hHT e (hperm.mem_iff.mpr (List.mem_cons_of_mem _ he))
  rw [evalNeighbours_eq]
  obtain ⟨f1, f2, f3, f4, f5, f6⟩ := evalFold_spec penalty startP goal valid U
    hpen hU entry.2 hReachE Direction.list { st with costPoints := heap1 } hbase1
  refine ⟨f1, ?_, ?_⟩
  · intro k hk
    rcases f4 k hk with hk1 | hk1
    · rcases hcomp k hk1 with ⟨e, he, hek⟩ | ⟨hkg, hall⟩
      · rcases List.mem_cons.mp (hperm.mem_iff.mp he) with hee | hee
        · right
          have hke : k = entry.2 := by rw [← hek, hee]
          refine ⟨by rw [hke]; exact hng, ?_⟩
          intro d hvd
          rw [hke] at hvd ⊢
          exact f5 htravE d (Direction.mem_list d) hvd
        · left
          exact ⟨e, f3 e hee, hek⟩
      · right
        exact ⟨hkg, fun d hvd => f2 _ (hall d hvd)⟩
    · exact Or.inl hk1
  · rcases f6 with heq | hlt
    · right
      refine ⟨?_, ?_, ?_⟩
      · rw [heq]
        rfl
      · rw [heq]
        rfl
      · rw [heq]
        show heap1.length < st.costPoints.length
        have hl := heapPop_length hpop
        omega
    · exact Or.inl hlt

theorem runGo_good (penalty : Int) (startP goal : Vec2) (valid : Vec2 → Bool)
    (U : List Vec2) (hpen : 0 ≤ penalty)
    (hU : ∀ p : Vec2, valid p = true → p ∈ U) :
    ∀ (st : AState) (g : Graph), AInvBase startP valid U st →
      AComplete goal valid st →
      ∃ fuel : Nat,
        GoodOut valid startP goal (runGo fuel penalty startP goal valid st g) := by
  have main : ∀ n1 n2 n3 : Nat, ∀ (st : AState) (g : Graph),
      muNew U st = n1 → muRank U st = n2 → st.costPoints.length = n3 →
      AInvBase startP valid U st → AComplete goal valid st →
      ∃ fuel : Nat,
        GoodOut valid startP goal (runGo fuel penalty startP goal valid st g) := by
    refine triple_induction
      (fun n1 n2 n3 => ∀ (st : AState) (g : Graph),
        muNew U st = n1 → muRank U st = n2 → st.costPoints.length = n3 →
        AInvBase startP valid U st → AComplete goal valid st →
        ∃ fuel : Nat,
          GoodOut valid startP goal
            (runGo fuel penalty startP goal valid st g)) ?_
    intro n1 n2 n3 ih1 ih2 ih3 st g h1 h2 h3 hbase hcomp
    cases hpop : heapPop st.costPoints with
    | none =>
      refine ⟨0 + 1, ?_⟩
      rw [runGo_succ, hpop]
      refine ⟨fun h => MPOut.noConfusion h, fun _ => ?_, fun h => ?_⟩
      · exact closed_not_reach startP goal valid st hbase.2.2.2.1 hcomp
          ((heapPop_eq_none_iff st.costPoints).mp hpop)
      · rcases h with ⟨steps, gr, hh⟩ | hh
        · exact MPOut.noConfusion hh
        · exact MPOut.noConfusion hh
    | some pr =>
      obtain ⟨entry, heap1⟩ := pr
      have hperm := heapPop_perm hpop
      have hentry : entry ∈ st.costPoints :=
        hperm.mem_iff.mpr (List.mem_cons_self _ _)
      have htravE : (aget st.travelled entry.2).isSome = true :=
        hbase.2.1 entry hentry
      obtain ⟨ce, hce⟩ := Option.isSome_iff_exists.mp htravE
      have hReachE : Reach valid startP entry.2 := hbase.2.2.1 entry.2 ce hce
      by_cases hgoal : entry.2 = goal
      · have hReachG : Reach valid startP goal := by
          rw [← hgoal]
          exact hReachE
        have hceG : aget st.travelled goal = some ce := by
          rw [← hgoal]
          exact hce
        obtain ⟨af, haf⟩ := assembleGo_term st.predecessors startP st.travelled
          hbase.2.2.2.2.2 hbase.1 (ce.distance.toNat + 1) goal ce hceG
          (Nat.lt_succ_self _) g goal []
        refine ⟨af + 1, ?_⟩
        rw [runGo_succ, hpop]
        dsimp only
        rw [if_pos hgoal]
        refine ⟨haf, fun h => ?_, fun _ => hReachG⟩
        obtain ⟨gr, hgr⟩ := h
        exact absurd hgr
          (assembleGo_ne_noPath af st.predecessors startP g goal goal [] gr)
      · obtain ⟨e1, e2, e3⟩ := expand_spec penalty startP goal valid U hpen hU
          st entry heap1 hpop hbase hcomp hgoal
        have hnext : ∃ fuel : Nat, GoodOut valid startP goal
            (runGo fuel penalty startP goal valid
              (evalNeighbours penalty goal valid
                { st with costPoints := heap1 } entry.2) g) := by
          rcases e3 with hlt | ⟨hn, hr, hl⟩
          · rcases hlt with hlt1 | ⟨hleq, hltr⟩
            · exact ih1 _ _ _ (by rw [← h1]; exact hlt1) _ g rfl rfl rfl e1 e2
            · exact ih2 _ _ (by rw [← h2]; exact hltr) _ g (hleq.trans h1)
                rfl rfl e1 e2
          · exact ih3 _ (by rw [← h3]; exact hl) _ g (hn.trans h1)
              (hr.trans h2) rfl e1 e2
        obtain ⟨f, hf⟩ := hnext
        refine ⟨f + 1, ?_⟩
        rw [runGo_succ, hpop]
        dsimp only
        rw [if_neg hgoal]
        exact hf
  intro st g hbase hcomp
  exact main (muNew U st) (muRank U st) st.costPoints.length st g rfl rfl rfl
    hbase hcomp


/-- C8: for every graph, start and goal vertices, non-negative penalty, and
validity predicate satisfied by only finitely many points (enumerated by a
list), make_path terminates — a fuel bound exists that the embedding never
exhausts — and with such fuel it returns None exactly when the goal is not
reachable from the start by unit cardinal steps through points satisfying
the predicate. -/
theorem claim8_make_path (g : Graph) (startP goal : Vec2) (penalty : Int)
    (valid : Vec2 → Bool) (pts : List Vec2) (hpen : 0 ≤ penalty)
    (hfin : ∀ p : Vec2, valid p = true → p ∈ pts) :
    ∃ fuel : Nat, makePath fuel g startP goal penalty valid ≠ MPOut.fuelOut ∧
      ((∃ gr : Graph, makePath fuel g startP goal penalty valid =
          MPOut.noPath gr) ↔ ¬ Reach valid startP goal) := by
  have hU : ∀ p : Vec2, valid p = true → p ∈ (startP :: pts) :=
    fun p hp => List.mem_cons_of_mem _ (hfin p hp)
  have hag : ∀ k : Vec2,
      aget [(startP, ({ distance := 0, turns := 0 } : Cost))] k =
        if k = startP then some { distance := 0, turns := 0 } else none := by
    intro k
    rfl
  have hbase0 : AInvBase startP valid (startP :: pts)
      { travelled := [(startP, { distance := 0, turns := 0 })]
        predecessors := []
        costPoints := heapPush [] ({ distance := 0, turns := 0 }, startP) } := by
    refine ⟨?_, ?_, ?_, ?_, ?_, ?_⟩
    · intro k c hk
      rw [hag] at hk
      by_cases hks : k = startP
      · rw [if_pos hks] at hk
        rw [← Option.some_inj.mp hk]
        exact ⟨le_refl 0, le_refl 0⟩
      · rw [if_neg hks] at hk
        exact Option.noConfusion hk
    · intro e he
      have he2 : e ∈ [(({ distance := 0, turns := 0 } : Cost), startP)] := he
      have he3 := List.mem_singleton.mp he2
      rw [he3, hag, if_pos rfl]
      rfl
    · intro k c hk
      rw [hag] at hk
      by_cases hks : k = startP
      · rw [hks]
        exact Reach.base
      · rw [if_neg hks] at hk
        exact Option.noConfusion hk
    · simp [hag]
    · intro k hk
      rw [hag] at hk
      by_cases hks : k = startP
      · rw [hks]
        exact List.mem_cons_self _ _
      · rw [if_neg hks] at hk
        simp at hk
    · intro k c2 h
      exact Option.noConfusion h
  have hcomp0 : AComplete goal valid
      { travelled := [(startP, { distance := 0, turns := 0 })]
        predecessors := []
        costPoints := heapPush [] ({ distance := 0, turns := 0 }, startP) } := by
    intro k hk
    rw [hag] at hk
    by_cases hks : k = startP
    · left
      refine ⟨({ distance := 0, turns := 0 }, startP), ?_, ?_⟩
      · show ({ distance := 0, turns := 0 }, startP) ∈
          heapPush [] ({ distance := 0, turns := 0 }, startP)
        exact (heapPush_perm [] _).mem_iff.mpr (List.mem_cons_self _ _)
      · rw [hks]
    · rw [if_neg hks] at hk
      simp at hk
  obtain ⟨fuel, h1, h2, h3⟩ := runGo_good penalty startP goal valid
    (startP :: pts) hpen hU
    { travelled := [(startP, { distance := 0, turns := 0 })]
      predecessors := []
      costPoints := heapPush [] ({ distance := 0, turns := 0 }, startP) }
    g hbase0 hcomp0
  refine ⟨fuel, h1, ?_⟩
  constructor
  · exact h2
  · intro hnr
    cases ho : makePath fuel g startP goal penalty valid with
    | fuelOut => exact absurd ho h1
    | noPath gr => exact ⟨gr, rfl⟩
    | path steps gr => exact absurd (h3 (Or.inl ⟨steps, gr, ho⟩)) hnr
    | panicked => exact absurd (h3 (Or.inr ho)) hnr

theorem claim8_make_path_witness :
    ((0 : Int) ≤ 0 ∧
      (∀ p : Vec2, (fun _ : Vec2 => false) p = true → p ∈ ([] : List Vec2))) ∧
    (∃ fuel : Nat,
      makePath fuel Graph.empty { x := 0, y := 0 } { x := 1, y := 0 } 0
          (fun _ : Vec2 => false) ≠ MPOut.fuelOut ∧
      ((∃ gr : Graph,
          makePath fuel Graph.empty { x := 0, y := 0 } { x := 1, y := 0 } 0
            (fun _ : Vec2 => false) = MPOut.noPath gr) ↔
        ¬ Reach (fun _ : Vec2 => false) { x := 0, y := 0 } { x := 1, y := 0 })) :=
  ⟨⟨by decide, fun p hp => Bool.noConfusion hp⟩,
    claim8_make_path Graph.empty { x := 0, y := 0 } { x := 1, y := 0 } 0
      (fun _ : Vec2 => false) [] (by decide) (fun p hp => Bool.noConfusion hp)⟩

end Gardiz
